import Mathlib

/-! qtfaststart: a shallow embedding of the atom parser and the fast-start
conversion.

The Go package `qtfaststart` (files `atom.go`, `file.go`) is embedded as pure
functions on lists of bytes.

* `uint64` values are natural numbers; every `uint64` addition and subtraction of
  the source is written with `add64` / `sub64`, which reduce modulo `2 ^ 64`.
* A Go slice expression `b[lo:hi]` is `slice b lo hi`; it is `none` exactly when
  Go raises a run-time panic (the byte slice is taken with capacity equal to
  its length, as for a slice literal).
* A Go call ends in one of four ways, collected in `Res`: a value, a returned
  `error`, a run-time panic, or no return within the given number of loop
  iterations (`outOfFuel`).  Loops that the source bounds only by data read
  from the file take a `fuel` argument.
* The embedded `*bytes.Reader` of `File` only mirrors `File.bytes` and is
  left out.
-/

namespace qtfaststart

/-! ## Bytes and machine arithmetic -/

/-- One byte. -/
abbrev Byte := Fin 256

/-- Addition of two `uint64` values. -/
def add64 (a b : Nat) : Nat := (a + b) % 2 ^ 64

/-- Subtraction of two `uint64` values, wrapping around below zero. -/
def sub64 (a b : Nat) : Nat :=
  if b ≤ a then (a - b) % 2 ^ 64 else (2 ^ 64 - (b - a) % 2 ^ 64) % 2 ^ 64

/-- The Go slice expression `b[lo:hi]`; `none` stands for the run-time panic. -/
def slice (b : List Byte) (lo hi : Nat) : Option (List Byte) :=
  if lo ≤ hi ∧ hi ≤ b.length then some ((b.drop lo).take (hi - lo)) else none

/-- The value `binary.BigEndian.Uint32` (on four bytes) and
`binary.BigEndian.Uint64` (on eight bytes) read from a slice. -/
def bigEndian (b : List Byte) : Nat :=
  b.foldl (fun acc x => acc * 256 + x.val) 0

/-- The `n` bytes that `binary.BigEndian.PutUint32` (`n = 4`) and
`binary.BigEndian.PutUint64` (`n = 8`) store for the value `v`. -/
def putBigEndian : Nat → Nat → List Byte
  | 0, _ => []
  | n + 1, v => putBigEndian n (v / 256) ++ [Fin.ofNat (v % 256)]

/-! ## Outcomes -/

/-- The errors the package returns. -/
inductive Err where
  | invalidFormat
  | invalidTopLevelAtom
  | ftypNotFound
  | mdatNotFound
  | moovNotFound
  | compressedMoov
  deriving DecidableEq, Repr

/-- How a call ends: with a value, with a returned `error`, with a run-time
panic, or not within the allotted loop iterations. -/
inductive Res (α : Type) where
  | ok (a : α)
  | error (e : Err)
  | panic
  | outOfFuel
  deriving DecidableEq, Repr

/-! ## atom.go -/

/-- An atom of a Quicktime movie: `Typ` is the field `Type` of the source, as the raw bytes of the Go string. -/
structure Atom where
  Typ : List Byte
  Offset : Nat
  Size : Nat
  HeaderSize : Nat
  deriving DecidableEq, Repr

/-- The zero value `Atom{}`. -/
def Atom.zero : Atom := { Typ := [], Offset := 0, Size := 0, HeaderSize := 0 }

/-- Offset of the end of the atom. -/
def Atom.End (atom : Atom) : Nat := add64 atom.Offset atom.Size

/-- Offset of the end of the header of the atom. -/
def Atom.HeaderEnd (atom : Atom) : Nat := add64 atom.Offset atom.HeaderSize

/-- Whether the atom is the zero value of its type. -/
def Atom.IsZero (atom : Atom) : Bool := decide (atom = Atom.zero)

/-! ## Type tags -/

/-- Tag `"ftyp"`. -/
def tagFtyp : List Byte := [102, 116, 121, 112]
/-- Tag `"mdat"`. -/
def tagMdat : List Byte := [109, 100, 97, 116]
/-- Tag `"moov"`. -/
def tagMoov : List Byte := [109, 111, 111, 118]
/-- Tag `"free"`. -/
def tagFree : List Byte := [102, 114, 101, 101]
/-- Tag `"junk"`. -/
def tagJunk : List Byte := [106, 117, 110, 107]
/-- Tag `"pict"`. -/
def tagPict : List Byte := [112, 105, 99, 116]
/-- Tag `"pnot"`. -/
def tagPnot : List Byte := [112, 110, 111, 116]
/-- Tag `"skip"`. -/
def tagSkip : List Byte := [115, 107, 105, 112]
/-- Tag `"uuid"`. -/
def tagUuid : List Byte := [117, 117, 105, 100]
/-- Tag `"wide"`. -/
def tagWide : List Byte := [119, 105, 100, 101]
/-- Tag `"cmov"`. -/
def tagCmov : List Byte := [99, 109, 111, 118]
/-- Tag `"stco"`. -/
def tagStco : List Byte := [115, 116, 99, 111]
/-- Tag `"co64"`. -/
def tagCo64 : List Byte := [99, 111, 54, 52]
/-- Tag `"trak"`. -/
def tagTrak : List Byte := [116, 114, 97, 107]
/-- Tag `"mdia"`. -/
def tagMdia : List Byte := [109, 100, 105, 97]
/-- Tag `"minf"`. -/
def tagMinf : List Byte := [109, 105, 110, 102]
/-- Tag `"stbl"`. -/
def tagStbl : List Byte := [115, 116, 98, 108]
/-- Tag of four zero bytes. -/
def tagZero : List Byte := [0, 0, 0, 0]

/-! ## file.go -/

/-- A Quicktime movie file. -/
structure File where
  bytes : List Byte
  atoms : List Atom
  ftyp : Atom
  mdat : Atom
  moov : Atom
  deriving DecidableEq, Repr

/-- Decode the atom header at `offset` (`File.readAtom`). -/
def readAtom (bytes : List Byte) (offset : Nat) : Res Atom :=
  match slice bytes offset (add64 offset 4) with
  | none => .panic
  | some sizeBytes =>
    match slice bytes (add64 offset 4) (add64 offset 8) with
    | none => .panic
    | some typeBytes =>
      if bigEndian sizeBytes = 1 then
        match slice bytes (add64 offset 8) (add64 offset 16) with
        | none => .panic
        | some extBytes =>
          if bigEndian extBytes < 16 then .error .invalidFormat
          else .ok { Typ := typeBytes, Offset := offset, Size := bigEndian extBytes,
                     HeaderSize := 16 }
      else if bigEndian sizeBytes < 8 then .error .invalidFormat
      else .ok { Typ := typeBytes, Offset := offset, Size := bigEndian sizeBytes,
                 HeaderSize := 8 }

/-- The loop of `File.parse`, started at `offset`; `fuel` bounds the number
of iterations. -/
def parseLoop : Nat → Nat → File → Res File
  | 0, offset, f => if offset < f.bytes.length then .outOfFuel else .ok f
  | fuel + 1, offset, f =>
    if offset < f.bytes.length then
      match readAtom f.bytes offset with
      | .ok atom =>
        let f1 : File := { f with atoms := f.atoms ++ [atom] }
        let offset1 := add64 offset atom.Size
        if atom.Typ = tagFtyp then parseLoop fuel offset1 { f1 with ftyp := atom }
        else if atom.Typ = tagMdat then parseLoop fuel offset1 { f1 with mdat := atom }
        else if atom.Typ = tagMoov then parseLoop fuel offset1 { f1 with moov := atom }
        else if atom.Typ ∈ [tagFree, tagJunk, tagPict, tagPnot, tagSkip, tagUuid, tagWide]
        then parseLoop fuel offset1 f1
        else .error .invalidTopLevelAtom
      | .error e => .error e
      | .panic => .panic
      | .outOfFuel => .outOfFuel
    else .ok f

/-- Top-level scan (`File.parse`). -/
def parse (fuel : Nat) (f : File) : Res File := parseLoop fuel 0 f

/-- The loop of `File.containsCompressedAtoms`: the cursor is compared with
the size of the parent. -/
def compressedLoop (bytes : List Byte) (parentSize : Nat) : Nat → Nat → Res Bool
  | 0, offset => if offset < parentSize then .outOfFuel else .ok false
  | fuel + 1, offset =>
    if offset < parentSize then
      match readAtom bytes offset with
      | .ok child =>
        if child.Typ = tagCmov then .ok true
        else compressedLoop bytes parentSize fuel (add64 offset child.Size)
      | .error e => .error e
      | .panic => .panic
      | .outOfFuel => .outOfFuel
    else .ok false

/-- Scan for a `cmov` atom (`File.containsCompressedAtoms`): the cursor starts at
the offset of the parent. -/
def containsCompressedAtoms (fuel : Nat) (f : File) (parent : Atom) : Res Bool :=
  compressedLoop f.bytes parent.Size fuel parent.Offset

/-- Checks after the scan (`File.validate`); `ok ()` is the `nil` error. -/
def validate (fuel : Nat) (f : File) : Res Unit :=
  if f.ftyp.IsZero then .error .ftypNotFound
  else if f.mdat.IsZero then .error .mdatNotFound
  else if f.moov.IsZero then .error .moovNotFound
  else
    match containsCompressedAtoms fuel f f.moov with
    | .ok yes => if yes then .error .compressedMoov else .ok ()
    | .error e => .error e
    | .panic => .panic
    | .outOfFuel => .outOfFuel

/-- Create a `File` from a byte slice (`New`). -/
def New (fuel : Nat) (b : List Byte) : Res File :=
  match parse fuel { bytes := b, atoms := [], ftyp := Atom.zero, mdat := Atom.zero,
                     moov := Atom.zero } with
  | .ok f =>
    match validate fuel f with
    | .ok _ => .ok f
    | .error e => .error e
    | .panic => .panic
    | .outOfFuel => .outOfFuel
  | r => r

/-- Whether the `moov` atom already lies before the `mdat` atom
(`File.FastStartEnabled`). -/
def FastStartEnabled (f : File) : Bool := decide (f.moov.Offset < f.mdat.Offset)

/-- Append the bytes of `atom` to `dest` (`File.copyAtom`). -/
def copyAtom (f : File) (atom : Atom) (dest : List Byte) : Res (List Byte) :=
  match slice f.bytes atom.Offset atom.End with
  | none => .panic
  | some bs => .ok (dest ++ bs)

/-- The loop of `File.findChunkOffsetAtoms` over the children found between
`offset` and `stop`, together with the recursive calls on container children.
When `readAtom` returns an error the cursor is not advanced. -/
def findLoop (bytes : List Byte) : Nat → Nat → Nat → List Atom → Res (List Atom)
  | 0, stop, offset, atoms => if offset < stop then .outOfFuel else .ok atoms
  | fuel + 1, stop, offset, atoms =>
    if offset < stop then
      match readAtom bytes offset with
      | .ok child =>
        if child.Typ = tagStco ∨ child.Typ = tagCo64 then
          findLoop bytes fuel stop (add64 offset child.Size) (atoms ++ [child])
        else if child.Typ ∈ [tagTrak, tagMdia, tagMinf, tagStbl] then
          match findLoop bytes fuel child.End child.HeaderEnd [] with
          | .ok children =>
            findLoop bytes fuel stop (add64 offset child.Size) (atoms ++ children)
          | .error _ => findLoop bytes fuel stop (add64 offset child.Size) atoms
          | .panic => .panic
          | .outOfFuel => .outOfFuel
        else findLoop bytes fuel stop (add64 offset child.Size) atoms
      | .error _ => findLoop bytes fuel stop offset atoms
      | .panic => .panic
      | .outOfFuel => .outOfFuel
    else .ok atoms

/-- The chunk offset atoms below `parent` (`File.findChunkOffsetAtoms`). -/
def findChunkOffsetAtoms (fuel : Nat) (f : File) (parent : Atom) : Res (List Atom) :=
  findLoop f.bytes fuel parent.End parent.HeaderEnd []

/-- The copy loop at the head of `File.patchChunkOffsetAtoms`: `n` more bytes
are read at index `parent.Offset + i`; `none` is the index panic. -/
def copyLoop (bytes : List Byte) (base : Nat) : Nat → Nat → List Byte → Option (List Byte)
  | 0, _, acc => some acc
  | n + 1, i, acc =>
    match bytes[add64 base i]? with
    | none => none
    | some b => copyLoop bytes base n (i + 1) (acc ++ [b])

/-- The inner loops of `File.patchChunkOffsetAtoms` for a table whose entries
are `width` bytes wide (4 for `stco`, 8 for `co64`): `n` more entries are
patched, starting with entry `i`. The products `width * i` stay below `2 ^ 35`. -/
def patchEntries (width shiftBy offset : Nat) : Nat → Nat → List Byte → Option (List Byte)
  | 0, _, pb => some pb
  | n + 1, i, pb =>
    match slice pb (add64 offset (width * i)) (add64 offset (width * (i + 1))) with
    | none => none
    | some entryBytes =>
      let entry := (bigEndian entryBytes + shiftBy % 2 ^ (8 * width)) % 2 ^ (8 * width)
      patchEntries width shiftBy offset n (i + 1)
        (pb.take (add64 offset (width * i)) ++ putBigEndian width entry
          ++ pb.drop (add64 offset (width * (i + 1))))

/-- The body of the loop of `File.patchChunkOffsetAtoms` over the located
atoms: the entries of the table `atom` are patched in the copy `pb`. -/
def patchTable (parent : Atom) (shiftBy : Nat) (atom : Atom) (pb : List Byte) :
    Option (List Byte) :=
  let offset := add64 (sub64 atom.HeaderEnd parent.Offset) 8
  match slice pb (sub64 offset 4) offset with
  | none => none
  | some countBytes =>
    if atom.Typ = tagStco then patchEntries 4 shiftBy offset (bigEndian countBytes) 0 pb
    else if atom.Typ = tagCo64 then patchEntries 8 shiftBy offset (bigEndian countBytes) 0 pb
    else some pb

/-- The loop of `File.patchChunkOffsetAtoms` over the located atoms. -/
def patchTables (parent : Atom) (shiftBy : Nat) : List Atom → List Byte → Option (List Byte)
  | [], pb => some pb
  | atom :: rest, pb =>
    match patchTable parent shiftBy atom pb with
    | none => none
    | some pb1 => patchTables parent shiftBy rest pb1

/-- A patched copy of the bytes of `parent` (`File.patchChunkOffsetAtoms`). -/
def patchChunkOffsetAtoms (fuel : Nat) (f : File) (parent : Atom) (shiftBy : Nat) :
    Res (List Byte) :=
  match findChunkOffsetAtoms fuel f parent with
  | .ok atoms =>
    match copyLoop f.bytes parent.Offset parent.Size 0 [] with
    | none => .panic
    | some parentBytes =>
      match patchTables parent shiftBy atoms parentBytes with
      | none => .panic
      | some patched => .ok patched
  | .error e => .error e
  | .panic => .panic
  | .outOfFuel => .outOfFuel

/-- The first loop of `File.Convert`: sizes of the filler atoms in front of
`mdat`, added up in `uint64`. -/
def shiftLoop (mdatOffset : Nat) : List Atom → Nat → Nat
  | [], shiftBy => shiftBy
  | atom :: rest, shiftBy =>
    if atom.Typ = tagFree ∧ atom.Offset < mdatOffset then
      shiftLoop mdatOffset rest (add64 shiftBy atom.Size)
    else if atom.Typ = tagZero ∧ atom.Offset < mdatOffset then
      shiftLoop mdatOffset rest (add64 shiftBy atom.Size)
    else shiftLoop mdatOffset rest shiftBy

/-- The value of `shiftBy` that `File.Convert` hands to
`patchChunkOffsetAtoms`. -/
def shiftAmount (clean : Bool) (f : File) : Nat :=
  let shiftBy := if clean then shiftLoop f.mdat.Offset f.atoms 0 else 0
  if f.moov.Offset > f.mdat.Offset then add64 shiftBy f.moov.Size else shiftBy

/-- The last loop of `File.Convert`: every atom that is neither `ftyp` nor
`moov` (nor filler, when `clean` is set) is copied to `out`. -/
def copyRest (clean : Bool) (f : File) : List Atom → List Byte → Res (List Byte)
  | [], out => .ok out
  | atom :: rest, out =>
    if atom.Typ = tagFtyp ∨ atom.Typ = tagMoov then copyRest clean f rest out
    else if clean = true ∧ (atom.Typ = tagFree ∨ atom.Typ = tagZero) then
      copyRest clean f rest out
    else
      match copyAtom f atom out with
      | .ok out1 => copyRest clean f rest out1
      | r => r

/-- Rearrange the file so that `moov` follows `ftyp` (`File.Convert`); the
result is the file with its new bytes. -/
def Convert (fuel : Nat) (clean : Bool) (f : File) : Res File :=
  match patchChunkOffsetAtoms fuel f f.moov (shiftAmount clean f) with
  | .ok patchedMoov =>
    match copyAtom f f.ftyp [] with
    | .ok out =>
      match copyRest clean f f.atoms (out ++ patchedMoov) with
      | .ok out1 => .ok { f with bytes := out1 }
      | .error e => .error e
      | .panic => .panic
      | .outOfFuel => .outOfFuel
    | .error e => .error e
    | .panic => .panic
    | .outOfFuel => .outOfFuel
  | .error e => .error e
  | .panic => .panic
  | .outOfFuel => .outOfFuel

/-! ## Vocabulary of the statements -/

/-- The atoms of the list lie end to end: the first starts at `start`, each
next one starts where the one before ends, and the last ends at `stop`. -/
def Tiles : List Atom → Nat → Nat → Prop
  | [], start, stop => start = stop
  | a :: rest, start, stop => a.Offset = start ∧ Tiles rest (start + a.Size) stop

instance decTiles : (l : List Atom) → (start stop : Nat) → Decidable (Tiles l start stop)
  | [], start, stop => inferInstanceAs (Decidable (start = stop))
  | a :: rest, start, stop =>
    @instDecidableAnd _ _ (inferInstanceAs (Decidable (a.Offset = start)))
      (decTiles rest (start + a.Size) stop)

/-- Number of atoms of the list that carry the tag `t`. -/
def countTag (t : List Byte) (l : List Atom) : Nat := l.countP (fun a => decide (a.Typ = t))

/-- Sum of the sizes of the atoms of the list. -/
def sumSizes (l : List Atom) : Nat := (l.map Atom.Size).sum

/-- The distinguished atom `x` for the tag `t` is either still the zero value
or one of the atoms of the list, with that tag. -/
def Captured (atoms : List Atom) (x : Atom) (t : List Byte) : Prop :=
  x = Atom.zero ∨ (x ∈ atoms ∧ x.Typ = t)

/-- Whether the last loop of `Convert` copies the atom. -/
def keeps (clean : Bool) (a : Atom) : Bool :=
  !(decide (a.Typ = tagFtyp) || decide (a.Typ = tagMoov))
    && !(clean && (decide (a.Typ = tagFree) || decide (a.Typ = tagZero)))

/-- The number that the `w` bytes at position `pos` spell, big-endian. -/
def entryAt (w : Nat) (bytes : List Byte) (pos : Nat) : Nat :=
  bigEndian ((bytes.drop pos).take w)

/-- Width in bytes of the entries of a chunk offset table: 4 for `stco`, 8 for
`co64`. -/
def tableWidth (t : Atom) : Nat :=
  if t.Typ = tagStco then 4 else if t.Typ = tagCo64 then 8 else 0

/-- Position of the first entry of the table `t`: after the header, the four
flag bytes and the four bytes of the entry count. -/
def tableStart (t : Atom) : Nat := t.Offset + t.HeaderSize + 8

/-- The entry count that the table `t` declares. -/
def tableCount (bytes : List Byte) (t : Atom) : Nat :=
  entryAt 4 bytes (t.Offset + t.HeaderSize + 4)

/-- The tables of the list lie one after the other between `lo` and `hi`, and
each holds its header, its count and all the entries it declares within its
own extent. -/
def TablesApart (bytes : List Byte) : Nat → List Atom → Nat → Prop
  | lo, [], hi => lo ≤ hi
  | lo, t :: rest, hi =>
    lo ≤ t.Offset ∧ tableStart t + tableWidth t * tableCount bytes t ≤ t.Offset + t.Size
      ∧ TablesApart bytes (t.Offset + t.Size) rest hi

instance decTablesApart (bytes : List Byte) :
    (lo : Nat) → (l : List Atom) → (hi : Nat) → Decidable (TablesApart bytes lo l hi)
  | lo, [], hi => inferInstanceAs (Decidable (lo ≤ hi))
  | lo, t :: rest, hi =>
    @instDecidableAnd _ _ (inferInstanceAs (Decidable (lo ≤ t.Offset)))
      (@instDecidableAnd _ _
        (inferInstanceAs (Decidable
          (tableStart t + tableWidth t * tableCount bytes t ≤ t.Offset + t.Size)))
        (decTablesApart bytes (t.Offset + t.Size) rest hi))

/-- The filler atoms in front of `mdat`: the top-level atoms tagged `free` or
all-zero whose offset is below the offset of `mdat`. -/
def fillerBefore (f : File) : List Atom :=
  f.atoms.filter (fun a => decide ((a.Typ = tagFree ∨ a.Typ = tagZero) ∧ a.Offset < f.mdat.Offset))

/-- The tags that `parse` accepts at the top level. -/
def topLevelTags : List (List Byte) :=
  [tagFtyp, tagMdat, tagMoov, tagFree, tagJunk, tagPict, tagPnot, tagSkip, tagUuid, tagWide]

/-- The cursor of the top-level walk after `k` atoms have been decoded and
accepted, starting at `offset`; `none` when the walk does not get that far. -/
def walk (bytes : List Byte) : Nat → Nat → Option Nat
  | 0, offset => some offset
  | k + 1, offset =>
    if offset < bytes.length then
      match readAtom bytes offset with
      | .ok a => if a.Typ ∈ topLevelTags then walk bytes k (add64 offset a.Size) else none
      | _ => none
    else none

/-- The 32-bit size field of the header at `offset`. -/
def sizeField (bytes : List Byte) (offset : Nat) : Nat := entryAt 4 bytes offset

/-- The length of the header at `offset`: 16 when the size field is 1, else 8. -/
def headerLength (bytes : List Byte) (offset : Nat) : Nat :=
  if sizeField bytes offset = 1 then 16 else 8

/-- The size that the header at `offset` resolves to: the 64-bit extended size
when the size field is 1, else the size field. -/
def resolvedSize (bytes : List Byte) (offset : Nat) : Nat :=
  if sizeField bytes offset = 1 then entryAt 8 bytes (offset + 8) else sizeField bytes offset

/-- Whether the atom is a chunk offset table (`stco` or `co64`). -/
def isTable (a : Atom) : Bool := decide (a.Typ = tagStco ∨ a.Typ = tagCo64)

/-- Whether the atom is one of the containers that the search descends into
(`trak`, `mdia`, `minf`, `stbl`). -/
def isContainer (a : Atom) : Bool := decide (a.Typ ∈ [tagTrak, tagMdia, tagMinf, tagStbl])

/-- The atoms nested in a parent, as far as the search is concerned: a row of
siblings, each with the row of its own children (`cons atom children rest`). -/
inductive Forest where
  | nil : Forest
  | cons (atom : Atom) (children : Forest) (rest : Forest) : Forest
  deriving DecidableEq, Repr

/-- Number of atoms in the forest. -/
def Forest.size : Forest → Nat
  | .nil => 0
  | .cons _ children rest => 1 + children.size + rest.size

/-- The direct children: the atoms of the first row. -/
def Forest.siblings : Forest → List Atom
  | .nil => []
  | .cons a _ rest => a :: rest.siblings

/-- The atoms of the forest that are reached through containers only, parents
before children, in physical order. -/
def Forest.nodes : Forest → List Atom
  | .nil => []
  | .cons a children rest =>
    a :: ((if isContainer a then children.nodes else []) ++ rest.nodes)

/-- The chunk offset tables of the forest as the specification describes them:
every atom tagged `stco` or `co64` is collected, the children of every atom
tagged `trak`, `mdia`, `minf` or `stbl` are searched in turn, every other atom
is skipped with all it holds; the order is the physical one. -/
def tablesOf : Forest → List Atom
  | .nil => []
  | .cons a children rest =>
    (if isTable a then [a] else if isContainer a then tablesOf children else [])
      ++ tablesOf rest

/-- The forest describes well-formed nested atoms between `start` and `stop`:
each atom of a row is the one decoded where the one before ends, the row ends
at `stop`, the children of a container fill it from the end of its header to
its end in the same way, and a chunk offset table holds the entries it
declares. -/
def WellFormed (bytes : List Byte) : Forest → Nat → Nat → Prop
  | .nil, start, stop => start = stop
  | .cons a children rest, start, stop =>
    readAtom bytes start = .ok a ∧ start + a.Size ≤ stop ∧
    (isContainer a = true →
      WellFormed bytes children (start + a.HeaderSize) (start + a.Size)) ∧
    (isTable a = true →
      tableStart a + tableWidth a * tableCount bytes a ≤ start + a.Size) ∧
    WellFormed bytes rest (start + a.Size) stop

instance decWellFormed (bytes : List Byte) :
    (t : Forest) → (start stop : Nat) → Decidable (WellFormed bytes t start stop)
  | .nil, start, stop => inferInstanceAs (Decidable (start = stop))
  | .cons a children rest, start, stop =>
    @instDecidableAnd _ _ (inferInstanceAs (Decidable (readAtom bytes start = .ok a)))
      (@instDecidableAnd _ _ (inferInstanceAs (Decidable (start + a.Size ≤ stop)))
        (@instDecidableAnd _ _
          (@instDecidableForall _ _ (inferInstanceAs (Decidable (isContainer a = true)))
            (decWellFormed bytes children (start + a.HeaderSize) (start + a.Size)))
          (@instDecidableAnd _ _
            (inferInstanceAs (Decidable (isTable a = true →
              tableStart a + tableWidth a * tableCount bytes a ≤ start + a.Size)))
            (decWellFormed bytes rest (start + a.Size) stop))))

/-! ## Inputs used as examples -/

/-- An 8-byte atom header: the 32-bit size, then the tag. -/
def header (size : Nat) (tag : List Byte) : List Byte := putBigEndian 4 size ++ tag

/-- A 16-byte atom header: the size field 1, the tag, then the 64-bit size. -/
def header64 (size : Nat) (tag : List Byte) : List Byte :=
  putBigEndian 4 1 ++ tag ++ putBigEndian 8 size

/-- A 60-byte `moov` atom holding trak, mdia, minf, stbl and one `stco` table
with the single entry `entry`. -/
def moovWithStco (entry : Nat) : List Byte :=
  header 60 tagMoov ++ header 52 tagTrak ++ header 44 tagMdia ++ header 36 tagMinf
    ++ header 28 tagStbl ++ header 20 tagStco ++ [0, 0, 0, 0] ++ putBigEndian 4 1
    ++ putBigEndian 4 entry

/-- The `ftyp` atom at the head of the example inputs. -/
def atomFtyp8 : Atom := { Typ := tagFtyp, Offset := 0, Size := 8, HeaderSize := 8 }

/-- An 80-byte file: ftyp, mdat with the payload 1 2 3 4, and a moov whose
table points at that payload (offset 16). -/
def plainInput : List Byte :=
  header 8 tagFtyp ++ header 12 tagMdat ++ [1, 2, 3, 4] ++ moovWithStco 16

/-- The file that `New` makes of `plainInput`. -/
def plainLoaded : File :=
  { bytes := plainInput
    atoms := [atomFtyp8, { Typ := tagMdat, Offset := 8, Size := 12, HeaderSize := 8 },
              { Typ := tagMoov, Offset := 20, Size := 60, HeaderSize := 8 }]
    ftyp := atomFtyp8
    mdat := { Typ := tagMdat, Offset := 8, Size := 12, HeaderSize := 8 }
    moov := { Typ := tagMoov, Offset := 20, Size := 60, HeaderSize := 8 } }

/-- The file that `Convert(false)` makes of `plainLoaded`: the table entry
16 has become 76. -/
def plainConverted : File :=
  { plainLoaded with
    bytes := header 8 tagFtyp ++ moovWithStco 76 ++ header 12 tagMdat ++ [1, 2, 3, 4] }

/-- Tag `"udta"`, one of the tags the package has no case for. -/
def tagUdta : List Byte := [117, 100, 116, 97]

/-- An 88-byte file: ftyp, an 8-byte `free` atom, mdat with the payload
1 2 3 4, and a moov whose table points at that payload (offset 24). -/
def fillerInput : List Byte :=
  header 8 tagFtyp ++ header 8 tagFree ++ header 12 tagMdat ++ [1, 2, 3, 4] ++ moovWithStco 24

/-- The file that `New` makes of `fillerInput`. -/
def fillerLoaded : File :=
  { bytes := fillerInput
    atoms := [atomFtyp8, { Typ := tagFree, Offset := 8, Size := 8, HeaderSize := 8 },
              { Typ := tagMdat, Offset := 16, Size := 12, HeaderSize := 8 },
              { Typ := tagMoov, Offset := 28, Size := 60, HeaderSize := 8 }]
    ftyp := atomFtyp8
    mdat := { Typ := tagMdat, Offset := 16, Size := 12, HeaderSize := 8 }
    moov := { Typ := tagMoov, Offset := 28, Size := 60, HeaderSize := 8 } }

/-- The file that `Convert(true)` makes of `fillerLoaded`: 80 bytes, the table
entry 24 has become 92. -/
def fillerCleaned : File :=
  { fillerLoaded with
    bytes := header 8 tagFtyp ++ moovWithStco 92 ++ header 12 tagMdat ++ [1, 2, 3, 4] }

/-- A 32-byte file: ftyp, mdat, and a moov whose only child is tagged `cmov`. -/
def cmovInput : List Byte :=
  header 8 tagFtyp ++ header 8 tagMdat ++ header 16 tagMoov ++ header 8 tagCmov

/-- The file that `New` makes of `cmovInput`. -/
def cmovLoaded : File :=
  { bytes := cmovInput
    atoms := [atomFtyp8, { Typ := tagMdat, Offset := 8, Size := 8, HeaderSize := 8 },
              { Typ := tagMoov, Offset := 16, Size := 16, HeaderSize := 8 }]
    ftyp := atomFtyp8
    mdat := { Typ := tagMdat, Offset := 8, Size := 8, HeaderSize := 8 }
    moov := { Typ := tagMoov, Offset := 16, Size := 16, HeaderSize := 8 } }

/-- A 24-byte file: ftyp, mdat, and the header of a moov that declares 1000
bytes. -/
def truncInput : List Byte :=
  header 8 tagFtyp ++ header 8 tagMdat ++ header 1000 tagMoov

/-- The file that `New` makes of `truncInput`. -/
def truncLoaded : File :=
  { bytes := truncInput
    atoms := [atomFtyp8, { Typ := tagMdat, Offset := 8, Size := 8, HeaderSize := 8 },
              { Typ := tagMoov, Offset := 16, Size := 1000, HeaderSize := 8 }]
    ftyp := atomFtyp8
    mdat := { Typ := tagMdat, Offset := 8, Size := 8, HeaderSize := 8 }
    moov := { Typ := tagMoov, Offset := 16, Size := 1000, HeaderSize := 8 } }

/-- A 28-byte file: ftyp, mdat, and a 12-byte moov, whose 4 bytes of content
are too short for a child header. -/
def stubInput : List Byte :=
  header 8 tagFtyp ++ header 8 tagMdat ++ header 12 tagMoov ++ [0, 0, 0, 0]

/-- The file that `New` makes of `stubInput`. -/
def stubLoaded : File :=
  { bytes := stubInput
    atoms := [atomFtyp8, { Typ := tagMdat, Offset := 8, Size := 8, HeaderSize := 8 },
              { Typ := tagMoov, Offset := 16, Size := 12, HeaderSize := 8 }]
    ftyp := atomFtyp8
    mdat := { Typ := tagMdat, Offset := 8, Size := 8, HeaderSize := 8 }
    moov := { Typ := tagMoov, Offset := 16, Size := 12, HeaderSize := 8 } }

/-- A 60-byte file: ftyp; a 20-byte mdat whose payload starts with the header
of an `stco` atom of 44 bytes (at offset 16); a 32-byte moov with a 16-byte
header (at offset 28) whose only child, tagged `udta`, declares the 64-bit size
`2 ^ 64 - 28`. -/
def wrapInput : List Byte :=
  header 8 tagFtyp ++ header 20 tagMdat ++ header 44 tagStco ++ [0, 0, 0, 0]
    ++ header64 32 tagMoov ++ header64 (2 ^ 64 - 28) tagUdta

/-- The file that `New` makes of `wrapInput`. -/
def wrapLoaded : File :=
  { bytes := wrapInput
    atoms := [atomFtyp8, { Typ := tagMdat, Offset := 8, Size := 20, HeaderSize := 8 },
              { Typ := tagMoov, Offset := 28, Size := 32, HeaderSize := 16 }]
    ftyp := atomFtyp8
    mdat := { Typ := tagMdat, Offset := 8, Size := 20, HeaderSize := 8 }
    moov := { Typ := tagMoov, Offset := 28, Size := 32, HeaderSize := 16 } }

/-- The file that `Convert` makes of `wrapLoaded`: the tag of the second atom
is no longer `moov` (its last byte 118 has become 150). -/
def wrapConverted : File :=
  { wrapLoaded with
    bytes := header 8 tagFtyp ++ header64 32 [109, 111, 111, 150]
      ++ header64 (2 ^ 64 - 28) tagUdta ++ header 20 tagMdat ++ header 44 tagStco
      ++ [0, 0, 0, 0] }

/-- A 36-byte file with two `ftyp` atoms (12 and 8 bytes), mdat and moov. -/
def dupInput : List Byte :=
  header 12 tagFtyp ++ [105, 115, 111, 109] ++ header 8 tagFtyp ++ header 8 tagMdat
    ++ header 8 tagMoov

/-- The file that `New` makes of `dupInput`: the second `ftyp` is kept. -/
def dupLoaded : File :=
  { bytes := dupInput
    atoms := [{ Typ := tagFtyp, Offset := 0, Size := 12, HeaderSize := 8 },
              { Typ := tagFtyp, Offset := 12, Size := 8, HeaderSize := 8 },
              { Typ := tagMdat, Offset := 20, Size := 8, HeaderSize := 8 },
              { Typ := tagMoov, Offset := 28, Size := 8, HeaderSize := 8 }]
    ftyp := { Typ := tagFtyp, Offset := 12, Size := 8, HeaderSize := 8 }
    mdat := { Typ := tagMdat, Offset := 20, Size := 8, HeaderSize := 8 }
    moov := { Typ := tagMoov, Offset := 28, Size := 8, HeaderSize := 8 } }

/-- The file that `Convert(false)` makes of `dupLoaded`: 24 bytes. -/
def dupConverted : File :=
  { dupLoaded with bytes := header 8 tagFtyp ++ header 8 tagMoov ++ header 8 tagMdat }

/-- A 40-byte file whose atoms overlap: a 16-byte ftyp whose last 8 bytes are
the header of a 24-byte mdat (at offset 8), then a `free` atom with the 64-bit
size `2 ^ 64 - 8` (at offset 16), which sends the cursor of the scan back to
offset 8, then an empty moov (at offset 32). -/
def overlapInput : List Byte :=
  header 16 tagFtyp ++ header 24 tagMdat ++ header64 (2 ^ 64 - 8) tagFree ++ header 8 tagMoov

/-- The file that `New` makes of `overlapInput`. -/
def overlapLoaded : File :=
  { bytes := overlapInput
    atoms := [{ Typ := tagFtyp, Offset := 0, Size := 16, HeaderSize := 8 },
              { Typ := tagFree, Offset := 16, Size := 2 ^ 64 - 8, HeaderSize := 16 },
              { Typ := tagMdat, Offset := 8, Size := 24, HeaderSize := 8 },
              { Typ := tagMoov, Offset := 32, Size := 8, HeaderSize := 8 }]
    ftyp := { Typ := tagFtyp, Offset := 0, Size := 16, HeaderSize := 8 }
    mdat := { Typ := tagMdat, Offset := 8, Size := 24, HeaderSize := 8 }
    moov := { Typ := tagMoov, Offset := 32, Size := 8, HeaderSize := 8 } }

/-- The file that `Convert(true)` makes of `overlapLoaded`: 48 bytes. -/
def overlapCleaned : File :=
  { overlapLoaded with
    bytes := header 16 tagFtyp ++ header 24 tagMdat ++ header 8 tagMoov ++ header 24 tagMdat
      ++ header64 (2 ^ 64 - 8) tagFree }

/-- A 32-byte file in which moov precedes mdat but does not follow ftyp
directly: ftyp, free, moov, mdat. -/
def reorderInput : List Byte :=
  header 8 tagFtyp ++ header 8 tagFree ++ header 8 tagMoov ++ header 8 tagMdat

/-- The file that `New` makes of `reorderInput`. -/
def reorderLoaded : File :=
  { bytes := reorderInput
    atoms := [atomFtyp8, { Typ := tagFree, Offset := 8, Size := 8, HeaderSize := 8 },
              { Typ := tagMoov, Offset := 16, Size := 8, HeaderSize := 8 },
              { Typ := tagMdat, Offset := 24, Size := 8, HeaderSize := 8 }]
    ftyp := atomFtyp8
    mdat := { Typ := tagMdat, Offset := 24, Size := 8, HeaderSize := 8 }
    moov := { Typ := tagMoov, Offset := 16, Size := 8, HeaderSize := 8 } }

/-- The file that `Convert(false)` makes of `reorderLoaded`: ftyp, moov, free,
mdat. -/
def reorderConverted : File :=
  { reorderLoaded with
    bytes := header 8 tagFtyp ++ header 8 tagMoov ++ header 8 tagFree ++ header 8 tagMdat }

/-- The file that `New` makes of the bytes of `plainConverted`, in which moov
follows ftyp. -/
def fastLoaded : File :=
  { bytes := plainConverted.bytes
    atoms := [atomFtyp8, { Typ := tagMoov, Offset := 8, Size := 60, HeaderSize := 8 },
              { Typ := tagMdat, Offset := 68, Size := 12, HeaderSize := 8 }]
    ftyp := atomFtyp8
    mdat := { Typ := tagMdat, Offset := 68, Size := 12, HeaderSize := 8 }
    moov := { Typ := tagMoov, Offset := 8, Size := 60, HeaderSize := 8 } }

/-- A 76-byte file: ftyp, an empty mdat, and a moov whose table holds the
entry `2 ^ 32 - 1`. -/
def wrapEntryInput : List Byte :=
  header 8 tagFtyp ++ header 8 tagMdat ++ moovWithStco (2 ^ 32 - 1)

/-- The file that `New` makes of `wrapEntryInput`. -/
def wrapEntryLoaded : File :=
  { bytes := wrapEntryInput
    atoms := [atomFtyp8, { Typ := tagMdat, Offset := 8, Size := 8, HeaderSize := 8 },
              { Typ := tagMoov, Offset := 16, Size := 60, HeaderSize := 8 }]
    ftyp := atomFtyp8
    mdat := { Typ := tagMdat, Offset := 8, Size := 8, HeaderSize := 8 }
    moov := { Typ := tagMoov, Offset := 16, Size := 60, HeaderSize := 8 } }

/-- The file that `Convert(false)` makes of `wrapEntryLoaded`: the table entry
has become 59. -/
def wrapEntryConverted : File :=
  { wrapEntryLoaded with
    bytes := header 8 tagFtyp ++ moovWithStco 59 ++ header 8 tagMdat }

/-- Tag `"zzzz"`, a tag outside the top-level vocabulary. -/
def tagZzzz : List Byte := [122, 122, 122, 122]

/-- A 24-byte file: ftyp, mdat, and a well-formed 8-byte atom tagged `zzzz`. -/
def unknownInput : List Byte :=
  header 8 tagFtyp ++ header 8 tagMdat ++ header 8 tagZzzz

/-- A 32-byte file: ftyp, an 8-byte filler atom whose tag is four zero bytes,
mdat and an empty moov. -/
def zeroInput : List Byte :=
  header 8 tagFtyp ++ header 8 tagZero ++ header 8 tagMdat ++ header 8 tagMoov

/-- A 24-byte file: ftyp, mdat, and a `free` atom whose size field is 5. -/
def smallInput : List Byte :=
  header 8 tagFtyp ++ header 8 tagMdat ++ header 5 tagFree

/-- A 16-byte file without a moov atom: ftyp and mdat. -/
def noMoovInput : List Byte := header 8 tagFtyp ++ header 8 tagMdat

/-- The file that the scan makes of `noMoovInput`. -/
def noMoovScanned : File :=
  { bytes := noMoovInput
    atoms := [atomFtyp8, { Typ := tagMdat, Offset := 8, Size := 8, HeaderSize := 8 }]
    ftyp := atomFtyp8
    mdat := { Typ := tagMdat, Offset := 8, Size := 8, HeaderSize := 8 }
    moov := Atom.zero }

/-- A 32-byte file: ftyp, mdat, and a 16-byte moov whose only child declares
the size 0. -/
def stuckInput : List Byte :=
  header 8 tagFtyp ++ header 8 tagMdat ++ header 16 tagMoov ++ header 0 tagFree

/-- The file that `New` makes of `stuckInput`. -/
def stuckLoaded : File :=
  { bytes := stuckInput
    atoms := [atomFtyp8, { Typ := tagMdat, Offset := 8, Size := 8, HeaderSize := 8 },
              { Typ := tagMoov, Offset := 16, Size := 16, HeaderSize := 8 }]
    ftyp := atomFtyp8
    mdat := { Typ := tagMdat, Offset := 8, Size := 8, HeaderSize := 8 }
    moov := { Typ := tagMoov, Offset := 16, Size := 16, HeaderSize := 8 } }

/-- A 32-byte file: ftyp, mdat, and a moov with a 16-byte header that declares
the 64-bit size `2 ^ 64 - 16`. -/
def cycleInput : List Byte :=
  header 8 tagFtyp ++ header 8 tagMdat ++ header64 (2 ^ 64 - 16) tagMoov

/-- An 84-byte `moov` atom holding trak, mdia, minf and an stbl with two
tables: an `stco` table with the single entry `e32` and a `co64` table with
the single entry `e64`. -/
def moovWithBoth (e32 e64 : Nat) : List Byte :=
  header 84 tagMoov ++ header 76 tagTrak ++ header 68 tagMdia ++ header 60 tagMinf
    ++ header 52 tagStbl
    ++ header 20 tagStco ++ [0, 0, 0, 0] ++ putBigEndian 4 1 ++ putBigEndian 4 e32
    ++ header 24 tagCo64 ++ [0, 0, 0, 0] ++ putBigEndian 4 1 ++ putBigEndian 8 e64

/-- A 100-byte file: ftyp, mdat, and a moov with an `stco` entry `2 ^ 32 - 1`
and a `co64` entry 7. -/
def bothInput : List Byte :=
  header 8 tagFtyp ++ header 8 tagMdat ++ moovWithBoth (2 ^ 32 - 1) 7

/-- The moov atom of `bothInput`. -/
def bothMoov : Atom := { Typ := tagMoov, Offset := 16, Size := 84, HeaderSize := 8 }

/-- The file that `New` makes of `bothInput`. -/
def bothLoaded : File :=
  { bytes := bothInput
    atoms := [atomFtyp8, { Typ := tagMdat, Offset := 8, Size := 8, HeaderSize := 8 }, bothMoov]
    ftyp := atomFtyp8
    mdat := { Typ := tagMdat, Offset := 8, Size := 8, HeaderSize := 8 }
    moov := bothMoov }

/-- The `stco` table of `bothInput`. -/
def bothStco : Atom := { Typ := tagStco, Offset := 56, Size := 20, HeaderSize := 8 }

/-- The `co64` table of `bothInput`. -/
def bothCo64 : Atom := { Typ := tagCo64, Offset := 76, Size := 24, HeaderSize := 8 }

/-- The atoms nested in the moov of `bothInput`. -/
def bothForest : Forest :=
  .cons { Typ := tagTrak, Offset := 24, Size := 76, HeaderSize := 8 }
    (.cons { Typ := tagMdia, Offset := 32, Size := 68, HeaderSize := 8 }
      (.cons { Typ := tagMinf, Offset := 40, Size := 60, HeaderSize := 8 }
        (.cons { Typ := tagStbl, Offset := 48, Size := 52, HeaderSize := 8 }
          (.cons bothStco .nil (.cons bothCo64 .nil .nil)) .nil) .nil) .nil) .nil

/-- A 72-byte file: ftyp, mdat, and a 56-byte moov with two direct children:
an `stco` table with the entry 16, and a `udta` atom that holds another
`stco` table, with the entry 9. -/
def directInput : List Byte :=
  header 8 tagFtyp ++ header 8 tagMdat ++ header 56 tagMoov
    ++ header 20 tagStco ++ [0, 0, 0, 0] ++ putBigEndian 4 1 ++ putBigEndian 4 16
    ++ header 28 tagUdta
    ++ header 20 tagStco ++ [0, 0, 0, 0] ++ putBigEndian 4 1 ++ putBigEndian 4 9

/-- The moov atom of `directInput`. -/
def directMoov : Atom := { Typ := tagMoov, Offset := 16, Size := 56, HeaderSize := 8 }

/-- The file that `New` makes of `directInput`. -/
def directLoaded : File :=
  { bytes := directInput
    atoms := [atomFtyp8, { Typ := tagMdat, Offset := 8, Size := 8, HeaderSize := 8 },
              directMoov]
    ftyp := atomFtyp8
    mdat := { Typ := tagMdat, Offset := 8, Size := 8, HeaderSize := 8 }
    moov := directMoov }

/-- The `stco` table that is a direct child of the moov of `directInput`. -/
def directStco : Atom := { Typ := tagStco, Offset := 24, Size := 20, HeaderSize := 8 }

/-- The `udta` atom that is a direct child of the moov of `directInput`. -/
def directUdta : Atom := { Typ := tagUdta, Offset := 44, Size := 28, HeaderSize := 8 }

/-- The atoms nested in the moov of `directInput`, as far as the search goes. -/
def directForest : Forest := .cons directStco .nil (.cons directUdta .nil .nil)

/-- The bytes of the moov of `directInput` patched with the shift 56: the
entry of the first table has become 72, the bytes of `udta` are the same. -/
def directPatched : List Byte :=
  header 56 tagMoov
    ++ header 20 tagStco ++ [0, 0, 0, 0] ++ putBigEndian 4 1 ++ putBigEndian 4 72
    ++ header 28 tagUdta
    ++ header 20 tagStco ++ [0, 0, 0, 0] ++ putBigEndian 4 1 ++ putBigEndian 4 9

/-- The atoms nested in the moov of `plainInput`. -/
def plainForest : Forest :=
  .cons { Typ := tagTrak, Offset := 28, Size := 52, HeaderSize := 8 }
    (.cons { Typ := tagMdia, Offset := 36, Size := 44, HeaderSize := 8 }
      (.cons { Typ := tagMinf, Offset := 44, Size := 36, HeaderSize := 8 }
        (.cons { Typ := tagStbl, Offset := 52, Size := 28, HeaderSize := 8 }
          (.cons { Typ := tagStco, Offset := 60, Size := 20, HeaderSize := 8 } .nil .nil)
          .nil) .nil) .nil) .nil

/-- The atoms nested in the moov of `fastLoaded`. -/
def fastForest : Forest :=
  .cons { Typ := tagTrak, Offset := 16, Size := 52, HeaderSize := 8 }
    (.cons { Typ := tagMdia, Offset := 24, Size := 44, HeaderSize := 8 }
      (.cons { Typ := tagMinf, Offset := 32, Size := 36, HeaderSize := 8 }
        (.cons { Typ := tagStbl, Offset := 40, Size := 28, HeaderSize := 8 }
          (.cons { Typ := tagStco, Offset := 48, Size := 20, HeaderSize := 8 } .nil .nil)
          .nil) .nil) .nil) .nil

/-- A 36-byte file: ftyp, mdat with the payload 1 2 3 4, and a 16-byte moov
whose only child, tagged `trak`, declares the size 4. -/
def brokenInput : List Byte :=
  header 8 tagFtyp ++ header 12 tagMdat ++ [1, 2, 3, 4] ++ header 16 tagMoov
    ++ header 4 tagTrak

/-- The file that `New` makes of `brokenInput`. -/
def brokenLoaded : File :=
  { bytes := brokenInput
    atoms := [atomFtyp8, { Typ := tagMdat, Offset := 8, Size := 12, HeaderSize := 8 },
              { Typ := tagMoov, Offset := 20, Size := 16, HeaderSize := 8 }]
    ftyp := atomFtyp8
    mdat := { Typ := tagMdat, Offset := 8, Size := 12, HeaderSize := 8 }
    moov := { Typ := tagMoov, Offset := 20, Size := 16, HeaderSize := 8 } }

/-- A 32-byte file in which moov follows ftyp: ftyp, a 16-byte moov whose only
child, tagged `trak`, declares the size 4, and mdat. -/
def fastBrokenInput : List Byte :=
  header 8 tagFtyp ++ header 16 tagMoov ++ header 4 tagTrak ++ header 8 tagMdat

/-- The file that `New` makes of `fastBrokenInput`. -/
def fastBrokenLoaded : File :=
  { bytes := fastBrokenInput
    atoms := [atomFtyp8, { Typ := tagMoov, Offset := 8, Size := 16, HeaderSize := 8 },
              { Typ := tagMdat, Offset := 24, Size := 8, HeaderSize := 8 }]
    ftyp := atomFtyp8
    mdat := { Typ := tagMdat, Offset := 24, Size := 8, HeaderSize := 8 }
    moov := { Typ := tagMoov, Offset := 8, Size := 16, HeaderSize := 8 } }

/-! ## Basic facts about slices and big-endian numbers -/

theorem slice_eq_some {b : List Byte} {lo hi : Nat} {s : List Byte} :
    slice b lo hi = some s ↔ lo ≤ hi ∧ hi ≤ b.length ∧ s = (b.drop lo).take (hi - lo) := by
  unfold slice
  split_ifs with h
  · simp only [Option.some.injEq]
    constructor
    · intro e; exact ⟨h.1, h.2, e.symm⟩
    · intro e; exact e.2.2.symm
  · constructor
    · intro e; cases e
    · intro e; exact absurd ⟨e.1, e.2.1⟩ h

theorem slice_length {b : List Byte} {lo hi : Nat} {s : List Byte}
    (h : slice b lo hi = some s) : s.length = hi - lo := by
  obtain ⟨h1, h2, rfl⟩ := slice_eq_some.1 h
  simp only [List.length_take, List.length_drop]
  omega

theorem foldl_bigEndian_lt (b : List Byte) (acc : Nat) :
    b.foldl (fun acc x => acc * 256 + x.val) acc < (acc + 1) * 256 ^ b.length := by
  induction b generalizing acc with
  | nil => simp
  | cons x xs ih =>
    simp only [List.foldl_cons, List.length_cons]
    have h1 := ih (acc * 256 + x.val)
    have hx : x.val < 256 := x.isLt
    calc List.foldl (fun acc x => acc * 256 + x.val) (acc * 256 + x.val) xs
        < (acc * 256 + x.val + 1) * 256 ^ xs.length := h1
      _ ≤ ((acc + 1) * 256) * 256 ^ xs.length := by
          apply Nat.mul_le_mul_right; omega
      _ = (acc + 1) * 256 ^ (xs.length + 1) := by ring

theorem bigEndian_lt (b : List Byte) : bigEndian b < 256 ^ b.length := by
  have := foldl_bigEndian_lt b 0
  simpa [bigEndian] using this

/-- What a successful `readAtom` tells about the atom. -/
theorem readAtom_ok {bytes : List Byte} {offset : Nat} {a : Atom}
    (h : readAtom bytes offset = .ok a) :
    a.Offset = offset ∧ (a.HeaderSize = 8 ∨ a.HeaderSize = 16) ∧ a.HeaderSize ≤ a.Size
      ∧ a.Size < 2 ^ 64 ∧ slice bytes (add64 offset 4) (add64 offset 8) = some a.Typ := by
  unfold readAtom at h
  split at h
  · cases h
  · rename_i sizeBytes hs
    split at h
    · cases h
    · rename_i typeBytes ht
      have l4 : bigEndian sizeBytes < 2 ^ 64 := by
        have := bigEndian_lt sizeBytes
        have hl := slice_length hs
        have h4 : sizeBytes.length ≤ 8 := by unfold add64 at hl; omega
        calc bigEndian sizeBytes < 256 ^ sizeBytes.length := this
          _ ≤ 256 ^ 8 := Nat.pow_le_pow_right (by norm_num) h4
          _ = 2 ^ 64 := by norm_num
      split_ifs at h with h1 h2
      · split at h
        · cases h
        · rename_i extBytes he
          split_ifs at h with h3
          cases h
          have l8 : bigEndian extBytes < 2 ^ 64 := by
            have := bigEndian_lt extBytes
            have hl := slice_length he
            have h4 : extBytes.length ≤ 8 := by unfold add64 at hl; omega
            calc bigEndian extBytes < 256 ^ extBytes.length := this
              _ ≤ 256 ^ 8 := Nat.pow_le_pow_right (by norm_num) h4
              _ = 2 ^ 64 := by norm_num
          refine ⟨rfl, Or.inr rfl, ?_, l8, ht⟩
          simp only; omega
      · cases h
        refine ⟨rfl, Or.inl rfl, ?_, l4, ht⟩
        simp only; omega

theorem bigEndian_concat (b : List Byte) (x : Byte) :
    bigEndian (b ++ [x]) = bigEndian b * 256 + x.val := by
  simp [bigEndian, List.foldl_append]

theorem length_putBigEndian (n v : Nat) : (putBigEndian n v).length = n := by
  induction n generalizing v with
  | zero => simp [putBigEndian]
  | succ n ih => simp [putBigEndian, ih]

theorem bigEndian_putBigEndian (n v : Nat) : bigEndian (putBigEndian n v) = v % 256 ^ n := by
  induction n generalizing v with
  | zero => simp [putBigEndian, bigEndian, Nat.mod_one]
  | succ n ih =>
    rw [putBigEndian, bigEndian_concat, ih]
    have h1 : ((Fin.ofNat (v % 256) : Byte)).val = v % 256 := by
      simp [Fin.ofNat]
    rw [h1, pow_succ, Nat.mul_comm (256 ^ n) 256, Nat.mod_mul]
    ring

theorem putBigEndian_bigEndian (b : List Byte) : putBigEndian b.length (bigEndian b) = b := by
  induction b using List.reverseRecOn with
  | nil => simp [putBigEndian]
  | append_singleton b x ih =>
    rw [List.length_append, List.length_singleton, putBigEndian, bigEndian_concat]
    have hx : x.val < 256 := x.isLt
    have e1 : (bigEndian b * 256 + x.val) / 256 = bigEndian b := by omega
    have e2 : (bigEndian b * 256 + x.val) % 256 = x.val := by omega
    rw [e1, e2, ih]
    congr 2
    apply Fin.ext
    simp [Fin.ofNat]

theorem pow_256 (w : Nat) : 2 ^ (8 * w) = 256 ^ w := by
  rw [pow_mul]; norm_num

theorem atom_slice {bytes bs : List Byte} {a : Atom} (hs : a.Size < 2 ^ 64)
    (h : slice bytes a.Offset a.End = some bs) :
    a.Offset + a.Size ≤ bytes.length ∧ bs = (bytes.drop a.Offset).take a.Size
      ∧ bs.length = a.Size := by
  obtain ⟨h1, h2, h3⟩ := slice_eq_some.1 h
  have hl := slice_length h
  unfold Atom.End add64 at *
  have e : (a.Offset + a.Size) % 2 ^ 64 - a.Offset = a.Size := by omega
  rw [e] at h3 hl
  exact ⟨by omega, h3, hl⟩

/-! ## Facts about the scan -/

/-- The scan keeps the bytes, only appends atoms, and every atom it lists is
the one `readAtom` decodes at its offset. -/
theorem parseLoop_inv (fuel : Nat) : ∀ (offset : Nat) (f g : File),
    parseLoop fuel offset f = .ok g →
    (∀ a ∈ f.atoms, readAtom f.bytes a.Offset = .ok a) →
    Captured f.atoms f.ftyp tagFtyp → Captured f.atoms f.mdat tagMdat →
    Captured f.atoms f.moov tagMoov →
    g.bytes = f.bytes ∧ (∀ a ∈ g.atoms, readAtom g.bytes a.Offset = .ok a) ∧
    Captured g.atoms g.ftyp tagFtyp ∧ Captured g.atoms g.mdat tagMdat ∧
    Captured g.atoms g.moov tagMoov := by
  induction fuel with
  | zero =>
    intro offset f g h hr h1 h2 h3
    unfold parseLoop at h
    split_ifs at h
    cases h
    exact ⟨rfl, hr, h1, h2, h3⟩
  | succ n ih =>
    intro offset f g h hr h1 h2 h3
    unfold parseLoop at h
    split_ifs at h with hlt
    · split at h
      · rename_i atom hra
        have hoff : atom.Offset = offset := (readAtom_ok hra).1
        have hr1 : ∀ a ∈ f.atoms ++ [atom], readAtom f.bytes a.Offset = .ok a := by
          intro a ha
          rcases List.mem_append.1 ha with ha | ha
          · exact hr a ha
          · simp only [List.mem_singleton] at ha
            subst ha; rw [hoff]; exact hra
        have mono : ∀ x t, Captured f.atoms x t → Captured (f.atoms ++ [atom]) x t := by
          intro x t hc
          rcases hc with hc | hc
          · exact Or.inl hc
          · exact Or.inr ⟨List.mem_append_left _ hc.1, hc.2⟩
        have self : ∀ t, atom.Typ = t → Captured (f.atoms ++ [atom]) atom t := by
          intro t ht
          exact Or.inr ⟨by simp, ht⟩
        simp only at h
        split_ifs at h with t1 t2 t3 t4
        · have r := ih _ _ _ h hr1 (self _ t1) (mono _ _ h2) (mono _ _ h3)
          exact r
        · have r := ih _ _ _ h hr1 (mono _ _ h1) (self _ t2) (mono _ _ h3)
          exact r
        · have r := ih _ _ _ h hr1 (mono _ _ h1) (mono _ _ h2) (self _ t3)
          exact r
        · have r := ih _ _ _ h hr1 (mono _ _ h1) (mono _ _ h2) (mono _ _ h3)
          exact r
      · cases h
      · cases h
      · cases h
    · cases h
      exact ⟨rfl, hr, h1, h2, h3⟩

/-- Facts about a loaded file. -/
theorem New_ok {fuel : Nat} {b : List Byte} {f : File} (h : New fuel b = .ok f) :
    f.bytes = b ∧ (∀ a ∈ f.atoms, readAtom b a.Offset = .ok a) ∧
    (f.ftyp ∈ f.atoms ∧ f.ftyp.Typ = tagFtyp) ∧ (f.mdat ∈ f.atoms ∧ f.mdat.Typ = tagMdat) ∧
    (f.moov ∈ f.atoms ∧ f.moov.Typ = tagMoov) := by
  unfold New at h
  cases hp : parse fuel { bytes := b, atoms := [], ftyp := Atom.zero, mdat := Atom.zero,
                          moov := Atom.zero } with
  | ok f0 =>
    rw [hp] at h
    simp only at h
    cases hv : validate fuel f0 with
    | ok u =>
      rw [hv] at h
      simp only [Res.ok.injEq] at h
      subst h
      obtain ⟨hb, hr, c1, c2, c3⟩ := parseLoop_inv fuel 0 _ _ hp (by simp) (Or.inl rfl)
        (Or.inl rfl) (Or.inl rfl)
      simp only at hb
      unfold validate at hv
      simp only [Atom.IsZero, decide_eq_true_eq] at hv
      split_ifs at hv with z1 z2 z3
      refine ⟨hb, ?_, ?_, ?_, ?_⟩
      · intro a ha; rw [← hb]; exact hr a ha
      · rcases c1 with c | c
        · exact absurd c z1
        · exact c
      · rcases c2 with c | c
        · exact absurd c z2
        · exact c
      · rcases c3 with c | c
        · exact absurd c z3
        · exact c
    | error e => rw [hv] at h; cases h
    | panic => rw [hv] at h; cases h
    | outOfFuel => rw [hv] at h; cases h
  | error e => rw [hp] at h; cases h
  | panic => rw [hp] at h; cases h
  | outOfFuel => rw [hp] at h; cases h

theorem parseLoop_length (fuel : Nat) : ∀ (offset : Nat) (f g : File),
    parseLoop fuel offset f = .ok g → offset < 2 ^ 64 → f.bytes.length < 2 ^ 64 := by
  induction fuel with
  | zero =>
    intro offset f g h ho
    unfold parseLoop at h
    split_ifs at h with hlt
    omega
  | succ n ih =>
    intro offset f g h ho
    unfold parseLoop at h
    split_ifs at h with hlt
    · split at h
      · rename_i atom hra
        have hlt2 : add64 offset atom.Size < 2 ^ 64 := Nat.mod_lt _ (by norm_num)
        simp only at h
        split_ifs at h with t1 t2 t3 t4
        · have r := ih _ _ _ h hlt2
          exact r
        · have r := ih _ _ _ h hlt2
          exact r
        · have r := ih _ _ _ h hlt2
          exact r
        · have r := ih _ _ _ h hlt2
          exact r
      · cases h
      · cases h
      · cases h
    · omega

theorem New_length {fuel : Nat} {b : List Byte} {f : File} (h : New fuel b = .ok f) :
    b.length < 2 ^ 64 := by
  unfold New at h
  cases hp : parse fuel { bytes := b, atoms := [], ftyp := Atom.zero, mdat := Atom.zero,
                          moov := Atom.zero } with
  | ok f0 => exact parseLoop_length fuel 0 _ _ hp (by norm_num)
  | error e => rw [hp] at h; cases h
  | panic => rw [hp] at h; cases h
  | outOfFuel => rw [hp] at h; cases h

/-! ## Facts about tilings -/

theorem Tiles_append {l1 l2 : List Atom} {s e : Nat} :
    Tiles (l1 ++ l2) s e ↔ Tiles l1 s (s + sumSizes l1) ∧ Tiles l2 (s + sumSizes l1) e := by
  induction l1 generalizing s with
  | nil => simp [Tiles, sumSizes]
  | cons a l ih =>
    have ih1 := @ih (s + a.Size)
    have e1 : sumSizes (a :: l) = a.Size + sumSizes l := by simp [sumSizes]
    rw [List.cons_append, e1, ← Nat.add_assoc]
    constructor
    · intro h
      exact ⟨⟨h.1, (ih1.1 h.2).1⟩, (ih1.1 h.2).2⟩
    · intro h
      exact ⟨h.1.1, ih1.2 ⟨h.1.2, h.2⟩⟩

theorem Tiles_stop {l : List Atom} {s e : Nat} (h : Tiles l s e) : e = s + sumSizes l := by
  induction l generalizing s with
  | nil => simpa [Tiles, sumSizes] using h.symm
  | cons a l ih =>
    have := ih h.2
    simp only [sumSizes, List.map_cons, List.sum_cons] at *
    omega

theorem Tiles_mem {l : List Atom} {s e : Nat} (h : Tiles l s e) {a : Atom} (ha : a ∈ l) :
    s ≤ a.Offset ∧ a.Offset + a.Size ≤ e := by
  induction l generalizing s with
  | nil => cases ha
  | cons x l ih =>
    rcases List.mem_cons.1 ha with rfl | hm
    · have := Tiles_stop h.2
      exact ⟨by rw [h.1], by rw [h.1]; omega⟩
    · have := ih h.2 hm
      omega

/-! ## Facts about the copies made by Convert -/

theorem copyAtom_ok {f : File} {a : Atom} {dest r : List Byte}
    (h : copyAtom f a dest = .ok r) :
    ∃ bs, slice f.bytes a.Offset a.End = some bs ∧ r = dest ++ bs := by
  unfold copyAtom at h
  split at h
  · cases h
  · rename_i bs hb
    cases h
    exact ⟨bs, hb, rfl⟩

theorem copyRest_cons_skip {clean : Bool} {f : File} {a : Atom} {l : List Atom}
    {out : List Byte} (hk : keeps clean a = false) :
    copyRest clean f (a :: l) out = copyRest clean f l out := by
  unfold keeps at hk
  rw [copyRest]
  by_cases h1 : a.Typ = tagFtyp ∨ a.Typ = tagMoov
  · rw [if_pos h1]
  · rw [if_neg h1]
    have h2 : clean = true ∧ (a.Typ = tagFree ∨ a.Typ = tagZero) := by
      simp only [Bool.and_eq_false_imp, Bool.not_eq_true', Bool.not_eq_false', Bool.and_eq_true,
        Bool.or_eq_true, decide_eq_true_eq, Bool.or_eq_false_iff, decide_eq_false_iff_not,
        and_imp] at hk
      have := hk (fun x => (h1 (Or.inl x)).elim) (fun x => (h1 (Or.inr x)).elim)
      exact this
    rw [if_pos h2]

theorem copyRest_cons_keep {clean : Bool} {f : File} {a : Atom} {l : List Atom}
    {out r : List Byte} (hk : keeps clean a = true)
    (h : copyRest clean f (a :: l) out = .ok r) :
    ∃ out1, copyAtom f a out = .ok out1 ∧ copyRest clean f l out1 = .ok r := by
  unfold keeps at hk
  simp only [Bool.and_eq_true, Bool.not_eq_true', Bool.or_eq_false_iff, decide_eq_false_iff_not,
    Bool.and_eq_false_imp, Bool.or_eq_true, decide_eq_true_eq] at hk
  rw [copyRest] at h
  have h1 : ¬ (a.Typ = tagFtyp ∨ a.Typ = tagMoov) := by
    rintro (h | h)
    · exact hk.1.1 h
    · exact hk.1.2 h
  have h2 : ¬ (clean = true ∧ (a.Typ = tagFree ∨ a.Typ = tagZero)) := by
    rintro ⟨hc, h | h⟩
    · exact (hk.2 hc).1 h
    · exact (hk.2 hc).2 h
  rw [if_neg h1, if_neg h2] at h
  cases hc : copyAtom f a out with
  | ok out1 => rw [hc] at h; exact ⟨out1, rfl, h⟩
  | error e => rw [hc] at h; cases h
  | panic => rw [hc] at h; cases h
  | outOfFuel => rw [hc] at h; cases h

/-- The last loop of Convert appends, for each atom it keeps, the bytes of that atom. -/
theorem copyRest_ok {clean : Bool} {f : File} : ∀ (l : List Atom) (out r : List Byte),
    (∀ a ∈ l, a.Size < 2 ^ 64) → copyRest clean f l out = .ok r →
    r = out ++ ((l.filter (keeps clean)).map
          (fun a => (f.bytes.drop a.Offset).take a.Size)).flatten ∧
    ∀ a ∈ l.filter (keeps clean), a.Offset + a.Size ≤ f.bytes.length := by
  intro l
  induction l with
  | nil =>
    intro out r _ h
    rw [copyRest] at h
    cases h
    simp
  | cons a l ih =>
    intro out r hs h
    have hs1 : ∀ x ∈ l, x.Size < 2 ^ 64 := fun x hx => hs x (List.mem_cons_of_mem _ hx)
    cases hk : keeps clean a with
    | false =>
      rw [copyRest_cons_skip hk] at h
      have := ih out r hs1 h
      simpa [List.filter_cons, hk] using this
    | true =>
      obtain ⟨out1, hc, h⟩ := copyRest_cons_keep hk h
      obtain ⟨bs, hb, rfl⟩ := copyAtom_ok hc
      obtain ⟨i1, i2⟩ := ih _ r hs1 h
      obtain ⟨a1, a2, a3⟩ := atom_slice (hs a (List.mem_cons_self _ _)) hb
      constructor
      · rw [i1, a2]
        simp [List.filter_cons, hk]
      · intro x hx
        simp only [List.filter_cons, hk, if_true, List.mem_cons] at hx
        rcases hx with rfl | hx
        · exact a1
        · exact i2 x hx

/-! ## Facts about the patching loops -/

theorem copyLoop_ok (bytes : List Byte) (base : Nat) : ∀ (n i : Nat) (acc r : List Byte),
    copyLoop bytes base n i acc = some r →
    ∃ bs, r = acc ++ bs ∧ bs.length = n ∧ ∀ k, k < n → bs[k]? = bytes[add64 base (i + k)]? := by
  intro n
  induction n with
  | zero =>
    intro i acc r h
    rw [copyLoop] at h
    cases h
    exact ⟨[], by simp, rfl, by intro k hk; omega⟩
  | succ n ih =>
    intro i acc r h
    rw [copyLoop] at h
    split at h
    · cases h
    · rename_i x hx
      obtain ⟨bs, h1, h2, h3⟩ := ih _ _ _ h
      refine ⟨x :: bs, by rw [h1]; simp, by simp [h2], ?_⟩
      intro k hk
      cases k with
      | zero => simpa using hx.symm
      | succ k =>
        have := h3 k (by omega)
        simp only [List.getElem?_cons_succ]
        rw [this]
        congr 2
        omega

/-- When the atom lies inside a buffer shorter than `2 ^ 64`, the copy loop
yields the slice of the buffer that the atom occupies. -/
theorem copyLoop_eq_slice {bytes : List Byte} {base n : Nat} {r : List Byte}
    (h : copyLoop bytes base n 0 [] = some r) (hb : base + n ≤ bytes.length)
    (hl : bytes.length < 2 ^ 64) : r = (bytes.drop base).take n := by
  obtain ⟨bs, h1, h2, h3⟩ := copyLoop_ok bytes base n 0 [] r h
  simp only [List.nil_append] at h1
  rw [h1]
  apply List.ext_getElem?
  intro k
  by_cases hk : k < n
  · rw [h3 k hk, List.getElem?_take_of_lt hk, List.getElem?_drop]
    unfold add64
    congr 1
    have : base + (0 + k) < 2 ^ 64 := by omega
    rw [Nat.mod_eq_of_lt this]
    omega
  · have e1 : bs[k]? = none := List.getElem?_eq_none (by omega)
    rw [e1, List.getElem?_take]
    simp [hk]

theorem patchEntries_length (width shiftBy offset : Nat) (hw : width < 2 ^ 64) :
    ∀ (n i : Nat) (pb r : List Byte),
    patchEntries width shiftBy offset n i pb = some r → r.length = pb.length := by
  intro n
  induction n with
  | zero =>
    intro i pb r h
    rw [patchEntries] at h
    cases h; rfl
  | succ n ih =>
    intro i pb r h
    rw [patchEntries] at h
    split at h
    · cases h
    · rename_i eb he
      simp only at h
      have := ih _ _ _ h
      rw [this]
      obtain ⟨h1, h2, h3⟩ := slice_eq_some.1 he
      simp only [List.length_append, List.length_take, List.length_drop, length_putBigEndian]
      have e : width * (i + 1) = width * i + width := by ring
      rw [e] at h1 h2 ⊢
      unfold add64 at *
      omega

theorem patchTable_length {parent : Atom} {shiftBy : Nat} {a : Atom} {pb r : List Byte}
    (h : patchTable parent shiftBy a pb = some r) : r.length = pb.length := by
  unfold patchTable at h
  simp only at h
  split at h
  · cases h
  · split_ifs at h with t1 t2
    · exact patchEntries_length 4 _ _ (by norm_num) _ _ _ _ h
    · exact patchEntries_length 8 _ _ (by norm_num) _ _ _ _ h
    · cases h; rfl

theorem patchTables_length (parent : Atom) (shiftBy : Nat) :
    ∀ (atoms : List Atom) (pb r : List Byte),
    patchTables parent shiftBy atoms pb = some r → r.length = pb.length := by
  intro atoms
  induction atoms with
  | nil =>
    intro pb r h
    rw [patchTables] at h
    cases h; rfl
  | cons a l ih =>
    intro pb r h
    rw [patchTables] at h
    split at h
    · cases h
    · rename_i pb1 hp
      rw [ih _ _ h, patchTable_length hp]

/-- The patched copy has the size of the parent atom. -/
theorem patchChunkOffsetAtoms_length {fuel : Nat} {f : File} {parent : Atom} {shiftBy : Nat}
    {pm : List Byte} (h : patchChunkOffsetAtoms fuel f parent shiftBy = .ok pm) :
    pm.length = parent.Size := by
  unfold patchChunkOffsetAtoms at h
  split at h
  · split at h
    · cases h
    · rename_i pb hpb
      split at h
      · cases h
      · rename_i r hr
        cases h
        rw [patchTables_length _ _ _ _ _ hr]
        obtain ⟨bs, h1, h2, _⟩ := copyLoop_ok _ _ _ _ _ _ hpb
        rw [h1]; simpa using h2
  · cases h
  · cases h
  · cases h

/-! ## Facts about the output of Convert -/

/-- The bytes that the atoms of the list occupy, one after the other. -/
theorem atomBytes_length (bytes : List Byte) : ∀ (l : List Atom),
    (∀ a ∈ l, a.Offset + a.Size ≤ bytes.length) →
    ((l.map (fun a => (bytes.drop a.Offset).take a.Size)).flatten).length = sumSizes l := by
  intro l
  induction l with
  | nil => intro _; simp [sumSizes]
  | cons a l ih =>
    intro h
    have h1 := h a (List.mem_cons_self _ _)
    have h2 := ih (fun x hx => h x (List.mem_cons_of_mem _ hx))
    simp only [List.map_cons, List.flatten_cons, List.length_append, List.length_take,
      List.length_drop, sumSizes, List.sum_cons] at *
    rw [h2]
    omega

theorem sumSizes_append (l1 l2 : List Atom) : sumSizes (l1 ++ l2) = sumSizes l1 + sumSizes l2 := by
  simp [sumSizes]

theorem sumSizes_cons (a : Atom) (l : List Atom) : sumSizes (a :: l) = a.Size + sumSizes l := by
  simp [sumSizes]

theorem filter_tag_eq_singleton {t : List Byte} {l : List Atom} {x : Atom}
    (hc : countTag t l = 1) (hx : x ∈ l) (ht : x.Typ = t) :
    l.filter (fun a => decide (a.Typ = t)) = [x] := by
  unfold countTag at hc
  rw [List.countP_eq_length_filter] at hc
  obtain ⟨y, hy⟩ := List.length_eq_one.1 hc
  have hm : x ∈ l.filter (fun a => decide (a.Typ = t)) := by
    simp [List.mem_filter, hx, ht]
  rw [hy] at hm ⊢
  simp only [List.mem_singleton] at hm
  rw [hm]

theorem filter_tag_eq_nil {t : List Byte} {l : List Atom} (hc : countTag t l = 0) :
    l.filter (fun a => decide (a.Typ = t)) = [] := by
  unfold countTag at hc
  rw [List.countP_eq_length_filter] at hc
  exact List.length_eq_zero.1 hc

theorem countTag_append (t : List Byte) (l1 l2 : List Atom) :
    countTag t (l1 ++ l2) = countTag t l1 + countTag t l2 := by
  simp [countTag]

theorem countTag_cons (t : List Byte) (a : Atom) (l : List Atom) :
    countTag t (a :: l) = countTag t l + (if a.Typ = t then 1 else 0) := by
  simp [countTag, List.countP_cons]

theorem countTag_pos {t : List Byte} {l : List Atom} {x : Atom} (hx : x ∈ l) (ht : x.Typ = t) :
    0 < countTag t l := by
  unfold countTag
  rw [List.countP_pos_iff]
  exact ⟨x, hx, by simp [ht]⟩

/-- Without filler removal the atoms split into the copied ones, the `ftyp`
atoms and the `moov` atoms. -/
theorem sumSizes_keeps_false (l : List Atom) :
    sumSizes l = sumSizes (l.filter (keeps false))
      + sumSizes (l.filter (fun a => decide (a.Typ = tagFtyp)))
      + sumSizes (l.filter (fun a => decide (a.Typ = tagMoov))) := by
  induction l with
  | nil => simp [sumSizes]
  | cons a l ih =>
    by_cases h1 : a.Typ = tagFtyp
    · have k : keeps false a = false := by simp [keeps, h1]
      have p1 : decide (a.Typ = tagFtyp) = true := by simp [h1]
      have p2 : decide (a.Typ = tagMoov) = false := by rw [h1]; decide
      simp only [List.filter_cons, k, p1, p2, sumSizes_cons, if_true, if_false,
        Bool.false_eq_true]
      omega
    · by_cases h2 : a.Typ = tagMoov
      · have k : keeps false a = false := by simp [keeps, h2]
        have p1 : decide (a.Typ = tagFtyp) = false := by rw [h2]; decide
        have p2 : decide (a.Typ = tagMoov) = true := by simp [h2]
        simp only [List.filter_cons, k, p1, p2, sumSizes_cons, if_true, if_false,
          Bool.false_eq_true]
        omega
      · have k : keeps false a = true := by simp [keeps, h1, h2]
        have p1 : decide (a.Typ = tagFtyp) = false := by simp [h1]
        have p2 : decide (a.Typ = tagMoov) = false := by simp [h2]
        simp only [List.filter_cons, k, p1, p2, sumSizes_cons, if_true, if_false,
          Bool.false_eq_true]
        omega

/-- With filler removal the copied atoms are those copied without it, minus
the filler atoms. -/
theorem sumSizes_keeps_true (l : List Atom) :
    sumSizes (l.filter (keeps false)) = sumSizes (l.filter (keeps true))
      + sumSizes (l.filter (fun a => decide (a.Typ = tagFree ∨ a.Typ = tagZero))) := by
  induction l with
  | nil => simp [sumSizes]
  | cons a l ih =>
    by_cases h1 : a.Typ = tagFtyp
    · have k1 : keeps false a = false := by simp [keeps, h1]
      have k2 : keeps true a = false := by simp [keeps, h1]
      have p : decide (a.Typ = tagFree ∨ a.Typ = tagZero) = false := by rw [h1]; decide
      simp only [List.filter_cons, k1, k2, p, sumSizes_cons, if_true, if_false,
        Bool.false_eq_true]
      omega
    · by_cases h2 : a.Typ = tagMoov
      · have k1 : keeps false a = false := by simp [keeps, h2]
        have k2 : keeps true a = false := by simp [keeps, h2]
        have p : decide (a.Typ = tagFree ∨ a.Typ = tagZero) = false := by rw [h2]; decide
        simp only [List.filter_cons, k1, k2, p, sumSizes_cons, if_true, if_false,
          Bool.false_eq_true]
        omega
      · have k1 : keeps false a = true := by simp [keeps, h1, h2]
        by_cases h3 : a.Typ = tagFree ∨ a.Typ = tagZero
        · have k2 : keeps true a = false := by
            rcases h3 with h3 | h3 <;> simp [keeps, h3]
          have p : decide (a.Typ = tagFree ∨ a.Typ = tagZero) = true := by simp [h3]
          simp only [List.filter_cons, k1, k2, p, sumSizes_cons, if_true, if_false,
            Bool.false_eq_true]
          omega
        · have k2 : keeps true a = true := by
            simp only [not_or] at h3
            simp [keeps, h1, h2, h3.1, h3.2]
          have p : decide (a.Typ = tagFree ∨ a.Typ = tagZero) = false := by simp [h3]
          simp only [List.filter_cons, k1, k2, p, sumSizes_cons, if_true, if_false,
            Bool.false_eq_true]
          omega

/-- The shape of the bytes that a successful `Convert` leaves in the file. -/
theorem Convert_ok {fuel : Nat} {clean : Bool} {f g : File}
    (h : Convert fuel clean f = .ok g) (hs : ∀ a ∈ f.atoms, a.Size < 2 ^ 64)
    (hf : f.ftyp.Size < 2 ^ 64) :
    ∃ pm, patchChunkOffsetAtoms fuel f f.moov (shiftAmount clean f) = .ok pm ∧
      f.ftyp.Offset + f.ftyp.Size ≤ f.bytes.length ∧
      (∀ a ∈ f.atoms.filter (keeps clean), a.Offset + a.Size ≤ f.bytes.length) ∧
      g.bytes = (f.bytes.drop f.ftyp.Offset).take f.ftyp.Size ++ pm ++
        ((f.atoms.filter (keeps clean)).map
          (fun a => (f.bytes.drop a.Offset).take a.Size)).flatten := by
  unfold Convert at h
  split at h
  · rename_i pm hpm
    split at h
    · rename_i out hout
      split at h
      · rename_i out1 hout1
        cases h
        obtain ⟨bs, hb, rfl⟩ := copyAtom_ok hout
        obtain ⟨a1, a2, a3⟩ := atom_slice hf hb
        obtain ⟨r1, r2⟩ := copyRest_ok _ _ _ hs hout1
        refine ⟨pm, hpm, a1, r2, ?_⟩
        rw [r1, a2]
      · cases h
      · cases h
      · cases h
    · cases h
    · cases h
    · cases h
  · cases h
  · cases h
  · cases h

/-- Where a successful `Convert` puts the bytes of an atom that it copies in its
last loop: after `ftyp`, the patched `moov` and the copied atoms listed before it. -/
theorem Convert_atom_at {fuel : Nat} {clean : Bool} {f g : File}
    (h : Convert fuel clean f = .ok g) (hs : ∀ a ∈ f.atoms, a.Size < 2 ^ 64)
    (hf : f.ftyp.Size < 2 ^ 64) {l1 l2 : List Atom} {x : Atom}
    (hsplit : f.atoms = l1 ++ x :: l2) (hk : keeps clean x = true) (k : Nat) (hlt : k < x.Size) :
    x.Offset + k < f.bytes.length ∧
    g.bytes[f.ftyp.Size + f.moov.Size + sumSizes (l1.filter (keeps clean)) + k]?
      = f.bytes[x.Offset + k]? := by
  obtain ⟨pm, hpm, hfb, hall, hg⟩ := Convert_ok h hs hf
  have hpl := patchChunkOffsetAtoms_length hpm
  rw [hsplit, List.filter_append, List.filter_cons, hk] at hg hall
  simp only [if_true, List.map_append, List.map_cons, List.flatten_append,
    List.flatten_cons] at hg
  have hx : x.Offset + x.Size ≤ f.bytes.length := hall x (by simp)
  have h1 : ∀ a ∈ l1.filter (keeps clean), a.Offset + a.Size ≤ f.bytes.length :=
    fun a ha => hall a (by simp only [if_true, List.mem_append]; exact Or.inl ha)
  have hl1 := atomBytes_length f.bytes _ h1
  have hA : ((f.bytes.drop f.ftyp.Offset).take f.ftyp.Size).length = f.ftyp.Size := by
    simp only [List.length_take, List.length_drop]; omega
  have hX : ((f.bytes.drop x.Offset).take x.Size).length = x.Size := by
    simp only [List.length_take, List.length_drop]; omega
  refine ⟨by omega, ?_⟩
  rw [hg]
  rw [List.getElem?_append_right (by simp only [List.length_append]; omega)]
  rw [List.getElem?_append_right (by simp only [List.length_append]; omega)]
  rw [List.getElem?_append_left (by simp only [List.length_append]; omega)]
  rw [List.getElem?_take_of_lt (by simp only [List.length_append]; omega), List.getElem?_drop]
  congr 1
  simp only [List.length_append]
  omega

/-- In a tiling, with one `ftyp` and one `moov` of which the first lies before
the atom `x` and the second after it, the atoms listed before `x` are `ftyp`
and atoms that the last loop of `Convert` copies. -/
theorem sumSizes_before {f : File} {l1 l2 : List Atom} {x : Atom} {stop : Nat}
    (hsplit : f.atoms = l1 ++ x :: l2) (hTiles : Tiles f.atoms 0 stop)
    (hF : f.ftyp ∈ f.atoms) (hFt : f.ftyp.Typ = tagFtyp)
    (hV : f.moov ∈ f.atoms) (hVt : f.moov.Typ = tagMoov)
    (hxF : x.Typ ≠ tagFtyp) (hxV : x.Typ ≠ tagMoov)
    (hftyp : countTag tagFtyp f.atoms = 1) (hmoov : countTag tagMoov f.atoms = 1)
    (hfx : f.ftyp.Offset < x.Offset) (hxm : x.Offset < f.moov.Offset) :
    x.Offset = sumSizes (l1.filter (keeps false)) + f.ftyp.Size := by
  rw [hsplit] at hTiles hF hV hftyp hmoov
  obtain ⟨T1, T2⟩ := Tiles_append.1 hTiles
  have hxo : x.Offset = 0 + sumSizes l1 := T2.1
  have T3 : Tiles l2 (0 + sumSizes l1 + x.Size) stop := T2.2
  have hF1 : f.ftyp ∈ l1 := by
    rcases List.mem_append.1 hF with h | h
    · exact h
    · rcases List.mem_cons.1 h with h | h
      · rw [h] at hFt; exact absurd hFt hxF
      · have := Tiles_mem T3 h
        omega
  have hV2 : f.moov ∈ l2 := by
    rcases List.mem_append.1 hV with h | h
    · have := Tiles_mem T1 h
      omega
    · rcases List.mem_cons.1 h with h | h
      · rw [h] at hVt; exact absurd hVt hxV
      · exact h
  rw [countTag_append, countTag_cons] at hftyp hmoov
  have c1 := countTag_pos hF1 hFt
  have c2 := countTag_pos hV2 hVt
  have cF : countTag tagFtyp l1 = 1 := by omega
  have cV : countTag tagMoov l1 = 0 := by omega
  have e := sumSizes_keeps_false l1
  rw [filter_tag_eq_singleton cF hF1 hFt, filter_tag_eq_nil cV] at e
  simp only [sumSizes, List.map_cons, List.map_nil, List.sum_cons, List.sum_nil] at e hxo ⊢
  omega

/-! ## Patching with a shift of zero -/

theorem take_slice_drop (pb : List Byte) {start stop : Nat} (h1 : start ≤ stop) :
    pb.take start ++ (pb.drop start).take (stop - start) ++ pb.drop stop = pb := by
  have e : pb.drop stop = (pb.drop start).drop (stop - start) := by
    rw [List.drop_drop]; congr 1; omega
  rw [e, List.append_assoc, List.take_append_drop, List.take_append_drop]

theorem patchEntries_zero (width shiftBy offset : Nat) (hw : width < 2 ^ 64)
    (hz : shiftBy % 2 ^ (8 * width) = 0) :
    ∀ (n i : Nat) (pb r : List Byte),
    patchEntries width shiftBy offset n i pb = some r → r = pb := by
  intro n
  induction n with
  | zero =>
    intro i pb r h
    rw [patchEntries] at h
    cases h; rfl
  | succ n ih =>
    intro i pb r h
    rw [patchEntries] at h
    split at h
    · cases h
    · rename_i eb he
      simp only at h
      have hr := ih _ _ _ h
      rw [hr]
      obtain ⟨h1, _, h3⟩ := slice_eq_some.1 he
      have hl := slice_length he
      have e : width * (i + 1) = width * i + width := by ring
      have hlen : eb.length = width := by
        rw [hl, e]; unfold add64 at *; rw [e] at h1; omega
      have hlt : bigEndian eb < 2 ^ (8 * width) := by
        rw [pow_256, ← hlen]; exact bigEndian_lt eb
      rw [hz, Nat.add_zero, Nat.mod_eq_of_lt hlt]
      have hput : putBigEndian width (bigEndian eb) = eb := by
        rw [← hlen]; exact putBigEndian_bigEndian eb
      rw [hput, h3]
      exact take_slice_drop pb h1

theorem patchTable_zero {parent : Atom} {shiftBy : Nat} (hz : shiftBy = 0) {a : Atom}
    {pb r : List Byte} (h : patchTable parent shiftBy a pb = some r) : r = pb := by
  unfold patchTable at h
  simp only at h
  split at h
  · cases h
  · split_ifs at h with t1 t2
    · exact patchEntries_zero 4 _ _ (by norm_num) (by rw [hz]; rfl) _ _ _ _ h
    · exact patchEntries_zero 8 _ _ (by norm_num) (by rw [hz]; rfl) _ _ _ _ h
    · cases h; rfl

theorem patchTables_zero (parent : Atom) {shiftBy : Nat} (hz : shiftBy = 0) :
    ∀ (atoms : List Atom) (pb r : List Byte),
    patchTables parent shiftBy atoms pb = some r → r = pb := by
  intro atoms
  induction atoms with
  | nil =>
    intro pb r h
    rw [patchTables] at h
    cases h; rfl
  | cons a l ih =>
    intro pb r h
    rw [patchTables] at h
    split at h
    · cases h
    · rename_i pb1 hp
      rw [ih _ _ h, patchTable_zero hz hp]

/-- With a shift of zero the patcher returns the bytes of the parent atom. -/
theorem patchChunkOffsetAtoms_zero {fuel : Nat} {f : File} {parent : Atom} {pm : List Byte}
    (h : patchChunkOffsetAtoms fuel f parent 0 = .ok pm)
    (hb : parent.Offset + parent.Size ≤ f.bytes.length) (hl : f.bytes.length < 2 ^ 64) :
    pm = (f.bytes.drop parent.Offset).take parent.Size := by
  unfold patchChunkOffsetAtoms at h
  split at h
  · split at h
    · cases h
    · rename_i pb hpb
      split at h
      · cases h
      · rename_i r hr
        cases h
        rw [patchTables_zero _ rfl _ _ _ hr]
        exact copyLoop_eq_slice hpb hb hl
  · cases h
  · cases h
  · cases h

/-- The bytes of atoms that lie end to end are the bytes of the stretch they
cover. -/
theorem tiles_bytes (bytes : List Byte) : ∀ (l : List Atom) (s e : Nat),
    Tiles l s e → e ≤ bytes.length →
    (l.map (fun a => (bytes.drop a.Offset).take a.Size)).flatten = (bytes.drop s).take (e - s) := by
  intro l
  induction l with
  | nil =>
    intro s e h _
    have : s = e := h
    simp [this]
  | cons a l ih =>
    intro s e h he
    have h1 : a.Offset = s := h.1
    have h2 := ih _ _ h.2 he
    have h3 := Tiles_stop h.2
    simp only [List.map_cons, List.flatten_cons]
    rw [h2, h1]
    have e1 : e - s = a.Size + (e - (s + a.Size)) := by omega
    rw [e1, List.take_add, List.drop_drop]

/-- Among atoms without `ftyp` and `moov` the last loop of `Convert(false)`
copies every one. -/
theorem filter_keeps_false_eq_self {l : List Atom} (h1 : countTag tagFtyp l = 0)
    (h2 : countTag tagMoov l = 0) : l.filter (keeps false) = l := by
  rw [List.filter_eq_self]
  intro a ha
  have n1 : a.Typ ≠ tagFtyp := fun e => by
    have := countTag_pos ha e; omega
  have n2 : a.Typ ≠ tagMoov := fun e => by
    have := countTag_pos ha e; omega
  simp [keeps, n1, n2]

/-! ## What the patching loops write -/

theorem entryAt_congr {w : Nat} {r pb : List Byte} {pos pos2 : Nat}
    (h : ∀ k, k < w → r[pos + k]? = pb[pos2 + k]?) : entryAt w r pos = entryAt w pb pos2 := by
  unfold entryAt
  congr 1
  apply List.ext_getElem?
  intro k
  rw [List.getElem?_take, List.getElem?_take]
  split_ifs with hk
  · rw [List.getElem?_drop, List.getElem?_drop]; exact h k hk
  · rfl

theorem splice_left {pb mid : List Byte} {a b j : Nat} (ha : a ≤ pb.length) (hj : j < a) :
    (pb.take a ++ mid ++ pb.drop b)[j]? = pb[j]? := by
  rw [List.append_assoc, List.getElem?_append_left (by simp only [List.length_append, List.length_take]; omega)]
  exact List.getElem?_take_of_lt hj

theorem splice_right {pb mid : List Byte} {a b j : Nat} (hab : a ≤ b) (hb : b ≤ pb.length)
    (hm : mid.length = b - a) (hj : b ≤ j) :
    (pb.take a ++ mid ++ pb.drop b)[j]? = pb[j]? := by
  rw [List.getElem?_append_right (by simp only [List.length_append, List.length_take]; omega)]
  rw [List.getElem?_drop]
  congr 1
  simp only [List.length_append, List.length_take]
  omega

theorem splice_mid {pb mid : List Byte} {a b k : Nat} (hab : a ≤ b) (hb : b ≤ pb.length)
    (hk : k < mid.length) :
    (pb.take a ++ mid ++ pb.drop b)[a + k]? = mid[k]? := by
  rw [List.getElem?_append_left (by simp only [List.length_append, List.length_take]; omega)]
  rw [List.getElem?_append_right (by simp only [List.length_append, List.length_take]; omega)]
  congr 1
  simp only [List.length_take]
  omega

theorem entryAt_self {w : Nat} {l : List Byte} (h : l.length = w) :
    bigEndian l = entryAt w l 0 := by
  unfold entryAt
  rw [List.drop_zero, ← h, List.take_length]


/-- What the loop over the entries of one table does: it needs the entries to
lie inside the copy, leaves every byte outside them alone, and adds the shift
to each entry, modulo the width of the entry. -/
theorem patchEntries_spec (width shiftBy offset : Nat) :
    ∀ (n i : Nat) (pb r : List Byte),
    patchEntries width shiftBy offset n i pb = some r →
    offset + width * (i + n) < 2 ^ 64 →
    (0 < n → offset + width * (i + n) ≤ pb.length) ∧
    (∀ j, j < offset + width * i ∨ offset + width * (i + n) ≤ j → r[j]? = pb[j]?) ∧
    (∀ k, k < n → entryAt width r (offset + width * (i + k))
        = (entryAt width pb (offset + width * (i + k)) + shiftBy) % 2 ^ (8 * width)) := by
  intro n
  induction n with
  | zero =>
    intro i pb r h _
    rw [patchEntries] at h
    cases h
    exact ⟨fun h => absurd h (by omega), fun _ _ => rfl, fun k hk => absurd hk (by omega)⟩
  | succ n ih =>
    intro i pb r h hlt
    rw [patchEntries] at h
    split at h
    · cases h
    · rename_i eb he
      simp only at h
      have eY : width * (i + 1) = width * i + width := by ring
      have eZ : width * (i + (n + 1)) = width * i + width + width * n := by ring
      have eZ1 : width * (i + 1 + n) = width * i + width + width * n := by ring
      have es : add64 offset (width * i) = offset + width * i :=
        Nat.mod_eq_of_lt (by omega)
      have et : add64 offset (width * (i + 1)) = offset + width * i + width := by
        rw [eY]; unfold add64; rw [Nat.mod_eq_of_lt (by omega)]; omega
      rw [es, et] at h he
      obtain ⟨h1, h2, h3⟩ := slice_eq_some.1 he
      have hebl : eb.length = width := by rw [slice_length he]; omega
      have e3 : offset + width * i + width - (offset + width * i) = width := by omega
      rw [e3] at h3
      have hput := length_putBigEndian width
        ((bigEndian eb + shiftBy % 2 ^ (8 * width)) % 2 ^ (8 * width))
      have hm : (putBigEndian width
          ((bigEndian eb + shiftBy % 2 ^ (8 * width)) % 2 ^ (8 * width))).length
          = offset + width * i + width - (offset + width * i) := by rw [hput]; omega
      obtain ⟨b1, b2, b3⟩ := ih (i + 1) _ r h (by rw [eZ1]; omega)
      have hl1 : (List.take (offset + width * i) pb ++ putBigEndian width
          ((bigEndian eb + shiftBy % 2 ^ (8 * width)) % 2 ^ (8 * width)) ++
          List.drop (offset + width * i + width) pb).length = pb.length := by
        simp only [List.length_append, List.length_take, List.length_drop, hput]
        omega
      refine ⟨fun _ => ?_, ?_, ?_⟩
      · by_cases hn : 0 < n
        · have := b1 hn
          rw [hl1, eZ1] at this
          rw [eZ]; exact this
        · have : n = 0 := by omega
          subst this
          rw [eZ]; simp only [Nat.mul_zero, Nat.add_zero]; omega
      · intro j hj
        rw [b2 j (by rw [eY, eZ1]; rw [eZ] at hj; omega)]
        rcases hj with hj | hj
        · exact splice_left (by omega) hj
        · exact splice_right (by omega) h2 hm (by rw [eZ] at hj; omega)
      · intro k hk
        have hval : (bigEndian eb + shiftBy % 2 ^ (8 * width)) % 2 ^ (8 * width)
            = (entryAt width pb (offset + width * i) + shiftBy) % 2 ^ (8 * width) := by
          rw [Nat.add_mod_mod, h3]; rfl
        cases k with
        | zero =>
          rw [Nat.add_zero]
          have c1 : entryAt width r (offset + width * i)
              = entryAt width (List.take (offset + width * i) pb ++ putBigEndian width
                ((bigEndian eb + shiftBy % 2 ^ (8 * width)) % 2 ^ (8 * width)) ++
                List.drop (offset + width * i + width) pb) (offset + width * i) := by
            apply entryAt_congr
            intro q hq
            exact b2 _ (Or.inl (by rw [eY]; omega))
          have c2 : entryAt width (List.take (offset + width * i) pb ++ putBigEndian width
                ((bigEndian eb + shiftBy % 2 ^ (8 * width)) % 2 ^ (8 * width)) ++
                List.drop (offset + width * i + width) pb) (offset + width * i)
              = entryAt width (putBigEndian width
                ((bigEndian eb + shiftBy % 2 ^ (8 * width)) % 2 ^ (8 * width))) 0 := by
            apply entryAt_congr
            intro q hq
            rw [Nat.zero_add]
            exact splice_mid (by omega) h2 (by rw [hput]; exact hq)
          rw [c1, c2, ← entryAt_self hput, bigEndian_putBigEndian, ← pow_256,
            Nat.mod_mod, hval]
        | succ k =>
          have e1 : offset + width * (i + (k + 1)) = offset + width * (i + 1 + k) := by
            congr 2; omega
          rw [e1, b3 k (by omega)]
          congr 2
          apply entryAt_congr
          intro q _
          have e2 : width * (i + 1 + k) = width * i + width + width * k := by ring
          exact splice_right (by omega) h2 hm (by rw [e2]; omega)

theorem TablesApart_mem {bytes : List Byte} : ∀ (ts : List Atom) (lo hi : Nat),
    TablesApart bytes lo ts hi →
    lo ≤ hi ∧ ∀ t ∈ ts, lo ≤ t.Offset ∧ t.Offset + t.Size ≤ hi ∧
      tableStart t + tableWidth t * tableCount bytes t ≤ t.Offset + t.Size := by
  intro ts
  induction ts with
  | nil =>
    intro lo hi h
    exact ⟨h, fun t ht => absurd ht (List.not_mem_nil t)⟩
  | cons x l ih =>
    intro lo hi h
    obtain ⟨h1, h2, h3⟩ := h
    obtain ⟨i1, i2⟩ := ih _ _ h3
    refine ⟨by omega, ?_⟩
    intro t ht
    rcases List.mem_cons.1 ht with rfl | ht
    · exact ⟨h1, i1, h2⟩
    · obtain ⟨j1, j2, j3⟩ := i2 t ht
      exact ⟨by omega, j2, j3⟩

/-- What the patcher does with one table that lies inside the parent and
holds its entries within its own extent. -/
theorem patchTable_spec {parent t : Atom} {shiftBy : Nat} {pb r bytes : List Byte}
    (h : patchTable parent shiftBy t pb = some r)
    (hP : parent.Offset ≤ t.Offset)
    (hwf : tableStart t + tableWidth t * tableCount bytes t ≤ t.Offset + t.Size)
    (h64 : t.Offset + t.Size < 2 ^ 64)
    (hagree : ∀ j, t.Offset ≤ parent.Offset + j → parent.Offset + j < t.Offset + t.Size →
      pb[j]? = bytes[parent.Offset + j]?) :
    (∀ j, parent.Offset + j < tableStart t ∨
        tableStart t + tableWidth t * tableCount bytes t ≤ parent.Offset + j → r[j]? = pb[j]?) ∧
    (∀ k, k < tableCount bytes t →
      entryAt (tableWidth t) r (tableStart t - parent.Offset + tableWidth t * k)
        = (entryAt (tableWidth t) bytes (tableStart t + tableWidth t * k) + shiftBy)
            % 2 ^ (8 * tableWidth t)) := by
  unfold tableStart at *
  have eH : t.HeaderEnd = t.Offset + t.HeaderSize := Nat.mod_eq_of_lt (by omega)
  have eS : sub64 t.HeaderEnd parent.Offset = t.Offset + t.HeaderSize - parent.Offset := by
    unfold sub64
    rw [eH, if_pos (by omega), Nat.mod_eq_of_lt (by omega)]
  have eO : add64 (sub64 t.HeaderEnd parent.Offset) 8
      = t.Offset + t.HeaderSize + 8 - parent.Offset := by
    rw [eS]; unfold add64; rw [Nat.mod_eq_of_lt (by omega)]; omega
  have e4 : sub64 (t.Offset + t.HeaderSize + 8 - parent.Offset) 4
      = t.Offset + t.HeaderSize + 8 - parent.Offset - 4 := by
    unfold sub64
    rw [if_pos (by omega), Nat.mod_eq_of_lt (by omega)]
  unfold patchTable at h
  simp only at h
  rw [eO, e4] at h
  split at h
  · cases h
  · rename_i cb hc
    obtain ⟨c1, c2, c3⟩ := slice_eq_some.1 hc
    have e5 : t.Offset + t.HeaderSize + 8 - parent.Offset
        - (t.Offset + t.HeaderSize + 8 - parent.Offset - 4) = 4 := by omega
    rw [e5] at c3
    have hcount : bigEndian cb = tableCount bytes t := by
      rw [c3]
      show entryAt 4 pb _ = entryAt 4 bytes _
      apply entryAt_congr
      intro k hk
      rw [hagree _ (by omega) (by omega)]
      congr 1; omega
    rw [hcount] at h
    have key : ∀ w, w = tableWidth t →
        patchEntries w shiftBy (t.Offset + t.HeaderSize + 8 - parent.Offset)
          (tableCount bytes t) 0 pb = some r →
        (∀ j, parent.Offset + j < t.Offset + t.HeaderSize + 8 ∨
          t.Offset + t.HeaderSize + 8 + tableWidth t * tableCount bytes t ≤ parent.Offset + j →
          r[j]? = pb[j]?) ∧
        (∀ k, k < tableCount bytes t →
          entryAt (tableWidth t) r (t.Offset + t.HeaderSize + 8 - parent.Offset + tableWidth t * k)
            = (entryAt (tableWidth t) bytes (t.Offset + t.HeaderSize + 8 + tableWidth t * k)
                + shiftBy) % 2 ^ (8 * tableWidth t)) := by
      intro w hw hp
      subst hw
      obtain ⟨_, p2, p3⟩ := patchEntries_spec _ _ _ _ _ _ _ hp
        (by rw [Nat.zero_add]; omega)
      rw [Nat.zero_add, Nat.mul_zero, Nat.add_zero] at p2
      constructor
      · intro j hj
        exact p2 j (by omega)
      · intro k hk
        have := p3 k hk
        rw [Nat.zero_add] at this
        rw [this]
        congr 2
        apply entryAt_congr
        intro q hq
        have hmul : tableWidth t * k + tableWidth t ≤ tableWidth t * tableCount bytes t := by
          calc tableWidth t * k + tableWidth t = tableWidth t * (k + 1) := by ring
            _ ≤ tableWidth t * tableCount bytes t := Nat.mul_le_mul_left _ (by omega)
        rw [hagree _ (by omega) (by omega)]
        congr 1; omega
    unfold tableWidth at key ⊢
    split_ifs at h key ⊢ with t1 t2
    · exact key 4 rfl h
    · exact key 8 rfl h
    · cases h
      refine ⟨fun _ _ => rfl, fun k _ => ?_⟩
      simp [entryAt, bigEndian, Nat.mod_one]

/-- What the patcher does with a list of tables that lie one after the other
inside the parent: every byte outside the entries stays, and every entry gets
the shift added, modulo the width of the entry. -/
theorem patchTables_spec {parent : Atom} {shiftBy : Nat} {bytes : List Byte} {hi : Nat}
    (h64 : hi < 2 ^ 64) :
    ∀ (ts : List Atom) (lo : Nat) (pb r : List Byte),
    TablesApart bytes lo ts hi → parent.Offset ≤ lo →
    (∀ j, lo ≤ parent.Offset + j → parent.Offset + j < hi → pb[j]? = bytes[parent.Offset + j]?) →
    patchTables parent shiftBy ts pb = some r →
    (∀ j, (∀ t ∈ ts, parent.Offset + j < tableStart t ∨
        tableStart t + tableWidth t * tableCount bytes t ≤ parent.Offset + j) →
      r[j]? = pb[j]?) ∧
    (∀ t ∈ ts, ∀ k, k < tableCount bytes t →
      entryAt (tableWidth t) r (tableStart t - parent.Offset + tableWidth t * k)
        = (entryAt (tableWidth t) bytes (tableStart t + tableWidth t * k) + shiftBy)
            % 2 ^ (8 * tableWidth t)) := by
  intro ts
  induction ts with
  | nil =>
    intro lo pb r _ _ _ h
    rw [patchTables] at h
    cases h
    exact ⟨fun _ _ => rfl, fun t ht => absurd ht (List.not_mem_nil t)⟩
  | cons x l ih =>
    intro lo pb r hA hP hagree h
    rw [patchTables] at h
    split at h
    · cases h
    · rename_i pb1 hp
      obtain ⟨a1, a2, a3⟩ := hA
      obtain ⟨m1, m2⟩ := TablesApart_mem _ _ _ a3
      obtain ⟨s1, s2⟩ := patchTable_spec hp (by omega) a2 (by omega)
        (fun j hj1 hj2 => hagree j (by omega) (by omega))
      have hagree1 : ∀ j, x.Offset + x.Size ≤ parent.Offset + j → parent.Offset + j < hi →
          pb1[j]? = bytes[parent.Offset + j]? := by
        intro j hj1 hj2
        rw [s1 j (Or.inr (by omega))]
        exact hagree j (by omega) hj2
      obtain ⟨i1, i2⟩ := ih _ _ r a3 (by omega) hagree1 h
      constructor
      · intro j hj
        rw [i1 j (fun t ht => hj t (List.mem_cons_of_mem _ ht))]
        exact s1 j (hj x (List.mem_cons_self _ _))
      · intro t ht k hk
        rcases List.mem_cons.1 ht with rfl | ht
        · rw [← s2 k hk]
          apply entryAt_congr
          intro q hq
          apply i1
          intro t2 ht2
          left
          have := (m2 t2 ht2).1
          have hmul : tableWidth t * k + tableWidth t ≤ tableWidth t * tableCount bytes t := by
            calc tableWidth t * k + tableWidth t = tableWidth t * (k + 1) := by ring
              _ ≤ tableWidth t * tableCount bytes t := Nat.mul_le_mul_left _ (by omega)
          unfold tableStart at *
          omega
        · exact i2 t ht k hk

/-! ## The shift -/

theorem shiftLoop_eq (m : Nat) : ∀ (l : List Atom) (s : Nat), s < 2 ^ 64 →
    shiftLoop m l s = (s + sumSizes (l.filter
      (fun a => decide ((a.Typ = tagFree ∨ a.Typ = tagZero) ∧ a.Offset < m)))) % 2 ^ 64 := by
  intro l
  induction l with
  | nil =>
    intro s hs
    rw [shiftLoop]
    have n0 : sumSizes [] = 0 := rfl
    rw [List.filter_nil, n0, Nat.add_zero, Nat.mod_eq_of_lt hs]
  | cons a l ih =>
    intro s hs
    rw [shiftLoop]
    have hlt : add64 s a.Size < 2 ^ 64 := Nat.mod_lt _ (by norm_num)
    by_cases h1 : a.Typ = tagFree ∧ a.Offset < m
    · have p : decide ((a.Typ = tagFree ∨ a.Typ = tagZero) ∧ a.Offset < m) = true := by
        simp [h1.1, h1.2]
      rw [if_pos h1, ih _ hlt, List.filter_cons, p, if_pos rfl, sumSizes_cons]
      unfold add64
      omega
    · rw [if_neg h1]
      by_cases h2 : a.Typ = tagZero ∧ a.Offset < m
      · have p : decide ((a.Typ = tagFree ∨ a.Typ = tagZero) ∧ a.Offset < m) = true := by
          simp [h2.1, h2.2]
        rw [if_pos h2, ih _ hlt, List.filter_cons, p, if_pos rfl, sumSizes_cons]
        unfold add64
        omega
      · have p : decide ((a.Typ = tagFree ∨ a.Typ = tagZero) ∧ a.Offset < m) = false := by
          rw [decide_eq_false_iff_not]
          rintro ⟨h3 | h3, h4⟩
          · exact h1 ⟨h3, h4⟩
          · exact h2 ⟨h3, h4⟩
        rw [if_neg h2, ih _ hs, List.filter_cons, p]
        simp only [Bool.false_eq_true, if_false]

/-- The shift that `Convert` computes, as a sum in `uint64`. -/
theorem shiftAmount_eq (clean : Bool) (f : File) :
    shiftAmount clean f = ((if clean then sumSizes (fillerBefore f) else 0)
      + (if f.moov.Offset > f.mdat.Offset then f.moov.Size else 0)) % 2 ^ 64 := by
  unfold shiftAmount fillerBefore
  simp only
  cases clean with
  | false =>
    simp only [Bool.false_eq_true, if_false, Nat.zero_add]
    split_ifs with h
    · unfold add64; rw [Nat.zero_add]
    · rfl
  | true =>
    simp only [if_true]
    rw [shiftLoop_eq _ _ 0 (by norm_num), Nat.zero_add]
    split_ifs with h
    · unfold add64; omega
    · simp

theorem sumSizes_mem_le {l : List Atom} {a : Atom} (h : a ∈ l) : a.Size ≤ sumSizes l := by
  induction l with
  | nil => cases h
  | cons x l ih =>
    rw [sumSizes_cons]
    rcases List.mem_cons.1 h with rfl | h
    · omega
    · have := ih h; omega

theorem sumSizes_filter_mono {p q : Atom → Bool} (hpq : ∀ a, p a = true → q a = true) :
    ∀ l : List Atom, sumSizes (l.filter p) ≤ sumSizes (l.filter q) := by
  intro l
  induction l with
  | nil => simp
  | cons x l ih =>
    rw [List.filter_cons, List.filter_cons]
    cases hp : p x with
    | true =>
      rw [hpq x hp]
      simp only [if_true, sumSizes_cons]
      omega
    | false =>
      cases hq : q x with
      | true =>
        simp only [if_true, Bool.false_eq_true, if_false, sumSizes_cons]
        omega
      | false =>
        simp only [Bool.false_eq_true, if_false]
        exact ih

/-- In a loaded file whose atoms tile the buffer the filler atoms and `moov`
together are no larger than the buffer, so the shift does not wrap. -/
theorem shift_no_wrap {fuel : Nat} {b : List Byte} {f : File} (hNew : New fuel b = .ok f)
    (hTiles : Tiles f.atoms 0 b.length) :
    sumSizes (fillerBefore f) + f.moov.Size < 2 ^ 64 := by
  obtain ⟨_, _, _, _, ⟨hV, hVt⟩⟩ := New_ok hNew
  have hl := New_length hNew
  have hT := Tiles_stop hTiles
  have e1 := sumSizes_keeps_false f.atoms
  have e2 := sumSizes_keeps_true f.atoms
  have e3 : sumSizes (fillerBefore f)
      ≤ sumSizes (f.atoms.filter (fun a => decide (a.Typ = tagFree ∨ a.Typ = tagZero))) := by
    unfold fillerBefore
    apply sumSizes_filter_mono
    intro a ha
    simp only [decide_eq_true_eq] at ha ⊢
    exact ha.1
  have e4 : f.moov.Size ≤ sumSizes (f.atoms.filter (fun a => decide (a.Typ = tagMoov))) := by
    apply sumSizes_mem_le
    simp [List.mem_filter, hV, hVt]
  omega

theorem copyLoop_bound {bytes : List Byte} {base n : Nat} {r : List Byte}
    (h : copyLoop bytes base n 0 [] = some r) (hn : 0 < n) (hb : base < 2 ^ 64)
    (hl : bytes.length < 2 ^ 64) : base + n ≤ bytes.length := by
  obtain ⟨bs, _, h2, h3⟩ := copyLoop_ok bytes base n 0 [] r h
  have valid : ∀ k, k < n → add64 base (0 + k) < bytes.length := by
    intro k hk
    have hk2 : k < bs.length := by omega
    have e := h3 k hk
    rw [List.getElem?_eq_getElem hk2] at e
    by_contra hc
    rw [List.getElem?_eq_none (by omega)] at e
    cases e
  by_contra hc
  have v0 := valid 0 hn
  have v1 := valid (bytes.length - base) (by omega)
  unfold add64 at v0 v1
  omega

theorem entryAt_inner {w : Nat} {A pm K : List Byte} {q : Nat} (h : q + w ≤ pm.length) :
    entryAt w (A ++ pm ++ K) (A.length + q) = entryAt w pm q := by
  apply entryAt_congr
  intro k hk
  rw [List.getElem?_append_left (by simp only [List.length_append]; omega)]
  rw [List.getElem?_append_right (by omega)]
  congr 1
  omega

theorem readAtom_bound {bytes : List Byte} {offset : Nat} {a : Atom}
    (h : readAtom bytes offset = .ok a) : offset + 8 ≤ bytes.length := by
  unfold readAtom at h
  split at h
  · cases h
  · rename_i sizeBytes hs
    split at h
    · cases h
    · rename_i typeBytes ht
      obtain ⟨s1, s2, _⟩ := slice_eq_some.1 hs
      obtain ⟨t1, t2, _⟩ := slice_eq_some.1 ht
      unfold add64 at *
      omega

/-- The entries of the located tables in the output of Convert. -/
theorem Convert_entries {fuel fuel2 : Nat} {clean : Bool} {b : List Byte} {f g : File}
    (hNew : New fuel b = .ok f) (hConv : Convert fuel2 clean f = .ok g) {tables : List Atom}
    (hfind : findChunkOffsetAtoms fuel2 f f.moov = .ok tables)
    (hApart : TablesApart b f.moov.Offset tables (f.moov.Offset + f.moov.Size))
    {t : Atom} (ht : t ∈ tables) {k : Nat} (hk : k < tableCount b t) :
    entryAt (tableWidth t) g.bytes
        (f.ftyp.Size + (tableStart t - f.moov.Offset) + tableWidth t * k)
      = (entryAt (tableWidth t) b (tableStart t + tableWidth t * k) + shiftAmount clean f)
          % 2 ^ (8 * tableWidth t) := by
  obtain ⟨hb, hr, ⟨hF, _⟩, _, ⟨hV, _⟩⟩ := New_ok hNew
  have hl := New_length hNew
  have hs : ∀ a ∈ f.atoms, a.Size < 2 ^ 64 := fun a ha => (readAtom_ok (hr a ha)).2.2.2.1
  obtain ⟨pm, hpm, hfb, _, hg⟩ := Convert_ok hConv hs (hs _ hF)
  have hpl := patchChunkOffsetAtoms_length hpm
  have hVr := hr _ hV
  have hVo := readAtom_bound hVr
  obtain ⟨_, hV8, hVs, _, _⟩ := readAtom_ok hVr
  unfold patchChunkOffsetAtoms at hpm
  rw [hfind] at hpm
  simp only at hpm
  split at hpm
  · cases hpm
  · rename_i pb0 hpb0
    split at hpm
    · cases hpm
    · rename_i r hr2
      cases hpm
      rw [hb] at hpb0 hfb hg
      have hbound := copyLoop_bound hpb0 (by omega) (by omega) hl
      have hpb := copyLoop_eq_slice hpb0 hbound hl
      have hagree : ∀ j, f.moov.Offset ≤ f.moov.Offset + j →
          f.moov.Offset + j < f.moov.Offset + f.moov.Size →
          pb0[j]? = b[f.moov.Offset + j]? := by
        intro j _ hj
        rw [hpb, List.getElem?_take_of_lt (by omega), List.getElem?_drop]
      obtain ⟨_, e2⟩ := patchTables_spec (by omega) tables f.moov.Offset pb0 pm hApart
        (Nat.le_refl _) hagree hr2
      have e3 := e2 t ht k hk
      obtain ⟨_, m2⟩ := TablesApart_mem _ _ _ hApart
      obtain ⟨q1, q2, q3⟩ := m2 t ht
      have hmul : tableWidth t * k + tableWidth t ≤ tableWidth t * tableCount b t := by
        calc tableWidth t * k + tableWidth t = tableWidth t * (k + 1) := by ring
          _ ≤ tableWidth t * tableCount b t := Nat.mul_le_mul_left _ (by omega)
      have hA : ((b.drop f.ftyp.Offset).take f.ftyp.Size).length = f.ftyp.Size := by
        simp only [List.length_take, List.length_drop]; omega
      have hts : f.moov.Offset ≤ tableStart t := by unfold tableStart; omega
      rw [hg, ← e3, Nat.add_assoc]
      have := @entryAt_inner (tableWidth t) ((b.drop f.ftyp.Offset).take f.ftyp.Size) pm
        (((f.atoms.filter (keeps clean)).map
          (fun a => (b.drop a.Offset).take a.Size)).flatten)
        (tableStart t - f.moov.Offset + tableWidth t * k) (by omega)
      rw [hA] at this
      exact this

/-- The shift without wrap-around, for a loaded file whose atoms tile the buffer. -/
theorem shiftAmount_exact {fuel : Nat} {b : List Byte} {f : File} (clean : Bool)
    (hNew : New fuel b = .ok f) (hTiles : Tiles f.atoms 0 b.length) :
    shiftAmount clean f = (if clean then sumSizes (fillerBefore f) else 0)
      + (if f.moov.Offset > f.mdat.Offset then f.moov.Size else 0) := by
  have h := shift_no_wrap hNew hTiles
  rw [shiftAmount_eq]
  apply Nat.mod_eq_of_lt
  cases clean <;> split_ifs <;> simp only [Bool.false_eq_true, if_false, if_true] at * <;> omega

/-- The file made of ftyp, one filler atom, mdat and moov, converted with
filler removal. -/
theorem Convert_four_atoms {fuel fuel2 : Nat} {b : List Byte} {f g : File}
    (hNew : New fuel b = .ok f) (hConv : Convert fuel2 true f = .ok g)
    {a1 a2 a3 a4 : Atom} (hat : f.atoms = [a1, a2, a3, a4]) (h1 : a1.Typ = tagFtyp)
    (h2 : a2.Typ = tagFree ∨ a2.Typ = tagZero) (h3 : a3.Typ = tagMdat)
    (h4 : a4.Typ = tagMoov) (hT : Tiles f.atoms 0 b.length) :
    shiftAmount true f = a2.Size + a4.Size ∧
    ∃ pm, patchChunkOffsetAtoms fuel2 f a4 (a2.Size + a4.Size) = .ok pm ∧
      g.bytes = (b.drop a1.Offset).take a1.Size ++ pm ++ (b.drop a3.Offset).take a3.Size := by
  obtain ⟨hb, hr, ⟨hF, hFt⟩, ⟨hM, hMt⟩, ⟨hV, hVt⟩⟩ := New_ok hNew
  have hs : ∀ a ∈ f.atoms, a.Size < 2 ^ 64 := fun a ha => (readAtom_ok (hr a ha)).2.2.2.1
  have n2F : a2.Typ ≠ tagFtyp := by rcases h2 with h | h <;> rw [h] <;> decide
  have n2M : a2.Typ ≠ tagMdat := by rcases h2 with h | h <;> rw [h] <;> decide
  have n2V : a2.Typ ≠ tagMoov := by rcases h2 with h | h <;> rw [h] <;> decide
  have eF : f.ftyp = a1 := by
    rw [hat] at hF
    simp only [List.mem_cons, List.mem_singleton, List.not_mem_nil, or_false] at hF
    rcases hF with h | h | h | h
    · exact h
    · rw [h] at hFt; exact absurd hFt n2F
    · rw [h, h3] at hFt; exact absurd hFt (by decide)
    · rw [h, h4] at hFt; exact absurd hFt (by decide)
  have eM : f.mdat = a3 := by
    rw [hat] at hM
    simp only [List.mem_cons, List.mem_singleton, List.not_mem_nil, or_false] at hM
    rcases hM with h | h | h | h
    · rw [h, h1] at hMt; exact absurd hMt (by decide)
    · rw [h] at hMt; exact absurd hMt n2M
    · exact h
    · rw [h, h4] at hMt; exact absurd hMt (by decide)
  have eV : f.moov = a4 := by
    rw [hat] at hV
    simp only [List.mem_cons, List.mem_singleton, List.not_mem_nil, or_false] at hV
    rcases hV with h | h | h | h
    · rw [h, h1] at hVt; exact absurd hVt (by decide)
    · rw [h] at hVt; exact absurd hVt n2V
    · rw [h, h3] at hVt; exact absurd hVt (by decide)
    · exact h
  have s2 : 8 ≤ a2.Size := by
    obtain ⟨_, x, y, _⟩ := readAtom_ok (hr a2 (by rw [hat]; simp))
    omega
  have s3 : 8 ≤ a3.Size := by
    obtain ⟨_, x, y, _⟩ := readAtom_ok (hr a3 (by rw [hat]; simp))
    omega
  have hT2 := hT
  rw [hat] at hT2
  obtain ⟨o1, o2, o3, o4, _⟩ := hT2
  have hsh := shiftAmount_exact true hNew hT
  have d1 : decide ((a1.Typ = tagFree ∨ a1.Typ = tagZero) ∧ a1.Offset < a3.Offset) = false := by
    rw [h1]; simp only [decide_eq_false_iff_not]; rintro ⟨h | h, _⟩ <;> exact absurd h (by decide)
  have d2 : decide ((a2.Typ = tagFree ∨ a2.Typ = tagZero) ∧ a2.Offset < a3.Offset) = true := by
    simp only [decide_eq_true_eq]; exact ⟨h2, by omega⟩
  have d3 : decide ((a3.Typ = tagFree ∨ a3.Typ = tagZero) ∧ a3.Offset < a3.Offset) = false := by
    simp
  have d4 : decide ((a4.Typ = tagFree ∨ a4.Typ = tagZero) ∧ a4.Offset < a3.Offset) = false := by
    simp only [decide_eq_false_iff_not]; rintro ⟨_, h⟩; omega
  have hfb : fillerBefore f = [a2] := by
    unfold fillerBefore
    rw [hat, eM]
    simp only [List.filter_cons, List.filter_nil, d1, d2, d3, d4, if_true, if_false,
      Bool.false_eq_true]
  have n0 : sumSizes [] = 0 := rfl
  rw [hfb, eM, eV, sumSizes_cons, n0, if_pos rfl, if_pos (by omega : a4.Offset > a3.Offset)]
    at hsh
  rw [Nat.add_zero] at hsh
  refine ⟨hsh, ?_⟩
  obtain ⟨pm, hpm, _, _, hg⟩ := Convert_ok hConv hs (hs _ hF)
  refine ⟨pm, ?_, ?_⟩
  · rw [hsh, eV] at hpm
    rw [← hpm]
  · have k1 : keeps true a1 = false := by simp [keeps, h1]
    have k2 : keeps true a2 = false := by rcases h2 with h | h <;> simp [keeps, h]
    have k3 : keeps true a3 = true := by rw [keeps, h3]; decide
    have k4 : keeps true a4 = false := by simp [keeps, h4]
    rw [hg, hat, eF, hb]
    simp only [List.filter_cons, List.filter_nil, k1, k2, k3, k4, if_true, if_false,
      Bool.false_eq_true, List.map_cons, List.map_nil, List.flatten_cons, List.flatten_nil,
      List.append_nil]

/-! ## The top-level walk -/

/-- The scan follows the walk: after the `k` accepted atoms of the walk the
loop of `parse` stands at the cursor of the walk, with `k` iterations used up. -/
theorem parseLoop_walk (k : Nat) : ∀ (offset cursor fuel : Nat) (f : File),
    walk f.bytes k offset = some cursor →
    ∃ f1 : File, f1.bytes = f.bytes ∧
      parseLoop (k + fuel) offset f = parseLoop fuel cursor f1 := by
  induction k with
  | zero =>
    intro offset cursor fuel f h
    rw [walk] at h
    cases h
    exact ⟨f, rfl, by rw [Nat.zero_add]⟩
  | succ k ih =>
    intro offset cursor fuel f h
    rw [walk] at h
    split_ifs at h with hlt
    split at h
    · rename_i a ha
      split_ifs at h with htag
      have e : k + 1 + fuel = (k + fuel) + 1 := by omega
      rw [e, parseLoop, if_pos hlt, ha]
      simp only
      simp only [topLevelTags, List.mem_cons, List.mem_singleton, List.not_mem_nil,
        or_false] at htag
      split_ifs with t1 t2 t3 t4
      · obtain ⟨f1, h1, h2⟩ := ih _ cursor fuel
          { bytes := f.bytes, atoms := f.atoms ++ [a], ftyp := a, mdat := f.mdat,
            moov := f.moov } h
        exact ⟨f1, h1, h2⟩
      · obtain ⟨f1, h1, h2⟩ := ih _ cursor fuel
          { bytes := f.bytes, atoms := f.atoms ++ [a], ftyp := f.ftyp, mdat := a,
            moov := f.moov } h
        exact ⟨f1, h1, h2⟩
      · obtain ⟨f1, h1, h2⟩ := ih _ cursor fuel
          { bytes := f.bytes, atoms := f.atoms ++ [a], ftyp := f.ftyp, mdat := f.mdat,
            moov := a } h
        exact ⟨f1, h1, h2⟩
      · obtain ⟨f1, h1, h2⟩ := ih _ cursor fuel
          { bytes := f.bytes, atoms := f.atoms ++ [a], ftyp := f.ftyp, mdat := f.mdat,
            moov := f.moov } h
        exact ⟨f1, h1, h2⟩
      · exfalso
        simp only [List.mem_cons, List.mem_singleton, List.not_mem_nil, or_false] at t4
        rcases htag with h | h | h | h
        · exact t1 h
        · exact t2 h
        · exact t3 h
        · exact t4 h
    · cases h

/-- What `New` returns when the scan returns an error. -/
theorem New_of_parse_error {fuel : Nat} {b : List Byte} {e : Err}
    (h : parse fuel { bytes := b, atoms := [], ftyp := Atom.zero, mdat := Atom.zero,
                      moov := Atom.zero } = .error e) : New fuel b = .error e := by
  unfold New
  rw [h]

theorem slice_ok {b : List Byte} {lo hi : Nat} (h1 : lo ≤ hi) (h2 : hi ≤ b.length) :
    slice b lo hi = some ((b.drop lo).take (hi - lo)) := by
  unfold slice
  rw [if_pos ⟨h1, h2⟩]

/-- A readable header whose resolved size is smaller than the header makes
`readAtom` return its error. -/
theorem readAtom_too_small {bytes : List Byte} {offset : Nat} (hl : bytes.length < 2 ^ 64)
    (hh : offset + headerLength bytes offset ≤ bytes.length)
    (hs : resolvedSize bytes offset < headerLength bytes offset) :
    readAtom bytes offset = .error .invalidFormat := by
  unfold headerLength at hh hs
  unfold resolvedSize at hs
  unfold sizeField at hh hs
  have e4 : add64 offset 4 = offset + 4 := Nat.mod_eq_of_lt (by split_ifs at hh <;> omega)
  have e8 : add64 offset 8 = offset + 8 := Nat.mod_eq_of_lt (by split_ifs at hh <;> omega)
  have h8 : offset + 8 ≤ bytes.length := by split_ifs at hh <;> omega
  unfold readAtom
  rw [e4, e8, slice_ok (by omega) (by omega), slice_ok (by omega) (by omega)]
  simp only
  have c4 : offset + 4 - offset = 4 := by omega
  rw [c4]
  change (if entryAt 4 bytes offset = 1 then _ else _) = _
  by_cases h1 : entryAt 4 bytes offset = 1
  · rw [if_pos h1] at hh
    rw [if_pos h1, if_pos h1] at hs
    rw [if_pos h1]
    have e16 : add64 offset 16 = offset + 16 := Nat.mod_eq_of_lt (by omega)
    rw [e16, slice_ok (by omega) (by omega)]
    simp only
    have c8 : offset + 16 - (offset + 8) = 8 := by omega
    rw [c8]
    change (if entryAt 8 bytes (offset + 8) < 16 then _ else _) = _
    rw [if_pos hs]
  · rw [if_neg h1] at hh
    rw [if_neg h1, if_neg h1] at hs
    rw [if_neg h1]
    change (if entryAt 4 bytes offset < 8 then _ else _) = _
    rw [if_pos hs]

theorem readAtom_error {bytes : List Byte} {offset : Nat} {e : Err}
    (h : readAtom bytes offset = .error e) : e = .invalidFormat := by
  unfold readAtom at h
  split at h
  · cases h
  · split at h
    · cases h
    · split_ifs at h
      · split at h
        · cases h
        · split_ifs at h
          cases h; rfl
      · cases h; rfl

theorem compressedLoop_error (bytes : List Byte) (parentSize : Nat) :
    ∀ (fuel offset : Nat) (e : Err),
    compressedLoop bytes parentSize fuel offset = .error e → e = .invalidFormat := by
  intro fuel
  induction fuel with
  | zero =>
    intro offset e h
    rw [compressedLoop] at h
    split_ifs at h
  | succ n ih =>
    intro offset e h
    rw [compressedLoop] at h
    split_ifs at h
    split at h
    · split_ifs at h
      exact ih _ _ h
    · rename_i e1 he
      cases h
      exact readAtom_error he
    · cases h
    · cases h

/-- A distinguished atom is still the zero value only when the scan has
listed no atom with its tag. -/
theorem parseLoop_counts (fuel : Nat) : ∀ (offset : Nat) (f g : File),
    parseLoop fuel offset f = .ok g →
    (f.ftyp = Atom.zero → countTag tagFtyp f.atoms = 0) →
    (f.mdat = Atom.zero → countTag tagMdat f.atoms = 0) →
    (f.moov = Atom.zero → countTag tagMoov f.atoms = 0) →
    (g.ftyp = Atom.zero → countTag tagFtyp g.atoms = 0) ∧
    (g.mdat = Atom.zero → countTag tagMdat g.atoms = 0) ∧
    (g.moov = Atom.zero → countTag tagMoov g.atoms = 0) := by
  induction fuel with
  | zero =>
    intro offset f g h h1 h2 h3
    unfold parseLoop at h
    split_ifs at h
    cases h
    exact ⟨h1, h2, h3⟩
  | succ n ih =>
    intro offset f g h h1 h2 h3
    unfold parseLoop at h
    split_ifs at h with hlt
    · split at h
      · rename_i atom hra
        have keep : ∀ (x : Atom) (t : List Byte), atom.Typ ≠ t →
            (x = Atom.zero → countTag t f.atoms = 0) →
            (x = Atom.zero → countTag t (f.atoms ++ [atom]) = 0) := by
          intro x t hne hx hz
          rw [countTag_append, hx hz, countTag_cons, if_neg hne]
          rfl
        have self : ∀ (t : List Byte), atom.Typ = t → t ≠ [] →
            (atom = Atom.zero → countTag t (f.atoms ++ [atom]) = 0) := by
          intro t ht hne hz
          rw [hz] at ht
          exact absurd ht.symm hne
        simp only at h
        split_ifs at h with t1 t2 t3 t4
        · have r := ih _ _ _ h (self _ t1 (by decide))
            (keep _ _ (by rw [t1]; decide) h2) (keep _ _ (by rw [t1]; decide) h3)
          exact r
        · have r := ih _ _ _ h (keep _ _ t1 h1) (self _ t2 (by decide))
            (keep _ _ (by rw [t2]; decide) h3)
          exact r
        · have r := ih _ _ _ h (keep _ _ t1 h1) (keep _ _ t2 h2) (self _ t3 (by decide))
          exact r
        · have r := ih _ _ _ h (keep _ _ t1 h1) (keep _ _ t2 h2) (keep _ _ t3 h3)
          exact r
      · cases h
      · cases h
      · cases h
    · cases h
      exact ⟨h1, h2, h3⟩

/-- After the scan, a distinguished atom is the zero value exactly when no
listed atom carries its tag. -/
theorem parse_zero_iff {fuel : Nat} {b : List Byte} {f : File}
    (h : parse fuel { bytes := b, atoms := [], ftyp := Atom.zero, mdat := Atom.zero,
                      moov := Atom.zero } = .ok f) :
    (f.ftyp = Atom.zero ↔ countTag tagFtyp f.atoms = 0) ∧
    (f.mdat = Atom.zero ↔ countTag tagMdat f.atoms = 0) ∧
    (f.moov = Atom.zero ↔ countTag tagMoov f.atoms = 0) := by
  unfold parse at h
  obtain ⟨_, _, c1, c2, c3⟩ := parseLoop_inv fuel 0 _ _ h (by simp) (Or.inl rfl)
    (Or.inl rfl) (Or.inl rfl)
  obtain ⟨d1, d2, d3⟩ := parseLoop_counts fuel 0 _ _ h (fun _ => rfl) (fun _ => rfl)
    (fun _ => rfl)
  have back : ∀ (x : Atom) (t : List Byte), Captured f.atoms x t → countTag t f.atoms = 0 →
      x = Atom.zero := by
    intro x t hc hz
    rcases hc with hc | hc
    · exact hc
    · have := countTag_pos hc.1 hc.2
      omega
  exact ⟨⟨d1, back _ _ c1⟩, ⟨d2, back _ _ c2⟩, ⟨d3, back _ _ c3⟩⟩

/-- What `New` returns once the scan has returned, by the checks of `validate`. -/
theorem New_after_parse {fuel : Nat} {b : List Byte} {f : File}
    (h : parse fuel { bytes := b, atoms := [], ftyp := Atom.zero, mdat := Atom.zero,
                      moov := Atom.zero } = .ok f) :
    (f.ftyp = Atom.zero → New fuel b = .error .ftypNotFound) ∧
    (f.ftyp ≠ Atom.zero → f.mdat = Atom.zero → New fuel b = .error .mdatNotFound) ∧
    (f.ftyp ≠ Atom.zero → f.mdat ≠ Atom.zero → f.moov = Atom.zero →
      New fuel b = .error .moovNotFound) ∧
    (f.ftyp ≠ Atom.zero → f.mdat ≠ Atom.zero → f.moov ≠ Atom.zero →
      New fuel b ≠ .error .ftypNotFound ∧ New fuel b ≠ .error .mdatNotFound ∧
      New fuel b ≠ .error .moovNotFound) := by
  unfold New
  rw [h]
  simp only
  unfold validate
  simp only [Atom.IsZero, decide_eq_true_eq]
  refine ⟨fun z => ?_, fun z1 z2 => ?_, fun z1 z2 z3 => ?_, fun z1 z2 z3 => ?_⟩
  · rw [if_pos z]
  · rw [if_neg z1, if_pos z2]
  · rw [if_neg z1, if_neg z2, if_pos z3]
  · rw [if_neg z1, if_neg z2, if_neg z3]
    cases hc : containsCompressedAtoms fuel f f.moov with
    | ok yes =>
      cases yes <;> simp
    | error e =>
      have := compressedLoop_error _ _ _ _ _ hc
      subst this
      simp
    | panic => simp
    | outOfFuel => simp

/-! ## Loops that do not return -/

/-- When `readAtom` returns an error at the cursor, the loop of the search
stays at that cursor: no number of iterations gives a result. -/
theorem findLoop_stuck {bytes : List Byte} {stop offset : Nat} {e : Err}
    (hr : readAtom bytes offset = .error e) (hlt : offset < stop) :
    ∀ (fuel : Nat) (atoms : List Atom), findLoop bytes fuel stop offset atoms = .outOfFuel := by
  intro fuel
  induction fuel with
  | zero =>
    intro atoms
    rw [findLoop, if_pos hlt]
  | succ n ih =>
    intro atoms
    rw [findLoop, if_pos hlt, hr]
    exact ih atoms

/-- On the bytes of `cycleInput` the scan goes from 0 to 8 to 16 and back to
0: no number of iterations gives a result. -/
theorem parseLoop_cycle : ∀ (fuel : Nat) (f : File), f.bytes = cycleInput →
    parseLoop fuel 0 f = .outOfFuel ∧ parseLoop fuel 8 f = .outOfFuel ∧
    parseLoop fuel 16 f = .outOfFuel := by
  intro fuel
  induction fuel with
  | zero =>
    intro f hb
    have l0 : (0 : Nat) < cycleInput.length := by decide
    have l8 : (8 : Nat) < cycleInput.length := by decide
    have l16 : (16 : Nat) < cycleInput.length := by decide
    refine ⟨?_, ?_, ?_⟩
    · rw [parseLoop, hb, if_pos l0]
    · rw [parseLoop, hb, if_pos l8]
    · rw [parseLoop, hb, if_pos l16]
  | succ n ih =>
    intro f hb
    have l0 : (0 : Nat) < cycleInput.length := by decide
    have l8 : (8 : Nat) < cycleInput.length := by decide
    have l16 : (16 : Nat) < cycleInput.length := by decide
    have r0 : readAtom cycleInput 0 = .ok atomFtyp8 := by decide
    have r8 : readAtom cycleInput 8
        = .ok { Typ := tagMdat, Offset := 8, Size := 8, HeaderSize := 8 } := by decide
    have r16 : readAtom cycleInput 16
        = .ok { Typ := tagMoov, Offset := 16, Size := 2 ^ 64 - 16, HeaderSize := 16 } := by
      decide
    refine ⟨?_, ?_, ?_⟩
    · rw [parseLoop, hb, if_pos l0, r0]
      exact (ih _ rfl).2.1
    · rw [parseLoop, hb, if_pos l8, r8]
      exact (ih _ rfl).2.2
    · rw [parseLoop, hb, if_pos l16, r16]
      exact (ih _ rfl).1

/-! ## The search on well-formed nested atoms -/

theorem WellFormed_le {bytes : List Byte} : ∀ (forest : Forest) (start stop : Nat),
    WellFormed bytes forest start stop → start ≤ stop := by
  intro forest
  induction forest with
  | nil =>
    intro start stop h
    have : start = stop := h
    omega
  | cons a ch rest _ ihr =>
    intro start stop h
    have := ihr _ _ h.2.2.2.2
    omega

/-- On well-formed nested atoms the loop of the search returns the tables of
the specification, appended to what it had collected, as soon as it may run
as many iterations as there are atoms. -/
theorem findLoop_wellformed (bytes : List Byte) :
    ∀ (forest : Forest) (start stop fuel : Nat) (atoms : List Atom),
    WellFormed bytes forest start stop → stop < 2 ^ 64 → forest.size ≤ fuel →
    findLoop bytes fuel stop start atoms = .ok (atoms ++ tablesOf forest) := by
  intro forest
  induction forest with
  | nil =>
    intro start stop fuel atoms h _ _
    have e : start = stop := h
    subst e
    cases fuel with
    | zero => rw [findLoop, if_neg (by omega)]; simp [tablesOf]
    | succ n => rw [findLoop, if_neg (by omega)]; simp [tablesOf]
  | cons a ch rest ihc ihr =>
    intro start stop fuel atoms h h64 hfuel
    obtain ⟨hread, hfit, hcont, _, hrest⟩ := h
    obtain ⟨hoff, hhs, hle, _, _⟩ := readAtom_ok hread
    rw [Forest.size] at hfuel
    cases fuel with
    | zero => omega
    | succ n =>
      have hlt : start < stop := by omega
      have eadd : add64 start a.Size = start + a.Size := Nat.mod_eq_of_lt (by omega)
      rw [findLoop, if_pos hlt, hread]
      simp only
      rw [eadd, tablesOf]
      by_cases ht : a.Typ = tagStco ∨ a.Typ = tagCo64
      · have it : isTable a = true := by simp [isTable, ht]
        rw [if_pos ht, it, if_pos rfl]
        rw [ihr _ _ n _ hrest h64 (by omega)]
        simp
      · have it : isTable a = false := by simp [isTable, ht]
        rw [if_neg ht, it]
        by_cases hc : a.Typ ∈ [tagTrak, tagMdia, tagMinf, tagStbl]
        · have ic : isContainer a = true := by simp only [isContainer, hc, decide_True]
          have eE : a.End = start + a.Size := by
            unfold Atom.End; rw [hoff]; exact eadd
          have eH : a.HeaderEnd = start + a.HeaderSize := by
            unfold Atom.HeaderEnd; rw [hoff]; exact Nat.mod_eq_of_lt (by omega)
          rw [if_pos hc, eE, eH, ihc _ _ n [] (hcont ic) (by omega) (by omega)]
          simp only [List.nil_append]
          rw [ihr _ _ n _ hrest h64 (by omega), ic]
          simp
        · have ic : isContainer a = false := by simp only [isContainer, hc, decide_False]
          rw [if_neg hc, ihr _ _ n _ hrest h64 (by omega), ic]
          simp

theorem TablesApart_weaken {bytes : List Byte} {lo lo2 hi : Nat} (h : lo2 ≤ lo) :
    ∀ ts : List Atom, TablesApart bytes lo ts hi → TablesApart bytes lo2 ts hi := by
  intro ts
  cases ts with
  | nil =>
    intro ha
    have : lo ≤ hi := ha
    show lo2 ≤ hi
    omega
  | cons t rest =>
    intro ha
    exact ⟨by have := ha.1; omega, ha.2.1, ha.2.2⟩

theorem TablesApart_append {bytes : List Byte} {hi : Nat} :
    ∀ (l1 : List Atom) (lo mid : Nat) (l2 : List Atom),
    TablesApart bytes lo l1 mid → TablesApart bytes mid l2 hi →
    TablesApart bytes lo (l1 ++ l2) hi := by
  intro l1
  induction l1 with
  | nil =>
    intro lo mid l2 h1 h2
    have : lo ≤ mid := h1
    exact TablesApart_weaken this _ h2
  | cons t rest ih =>
    intro lo mid l2 h1 h2
    exact ⟨h1.1, h1.2.1, ih _ _ _ h1.2.2 h2⟩

/-- The tables of well-formed nested atoms lie one after the other, each with
its entries inside its own extent. -/
theorem tablesOf_apart {bytes : List Byte} : ∀ (forest : Forest) (start stop : Nat),
    WellFormed bytes forest start stop → TablesApart bytes start (tablesOf forest) stop := by
  intro forest
  induction forest with
  | nil =>
    intro start stop h
    have e : start = stop := h
    show start ≤ stop
    omega
  | cons a ch rest ihc ihr =>
    intro start stop h
    obtain ⟨hread, hfit, hcont, htab, hrest⟩ := h
    obtain ⟨hoff, hhs, hle, _, _⟩ := readAtom_ok hread
    have hr := ihr _ _ hrest
    rw [tablesOf]
    cases it : isTable a with
    | true =>
      rw [if_pos rfl]
      refine ⟨by omega, ?_, ?_⟩
      · rw [hoff]; exact htab it
      · rw [hoff]; exact hr
    | false =>
      simp only [Bool.false_eq_true, if_false]
      cases ic : isContainer a with
      | true =>
        rw [if_pos rfl]
        have hc := ihc _ _ (hcont ic)
        exact TablesApart_append _ _ _ _ (TablesApart_weaken (by omega) _ hc) hr
      | false =>
        simp only [Bool.false_eq_true, if_false, List.nil_append]
        exact TablesApart_weaken (by omega) _ hr

/-- Tables that lie one after the other are listed by ascending offset. -/
theorem TablesApart_sorted {bytes : List Byte} : ∀ (ts : List Atom) (lo hi : Nat),
    TablesApart bytes lo ts hi → ts.Pairwise (fun x y => x.Offset < y.Offset) := by
  intro ts
  induction ts with
  | nil => intro _ _ _; exact List.Pairwise.nil
  | cons t rest ih =>
    intro lo hi h
    obtain ⟨_, h2, h3⟩ := h
    refine List.Pairwise.cons ?_ (ih _ _ h3)
    intro y hy
    have := ((TablesApart_mem _ _ _ h3).2 y hy).1
    unfold tableStart at h2
    omega

theorem tablesOf_isTable : ∀ (forest : Forest), ∀ t ∈ tablesOf forest, isTable t = true := by
  intro forest
  induction forest with
  | nil => intro t ht; cases ht
  | cons a ch rest ihc ihr =>
    intro t ht
    rw [tablesOf] at ht
    rcases List.mem_append.1 ht with h | h
    · cases it : isTable a with
      | true =>
        rw [it, if_pos rfl] at h
        simp only [List.mem_singleton] at h
        rw [h]; exact it
      | false =>
        rw [it] at h
        simp only [Bool.false_eq_true, if_false] at h
        split_ifs at h
        · exact ihc t h
        · cases h
    · exact ihr t h

/-! ## The patcher returns on well-formed nested atoms -/

theorem copyLoop_total (bytes : List Byte) (base : Nat) (hl : bytes.length < 2 ^ 64) :
    ∀ (n i : Nat) (acc : List Byte), base + i + n ≤ bytes.length →
    ∃ r, copyLoop bytes base n i acc = some r := by
  intro n
  induction n with
  | zero =>
    intro i acc _
    exact ⟨acc, by rw [copyLoop]⟩
  | succ n ih =>
    intro i acc h
    have e : add64 base i = base + i := Nat.mod_eq_of_lt (by omega)
    have hlt : base + i < bytes.length := by omega
    rw [copyLoop, e, List.getElem?_eq_getElem hlt]
    exact ih (i + 1) _ (by omega)

theorem patchEntries_total (width shiftBy offset : Nat) :
    ∀ (n i : Nat) (pb : List Byte), offset + width * (i + n) ≤ pb.length →
    pb.length < 2 ^ 64 → ∃ r, patchEntries width shiftBy offset n i pb = some r := by
  intro n
  induction n with
  | zero =>
    intro i pb _ _
    exact ⟨pb, by rw [patchEntries]⟩
  | succ n ih =>
    intro i pb h hl
    have eY : width * (i + 1) = width * i + width := by ring
    have eZ : width * (i + (n + 1)) = width * i + width + width * n := by ring
    have eZ1 : width * (i + 1 + n) = width * i + width + width * n := by ring
    have es : add64 offset (width * i) = offset + width * i :=
      Nat.mod_eq_of_lt (by omega)
    have et : add64 offset (width * (i + 1)) = offset + width * i + width := by
      rw [eY]; unfold add64; rw [Nat.mod_eq_of_lt (by omega)]; omega
    rw [patchEntries, es, et, slice_ok (by omega) (by omega)]
    simp only
    apply ih
    · simp only [List.length_append, List.length_take, List.length_drop, length_putBigEndian]
      rw [eZ1]; omega
    · simp only [List.length_append, List.length_take, List.length_drop, length_putBigEndian]
      omega

/-- The body of the loop over the tables, for a table that lies inside the
parent: the count is the one the buffer declares and the entries start at the
position of the table relative to the parent. -/
theorem patchTable_eq {parent t : Atom} {shiftBy : Nat} {pb bytes : List Byte}
    (hP : parent.Offset ≤ t.Offset)
    (hwf : tableStart t + tableWidth t * tableCount bytes t ≤ t.Offset + t.Size)
    (hin : t.Offset + t.Size ≤ parent.Offset + pb.length)
    (h64 : t.Offset + t.Size < 2 ^ 64)
    (hagree : ∀ j, t.Offset ≤ parent.Offset + j → parent.Offset + j < t.Offset + t.Size →
      pb[j]? = bytes[parent.Offset + j]?) :
    patchTable parent shiftBy t pb =
      if t.Typ = tagStco then
        patchEntries 4 shiftBy (tableStart t - parent.Offset) (tableCount bytes t) 0 pb
      else if t.Typ = tagCo64 then
        patchEntries 8 shiftBy (tableStart t - parent.Offset) (tableCount bytes t) 0 pb
      else some pb := by
  unfold tableStart at *
  have eH : t.HeaderEnd = t.Offset + t.HeaderSize := Nat.mod_eq_of_lt (by omega)
  have eS : sub64 t.HeaderEnd parent.Offset = t.Offset + t.HeaderSize - parent.Offset := by
    unfold sub64
    rw [eH, if_pos (by omega), Nat.mod_eq_of_lt (by omega)]
  have eO : add64 (sub64 t.HeaderEnd parent.Offset) 8
      = t.Offset + t.HeaderSize + 8 - parent.Offset := by
    rw [eS]; unfold add64; rw [Nat.mod_eq_of_lt (by omega)]; omega
  have e4 : sub64 (t.Offset + t.HeaderSize + 8 - parent.Offset) 4
      = t.Offset + t.HeaderSize + 8 - parent.Offset - 4 := by
    unfold sub64
    rw [if_pos (by omega), Nat.mod_eq_of_lt (by omega)]
  unfold patchTable
  simp only
  rw [eO, e4, slice_ok (by omega) (by omega)]
  simp only
  have e5 : t.Offset + t.HeaderSize + 8 - parent.Offset
      - (t.Offset + t.HeaderSize + 8 - parent.Offset - 4) = 4 := by omega
  rw [e5]
  have hcount : bigEndian (List.take 4
      (List.drop (t.Offset + t.HeaderSize + 8 - parent.Offset - 4) pb))
      = tableCount bytes t := by
    show entryAt 4 pb _ = entryAt 4 bytes _
    apply entryAt_congr
    intro k hk
    rw [hagree _ (by omega) (by omega)]
    congr 1; omega
  rw [hcount]

theorem patchTable_total {parent t : Atom} {shiftBy : Nat} {pb bytes : List Byte}
    (hP : parent.Offset ≤ t.Offset)
    (hwf : tableStart t + tableWidth t * tableCount bytes t ≤ t.Offset + t.Size)
    (hin : t.Offset + t.Size ≤ parent.Offset + pb.length)
    (h64 : parent.Offset + pb.length < 2 ^ 64)
    (hagree : ∀ j, t.Offset ≤ parent.Offset + j → parent.Offset + j < t.Offset + t.Size →
      pb[j]? = bytes[parent.Offset + j]?) :
    ∃ r, patchTable parent shiftBy t pb = some r := by
  rw [patchTable_eq hP hwf hin (by omega) hagree]
  unfold tableWidth at hwf
  have hs : parent.Offset ≤ tableStart t := by unfold tableStart; omega
  split_ifs with t1 t2
  · rw [if_pos t1] at hwf
    exact patchEntries_total 4 _ _ _ _ _ (by rw [Nat.zero_add]; omega) (by omega)
  · rw [if_neg t1, if_pos t2] at hwf
    exact patchEntries_total 8 _ _ _ _ _ (by rw [Nat.zero_add]; omega) (by omega)
  · exact ⟨pb, rfl⟩

theorem patchTables_total {parent : Atom} {shiftBy : Nat} {bytes : List Byte} {hi : Nat}
    (h64 : hi < 2 ^ 64) :
    ∀ (ts : List Atom) (lo : Nat) (pb : List Byte),
    TablesApart bytes lo ts hi → parent.Offset ≤ lo → hi = parent.Offset + pb.length →
    (∀ j, lo ≤ parent.Offset + j → parent.Offset + j < hi → pb[j]? = bytes[parent.Offset + j]?) →
    ∃ r, patchTables parent shiftBy ts pb = some r := by
  intro ts
  induction ts with
  | nil =>
    intro lo pb _ _ _ _
    exact ⟨pb, by rw [patchTables]⟩
  | cons x l ih =>
    intro lo pb hA hP hhi hagree
    obtain ⟨a1, a2, a3⟩ := hA
    obtain ⟨m1, _⟩ := TablesApart_mem _ _ _ a3
    obtain ⟨pb1, hp⟩ := @patchTable_total parent x shiftBy pb bytes (by omega) a2 (by omega)
      (by omega) (fun j hj1 hj2 => hagree j (by omega) (by omega))
    obtain ⟨s1, _⟩ := patchTable_spec hp (by omega) a2 (by omega)
      (fun j hj1 hj2 => hagree j (by omega) (by omega))
    have hl1 := patchTable_length hp
    rw [patchTables, hp]
    simp only
    apply ih (x.Offset + x.Size) pb1 a3 (by omega) (by rw [hl1]; exact hhi)
    intro j hj1 hj2
    rw [s1 j (Or.inr (by omega))]
    exact hagree j (by omega) hj2

/-- The search and the patcher on a parent whose nested atoms are well-formed
and which lies inside the buffer: with as many iterations as there are atoms
the search returns the tables of the specification, and the patcher returns a
copy of the size of the parent in which every byte outside the entries of
those tables is the byte of the buffer and every entry has the shift added,
modulo the width of the entry. -/
theorem patch_wellformed {fuel : Nat} {f : File} {parent : Atom} {forest : Forest}
    (shiftBy : Nat) (hin : parent.Offset + parent.Size ≤ f.bytes.length)
    (hl : f.bytes.length < 2 ^ 64)
    (hwf : WellFormed f.bytes forest (parent.Offset + parent.HeaderSize)
      (parent.Offset + parent.Size))
    (hfuel : forest.size ≤ fuel) :
    findChunkOffsetAtoms fuel f parent = .ok (tablesOf forest) ∧
    ∃ pm, patchChunkOffsetAtoms fuel f parent shiftBy = .ok pm ∧ pm.length = parent.Size ∧
      (∀ j, j < parent.Size →
        (∀ t ∈ tablesOf forest, parent.Offset + j < tableStart t ∨
          tableStart t + tableWidth t * tableCount f.bytes t ≤ parent.Offset + j) →
        pm[j]? = f.bytes[parent.Offset + j]?) ∧
      (∀ t ∈ tablesOf forest, ∀ k, k < tableCount f.bytes t →
        entryAt (tableWidth t) pm (tableStart t - parent.Offset + tableWidth t * k)
          = (entryAt (tableWidth t) f.bytes (tableStart t + tableWidth t * k) + shiftBy)
              % 2 ^ (8 * tableWidth t)) := by
  have hle := WellFormed_le _ _ _ hwf
  have eE : parent.End = parent.Offset + parent.Size := Nat.mod_eq_of_lt (by omega)
  have eH : parent.HeaderEnd = parent.Offset + parent.HeaderSize :=
    Nat.mod_eq_of_lt (by omega)
  have hfind : findChunkOffsetAtoms fuel f parent = .ok (tablesOf forest) := by
    unfold findChunkOffsetAtoms
    rw [eE, eH, findLoop_wellformed f.bytes forest _ _ fuel [] hwf (by omega) hfuel]
    simp
  refine ⟨hfind, ?_⟩
  obtain ⟨pb0, hpb0⟩ := copyLoop_total f.bytes parent.Offset hl parent.Size 0 []
    (by omega)
  have hpb := copyLoop_eq_slice hpb0 hin hl
  have hlen0 : pb0.length = parent.Size := by
    rw [hpb]; simp only [List.length_take, List.length_drop]; omega
  have hagree0 : ∀ j, j < parent.Size → pb0[j]? = f.bytes[parent.Offset + j]? := by
    intro j hj
    rw [hpb, List.getElem?_take_of_lt hj, List.getElem?_drop]
  have hApart := tablesOf_apart _ _ _ hwf
  have hagree : ∀ j, parent.Offset + parent.HeaderSize ≤ parent.Offset + j →
      parent.Offset + j < parent.Offset + parent.Size →
      pb0[j]? = f.bytes[parent.Offset + j]? := fun j _ hj => hagree0 j (by omega)
  obtain ⟨pm, hpm⟩ := @patchTables_total parent shiftBy f.bytes
    (parent.Offset + parent.Size) (by omega) _ _ pb0 hApart (by omega)
    (by rw [hlen0]) hagree
  obtain ⟨s1, s2⟩ := @patchTables_spec parent shiftBy f.bytes
    (parent.Offset + parent.Size) (by omega) _ _ pb0 pm hApart (by omega) hagree hpm
  refine ⟨pm, ?_, ?_, ?_, s2⟩
  · unfold patchChunkOffsetAtoms
    rw [hfind]
    simp only
    rw [hpb0]
    simp only
    rw [hpm]
  · rw [patchTables_length _ _ _ _ _ hpm, hlen0]
  · intro j hj hout
    rw [s1 j hout]
    exact hagree0 j hj

/-! ## Where the atoms and the tables of a forest lie -/

theorem nodes_extent {bytes : List Byte} : ∀ (forest : Forest) (start stop : Nat),
    WellFormed bytes forest start stop →
    ∀ u ∈ forest.nodes, start ≤ u.Offset ∧ u.Offset + u.HeaderSize ≤ u.Offset + u.Size ∧
      u.Offset + u.Size ≤ stop := by
  intro forest
  induction forest with
  | nil => intro _ _ _ u hu; cases hu
  | cons a ch rest ihc ihr =>
    intro start stop h u hu
    obtain ⟨hread, hfit, hcont, _, hrest⟩ := h
    obtain ⟨hoff, hhs, hle, _, _⟩ := readAtom_ok hread
    have hr := WellFormed_le _ _ _ hrest
    rw [Forest.nodes] at hu
    rcases List.mem_cons.1 hu with rfl | hu
    · exact ⟨by omega, by omega, by omega⟩
    · rcases List.mem_append.1 hu with hu | hu
      · cases ic : isContainer a with
        | true =>
          rw [ic, if_pos rfl] at hu
          obtain ⟨i1, i2, i3⟩ := ihc _ _ (hcont ic) u hu
          exact ⟨by omega, i2, by omega⟩
        | false =>
          rw [ic] at hu
          simp only [Bool.false_eq_true, if_false] at hu
          cases hu
      · obtain ⟨i1, i2, i3⟩ := ihr _ _ hrest u hu
        exact ⟨by omega, i2, i3⟩

theorem siblings_nodes : ∀ (forest : Forest), ∀ u ∈ forest.siblings, u ∈ forest.nodes := by
  intro forest
  induction forest with
  | nil => intro u hu; cases hu
  | cons a ch rest _ ihr =>
    intro u hu
    rw [Forest.siblings] at hu
    rw [Forest.nodes]
    rcases List.mem_cons.1 hu with rfl | hu
    · exact List.mem_cons_self _ _
    · exact List.mem_cons_of_mem _ (List.mem_append_right _ (ihr u hu))

/-- A direct child that is a chunk offset table is among the tables. -/
theorem siblings_tables : ∀ (forest : Forest), ∀ u ∈ forest.siblings, isTable u = true →
    u ∈ tablesOf forest := by
  intro forest
  induction forest with
  | nil => intro u hu; cases hu
  | cons a ch rest _ ihr =>
    intro u hu ht
    rw [Forest.siblings] at hu
    rw [tablesOf]
    rcases List.mem_cons.1 hu with rfl | hu
    · rw [ht, if_pos rfl]
      exact List.mem_append_left _ (List.mem_singleton_self _)
    · exact List.mem_append_right _ (ihr u hu ht)

/-- An atom of the forest that is neither a table nor a container shares no
byte with any of the tables. -/
theorem skipped_disjoint {bytes : List Byte} : ∀ (forest : Forest) (start stop : Nat),
    WellFormed bytes forest start stop →
    ∀ u ∈ forest.nodes, isTable u = false → isContainer u = false →
    ∀ t ∈ tablesOf forest, t.Offset + t.Size ≤ u.Offset ∨ u.Offset + u.Size ≤ t.Offset := by
  intro forest
  induction forest with
  | nil => intro _ _ _ u hu; cases hu
  | cons a ch rest ihc ihr =>
    intro start stop h u hu hut huc t ht
    have hwf := h
    obtain ⟨hread, hfit, hcont, htab, hrest⟩ := h
    obtain ⟨hoff, hhs, hle, _, _⟩ := readAtom_ok hread
    have exR := nodes_extent _ _ _ hrest
    have tbR := (TablesApart_mem _ _ _ (tablesOf_apart _ _ _ hrest)).2
    rw [Forest.nodes] at hu
    rw [tablesOf] at ht
    rcases List.mem_cons.1 hu with rfl | hu
    · rw [hut, huc] at ht
      simp only [Bool.false_eq_true, if_false, List.nil_append] at ht
      have := (tbR t ht).1
      right; omega
    · rcases List.mem_append.1 hu with hu | hu
      · cases ic : isContainer a with
        | false =>
          rw [ic] at hu
          simp only [Bool.false_eq_true, if_false] at hu
          cases hu
        | true =>
          rw [ic, if_pos rfl] at hu
          have it : isTable a = false := by
            cases hit : isTable a with
            | false => rfl
            | true =>
              exfalso
              simp only [isTable, isContainer, decide_eq_true_eq] at hit ic
              rcases hit with hh | hh <;> rw [hh] at ic <;> revert ic <;> decide
          rw [it, ic] at ht
          simp only [Bool.false_eq_true, if_false, if_true] at ht
          have exC := nodes_extent _ _ _ (hcont ic) u hu
          rcases List.mem_append.1 ht with ht | ht
          · exact ihc _ _ (hcont ic) u hu hut huc t ht
          · have := (tbR t ht).1
            right; omega
      · have exU := exR u hu
        rcases List.mem_append.1 ht with ht | ht
        · cases it : isTable a with
          | true =>
            rw [it, if_pos rfl] at ht
            simp only [List.mem_singleton] at ht
            subst ht
            left; omega
          | false =>
            rw [it] at ht
            simp only [Bool.false_eq_true, if_false] at ht
            cases ic : isContainer a with
            | true =>
              rw [ic, if_pos rfl] at ht
              have := ((TablesApart_mem _ _ _ (tablesOf_apart _ _ _ (hcont ic))).2 t ht).2.1
              left; omega
            | false =>
              rw [ic] at ht
              simp only [Bool.false_eq_true, if_false] at ht
              cases ht
        · exact ihr _ _ hrest u hu hut huc t ht

/-- The header, the flags and the count of a table lie outside the entries of
every table of the list. -/
theorem before_start_outside {bytes : List Byte} : ∀ (ts : List Atom) (lo hi : Nat),
    TablesApart bytes lo ts hi → ∀ t ∈ ts, ∀ x, t.Offset ≤ x → x < tableStart t →
    ∀ t2 ∈ ts, x < tableStart t2 ∨
      tableStart t2 + tableWidth t2 * tableCount bytes t2 ≤ x := by
  intro ts
  induction ts with
  | nil => intro _ _ _ t ht; cases ht
  | cons y l ih =>
    intro lo hi h t ht x hx1 hx2 t2 ht2
    obtain ⟨h1, h2, h3⟩ := h
    have mem := (TablesApart_mem _ _ _ h3).2
    rcases List.mem_cons.1 ht with rfl | ht
    · rcases List.mem_cons.1 ht2 with rfl | ht2
      · left; exact hx2
      · have := (mem t2 ht2).1
        left; unfold tableStart at *; omega
    · have mt := (mem t ht).1
      rcases List.mem_cons.1 ht2 with rfl | ht2
      · right; omega
      · exact ih _ _ h3 t ht x hx1 hx2 t2 ht2

/-- The header of every atom of the forest lies outside the entries of every
table. -/
theorem header_outside {bytes : List Byte} : ∀ (forest : Forest) (start stop : Nat),
    WellFormed bytes forest start stop →
    ∀ u ∈ forest.nodes, ∀ x, u.Offset ≤ x → x < u.Offset + u.HeaderSize →
    ∀ t ∈ tablesOf forest, x < tableStart t ∨
      tableStart t + tableWidth t * tableCount bytes t ≤ x := by
  intro forest
  induction forest with
  | nil => intro _ _ _ u hu; cases hu
  | cons a ch rest ihc ihr =>
    intro start stop h u hu x hx1 hx2 t ht
    obtain ⟨hread, hfit, hcont, htab, hrest⟩ := h
    obtain ⟨hoff, hhs, hle, _, _⟩ := readAtom_ok hread
    have exR := nodes_extent _ _ _ hrest
    have tbR := (TablesApart_mem _ _ _ (tablesOf_apart _ _ _ hrest)).2
    rw [Forest.nodes] at hu
    rw [tablesOf] at ht
    rcases List.mem_cons.1 hu with rfl | hu
    · rcases List.mem_append.1 ht with ht | ht
      · cases it : isTable u with
        | true =>
          rw [it, if_pos rfl] at ht
          simp only [List.mem_singleton] at ht
          subst ht
          left; unfold tableStart; omega
        | false =>
          rw [it] at ht
          simp only [Bool.false_eq_true, if_false] at ht
          cases ic : isContainer u with
          | true =>
            rw [ic, if_pos rfl] at ht
            have := ((TablesApart_mem _ _ _ (tablesOf_apart _ _ _ (hcont ic))).2 t ht).1
            left; unfold tableStart; omega
          | false =>
            rw [ic] at ht
            simp only [Bool.false_eq_true, if_false] at ht
            cases ht
      · have := (tbR t ht).1
        left; unfold tableStart; omega
    · rcases List.mem_append.1 hu with hu | hu
      · cases ic : isContainer a with
        | false =>
          rw [ic] at hu
          simp only [Bool.false_eq_true, if_false] at hu
          cases hu
        | true =>
          rw [ic, if_pos rfl] at hu
          have it : isTable a = false := by
            cases hit : isTable a with
            | false => rfl
            | true =>
              exfalso
              simp only [isTable, isContainer, decide_eq_true_eq] at hit ic
              rcases hit with hh | hh <;> rw [hh] at ic <;> revert ic <;> decide
          rw [it, ic] at ht
          simp only [Bool.false_eq_true, if_false, if_true] at ht
          have exC := nodes_extent _ _ _ (hcont ic) u hu
          rcases List.mem_append.1 ht with ht | ht
          · exact ihc _ _ (hcont ic) u hu x hx1 hx2 t ht
          · have := (tbR t ht).1
            left; unfold tableStart; omega
      · have exU := exR u hu
        rcases List.mem_append.1 ht with ht | ht
        · cases it : isTable a with
          | true =>
            rw [it, if_pos rfl] at ht
            simp only [List.mem_singleton] at ht
            subst ht
            right; have := htab it; omega
          | false =>
            rw [it] at ht
            simp only [Bool.false_eq_true, if_false] at ht
            cases ic : isContainer a with
            | true =>
              rw [ic, if_pos rfl] at ht
              have := (TablesApart_mem _ _ _ (tablesOf_apart _ _ _ (hcont ic))).2 t ht
              right; omega
            | false =>
              rw [ic] at ht
              simp only [Bool.false_eq_true, if_false] at ht
              cases ht
        · exact ihr _ _ hrest u hu x hx1 hx2 t ht

/-- The tables of the specification are the atoms tagged `stco` or `co64`
among those reached through containers only, in the same order. -/
theorem tablesOf_eq_filter : ∀ (forest : Forest),
    tablesOf forest = forest.nodes.filter isTable := by
  intro forest
  induction forest with
  | nil => rfl
  | cons a ch rest ihc ihr =>
    rw [tablesOf, Forest.nodes, List.filter_cons, List.filter_append, ← ihr]
    cases it : isTable a with
    | true =>
      have ic : isContainer a = false := by
        cases hic : isContainer a with
        | false => rfl
        | true =>
          exfalso
          simp only [isTable, isContainer, decide_eq_true_eq] at it hic
          rcases it with hh | hh <;> rw [hh] at hic <;> revert hic <;> decide
      simp [ic]
    | false =>
      cases ic : isContainer a with
      | true => simp [ihc]
      | false => simp

/-! ## Convert returns on well-formed nested atoms -/

theorem copyAtom_total {f : File} {a : Atom} (dest : List Byte)
    (h : a.Offset + a.Size ≤ f.bytes.length) (hl : f.bytes.length < 2 ^ 64) :
    copyAtom f a dest = .ok (dest ++ (f.bytes.drop a.Offset).take a.Size) := by
  unfold copyAtom
  have e : a.End = a.Offset + a.Size := by
    unfold Atom.End add64
    exact Nat.mod_eq_of_lt (by omega)
  rw [e, slice_ok (by omega) h, Nat.add_sub_cancel_left]

theorem copyRest_total {clean : Bool} {f : File} (hl : f.bytes.length < 2 ^ 64) :
    ∀ (l : List Atom) (out : List Byte), (∀ a ∈ l, a.Offset + a.Size ≤ f.bytes.length) →
    ∃ r, copyRest clean f l out = .ok r := by
  intro l
  induction l with
  | nil =>
    intro out _
    exact ⟨out, by rw [copyRest]⟩
  | cons a l ih =>
    intro out h
    have h1 : ∀ x ∈ l, x.Offset + x.Size ≤ f.bytes.length :=
      fun x hx => h x (List.mem_cons_of_mem _ hx)
    rw [copyRest]
    by_cases c1 : a.Typ = tagFtyp ∨ a.Typ = tagMoov
    · rw [if_pos c1]
      exact ih out h1
    · rw [if_neg c1]
      by_cases c2 : clean = true ∧ (a.Typ = tagFree ∨ a.Typ = tagZero)
      · rw [if_pos c2]
        exact ih out h1
      · rw [if_neg c2, copyAtom_total out (h a (List.mem_cons_self _ _)) hl]
        exact ih _ h1

/-- On a file whose atoms lie inside the buffer and whose `moov` holds
well-formed nested atoms, `Convert` returns a file, given fuel for the search. -/
theorem Convert_total {fuel : Nat} {clean : Bool} {f : File} {forest : Forest}
    (hl : f.bytes.length < 2 ^ 64)
    (hall : ∀ a ∈ f.atoms, a.Offset + a.Size ≤ f.bytes.length)
    (hF : f.ftyp.Offset + f.ftyp.Size ≤ f.bytes.length)
    (hV : f.moov.Offset + f.moov.Size ≤ f.bytes.length)
    (hwf : WellFormed f.bytes forest (f.moov.Offset + f.moov.HeaderSize)
      (f.moov.Offset + f.moov.Size))
    (hfuel : forest.size ≤ fuel) : ∃ g, Convert fuel clean f = .ok g := by
  obtain ⟨_, pm, hpm, _⟩ := patch_wellformed (shiftAmount clean f) hV hl hwf hfuel
  obtain ⟨r, hr⟩ := @copyRest_total clean f hl f.atoms
    (([] : List Byte) ++ (f.bytes.drop f.ftyp.Offset).take f.ftyp.Size ++ pm) hall
  unfold Convert
  rw [hpm, copyAtom_total [] hF hl]
  simp only [hr]
  exact ⟨_, rfl⟩

/-- The file that a successful `Convert` returns differs from the file it was
given in its bytes only. -/
theorem Convert_fields {fuel : Nat} {clean : Bool} {f g : File}
    (h : Convert fuel clean f = .ok g) : g = { f with bytes := g.bytes } := by
  unfold Convert at h
  split at h
  · split at h
    · split at h
      · cases h
        rfl
      · cases h
      · cases h
      · cases h
    · cases h
    · cases h
    · cases h
  · cases h
  · cases h
  · cases h

/-! ## The claims -/

/-- C1, the claim as stated fails at the file `brokenInput` (ftyp, mdat, and a
moov whose only child declares the size 4), which `New` loads: the top-level
atoms tile the buffer, there is one ftyp, one mdat and one moov, ftyp lies
before mdat and moov after it, and `Convert(false)` gives no output within any
number of iterations of the search in moov. -/
theorem convert_gives_no_output_on_tiled_file :
    New 3 brokenInput = .ok brokenLoaded ∧ Tiles brokenLoaded.atoms 0 brokenInput.length ∧
    countTag tagFtyp brokenLoaded.atoms = 1 ∧ countTag tagMdat brokenLoaded.atoms = 1 ∧
    countTag tagMoov brokenLoaded.atoms = 1 ∧
    brokenLoaded.ftyp.Offset < brokenLoaded.mdat.Offset ∧
    brokenLoaded.mdat.Offset < brokenLoaded.moov.Offset ∧
    readAtom brokenInput brokenLoaded.moov.HeaderEnd = .error .invalidFormat ∧
    ∀ fuel : Nat, Convert fuel false brokenLoaded = .outOfFuel := by
  have hr : readAtom brokenInput 28 = .error .invalidFormat := by decide
  refine ⟨by decide, by decide, by decide, by decide, by decide, by decide, by decide, hr, ?_⟩
  intro fuel
  have hf : findChunkOffsetAtoms fuel brokenLoaded brokenLoaded.moov = .outOfFuel :=
    findLoop_stuck hr (by decide) fuel []
  unfold Convert patchChunkOffsetAtoms
  rw [hf]

/-- C1 as amended. When the top-level atoms tile the buffer, with exactly one
`ftyp` and one `moov`, `ftyp` before `mdat` and `moov` after it, the shift
handed to the patcher is the size of `moov`; whenever `Convert(false)` returns,
every byte of the `mdat` atom is found in its output at the input position
plus that shift; and when the atoms nested in `moov` are well formed,
`Convert(false)` does return, given one iteration of the search per nested
atom. (The number of `mdat` atoms plays no role: `f.mdat` is the one the scan
kept.) -/
theorem mdat_addressed_without_clean (fuel : Nat) (b : List Byte) (f : File)
    (hNew : New fuel b = .ok f) (hTiles : Tiles f.atoms 0 b.length)
    (hftyp : countTag tagFtyp f.atoms = 1) (hmoov : countTag tagMoov f.atoms = 1)
    (hfm : f.ftyp.Offset < f.mdat.Offset) (hmm : f.mdat.Offset < f.moov.Offset) :
    shiftAmount false f = f.moov.Size ∧
    (∀ (fuel2 : Nat) (g : File), Convert fuel2 false f = .ok g →
      ∀ p, f.mdat.Offset ≤ p → p < f.mdat.Offset + f.mdat.Size →
        p < b.length ∧ g.bytes[p + f.moov.Size]? = b[p]?) ∧
    (∀ (forest : Forest) (fuel2 : Nat),
      WellFormed b forest (f.moov.Offset + f.moov.HeaderSize) (f.moov.Offset + f.moov.Size) →
      forest.size ≤ fuel2 →
      ∃ g, Convert fuel2 false f = .ok g ∧
        ∀ p, f.mdat.Offset ≤ p → p < f.mdat.Offset + f.mdat.Size →
          p < b.length ∧ g.bytes[p + f.moov.Size]? = b[p]?) := by
  obtain ⟨hb, hr, ⟨hF, hFt⟩, ⟨hM, hMt⟩, ⟨hV, hVt⟩⟩ := New_ok hNew
  have hs : ∀ a ∈ f.atoms, a.Size < 2 ^ 64 := fun a ha => (readAtom_ok (hr a ha)).2.2.2.1
  have part : ∀ (fuel2 : Nat) (g : File), Convert fuel2 false f = .ok g →
      ∀ p, f.mdat.Offset ≤ p → p < f.mdat.Offset + f.mdat.Size →
        p < b.length ∧ g.bytes[p + f.moov.Size]? = b[p]? := by
    intro fuel2 g hConv p hp1 hp2
    obtain ⟨l1, l2, hsplit⟩ := List.append_of_mem hM
    have hk : keeps false f.mdat = true := by rw [keeps, hMt]; decide
    have e := sumSizes_before hsplit hTiles hF hFt hV hVt (by rw [hMt]; decide)
      (by rw [hMt]; decide) hftyp hmoov hfm hmm
    obtain ⟨r1, r2⟩ := Convert_atom_at hConv hs (hs _ hF) hsplit hk (p - f.mdat.Offset)
      (by omega)
    rw [hb] at r1 r2
    have e1 : f.mdat.Offset + (p - f.mdat.Offset) = p := by omega
    have e2 : f.ftyp.Size + f.moov.Size + sumSizes (l1.filter (keeps false))
        + (p - f.mdat.Offset) = p + f.moov.Size := by omega
    rw [e1] at r1 r2
    rw [e2] at r2
    exact ⟨r1, r2⟩
  refine ⟨?_, part, ?_⟩
  · unfold shiftAmount
    have := hs _ hV
    simp only [Bool.false_eq_true, if_false, gt_iff_lt, hmm, if_true, add64, Nat.zero_add]
    exact Nat.mod_eq_of_lt this
  · intro forest fuel2 hwf hfuel
    have hin : ∀ a ∈ f.atoms, a.Offset + a.Size ≤ f.bytes.length := fun a ha => by
      rw [hb]; exact (Tiles_mem hTiles ha).2
    have hl : f.bytes.length < 2 ^ 64 := by rw [hb]; exact New_length hNew
    obtain ⟨g, hg⟩ := @Convert_total fuel2 false f forest hl hin (hin _ hF) (hin _ hV)
      (by rw [hb]; exact hwf) hfuel
    exact ⟨g, hg, part fuel2 g hg⟩

/-- C1 as amended, at the file `plainInput`, whose moov holds the nested atoms
`plainForest`: `Convert(false)` returns and the payload of mdat moves from 16
to 76. -/
theorem mdat_addressed_without_clean_witness :
    New 3 plainInput = .ok plainLoaded ∧ Tiles plainLoaded.atoms 0 plainInput.length ∧
    countTag tagFtyp plainLoaded.atoms = 1 ∧ countTag tagMoov plainLoaded.atoms = 1 ∧
    plainLoaded.ftyp.Offset < plainLoaded.mdat.Offset ∧
    plainLoaded.mdat.Offset < plainLoaded.moov.Offset ∧
    WellFormed plainInput plainForest 28 80 ∧ plainForest.size ≤ 5 ∧
    Convert 5 false plainLoaded = .ok plainConverted ∧
    (shiftAmount false plainLoaded = plainLoaded.moov.Size ∧
      (∀ (fuel2 : Nat) (g : File), Convert fuel2 false plainLoaded = .ok g →
        ∀ p, plainLoaded.mdat.Offset ≤ p → p < plainLoaded.mdat.Offset + plainLoaded.mdat.Size →
          p < plainInput.length ∧ g.bytes[p + plainLoaded.moov.Size]? = plainInput[p]?) ∧
      (∀ (forest : Forest) (fuel2 : Nat),
        WellFormed plainInput forest (plainLoaded.moov.Offset + plainLoaded.moov.HeaderSize)
          (plainLoaded.moov.Offset + plainLoaded.moov.Size) →
        forest.size ≤ fuel2 →
        ∃ g, Convert fuel2 false plainLoaded = .ok g ∧
          ∀ p, plainLoaded.mdat.Offset ≤ p →
            p < plainLoaded.mdat.Offset + plainLoaded.mdat.Size →
            p < plainInput.length ∧ g.bytes[p + plainLoaded.moov.Size]? = plainInput[p]?)) :=
  ⟨by decide, by decide, by decide, by decide, by decide, by decide, by decide, by decide,
    by decide,
    mdat_addressed_without_clean 3 plainInput plainLoaded (by decide) (by decide) (by decide)
      (by decide) (by decide) (by decide)⟩

/-- C2, at the file `fillerInput` (ftyp, an 8-byte `free`, mdat at 16, a 60-byte
moov): `Convert(true)` hands the shift `8 + 60 = 68` to the patcher, but in
its output the mdat atom has moved by `60 - 8 = 52`: the payload byte at input
position 24 is at 76, position `24 + 68` lies past the end of the output, and
so the bytes of mdat are not at their input position plus the shift. -/
theorem clean_misaddresses_mdat :
    New 4 fillerInput = .ok fillerLoaded ∧ Tiles fillerLoaded.atoms 0 fillerInput.length ∧
    Convert 5 true fillerLoaded = .ok fillerCleaned ∧
    shiftAmount true fillerLoaded = 68 ∧ fillerLoaded.mdat.Offset = 16 ∧
    fillerLoaded.mdat.Size = 12 ∧
    fillerInput[24]? = some 1 ∧ fillerCleaned.bytes[24 + 68]? = none ∧
    fillerCleaned.bytes[24 + 52]? = some 1 ∧
    ¬ (∀ p, 16 ≤ p → p < 16 + 12 →
        fillerCleaned.bytes[p + shiftAmount true fillerLoaded]? = fillerInput[p]?) := by
  refine ⟨by decide, by decide, by decide, by decide, by decide, by decide, by decide,
    by decide, by decide, ?_⟩
  intro h
  exact absurd (h 24 (by decide) (by decide)) (by decide)

/-- C3, the claim as stated fails at the file `wrapEntryInput`, which `New`
loads: moov (60 bytes) lies after mdat and there is no filler, the shift is
60, and the `stco` entry `2 ^ 32 - 1` has become 59 in the output of
`Convert(false)`, not the entry plus 60. -/
theorem stco_entry_wraps :
    New 3 wrapEntryInput = .ok wrapEntryLoaded ∧
    wrapEntryLoaded.mdat.Offset < wrapEntryLoaded.moov.Offset ∧
    Convert 5 false wrapEntryLoaded = .ok wrapEntryConverted ∧
    shiftAmount false wrapEntryLoaded = 60 ∧
    entryAt 4 wrapEntryInput 72 = 4294967295 ∧
    entryAt 4 wrapEntryConverted.bytes 64 = 59 ∧
    ¬ (entryAt 4 wrapEntryConverted.bytes 64 = entryAt 4 wrapEntryInput 72 + 60) := by
  decide

/-- C3 as amended. For every loaded file on which `Convert(clean)` returns:
the shift handed to the patcher is, in `uint64` arithmetic, the sum of the
sizes of the top-level atoms tagged `free` or all-zero whose offset is below
that of mdat (if `clean`, else 0) plus the size of moov (if moov lies after
mdat, else 0), without wrap-around when the atoms tile the buffer; the output
is ftyp, then moov patched with that shift, then the copied atoms; every entry
of every located table, when the tables lie one after the other inside moov
with their entries inside their own extent, is the input entry plus the shift
modulo `2 ^ 32` (`stco`) or `2 ^ 64` (`co64`); with moov after mdat and no
filler the shift is the size of moov; and with the atoms ftyp, a filler,
mdat, moov and `clean` set the shift is the size of the filler plus the size
of moov and the output consists of ftyp, the patched moov and mdat only. -/
theorem shift_computation (fuel fuel2 : Nat) (clean : Bool) (b : List Byte) (f g : File)
    (hNew : New fuel b = .ok f) (hConv : Convert fuel2 clean f = .ok g) :
    shiftAmount clean f = ((if clean then sumSizes (fillerBefore f) else 0)
        + (if f.moov.Offset > f.mdat.Offset then f.moov.Size else 0)) % 2 ^ 64 ∧
    (Tiles f.atoms 0 b.length →
      shiftAmount clean f = (if clean then sumSizes (fillerBefore f) else 0)
        + (if f.moov.Offset > f.mdat.Offset then f.moov.Size else 0)) ∧
    (∃ pm, patchChunkOffsetAtoms fuel2 f f.moov (shiftAmount clean f) = .ok pm ∧
      g.bytes = (b.drop f.ftyp.Offset).take f.ftyp.Size ++ pm ++
        ((f.atoms.filter (keeps clean)).map
          (fun a => (b.drop a.Offset).take a.Size)).flatten) ∧
    (∀ tables, findChunkOffsetAtoms fuel2 f f.moov = .ok tables →
      TablesApart b f.moov.Offset tables (f.moov.Offset + f.moov.Size) →
      ∀ t ∈ tables, ∀ k, k < tableCount b t →
        entryAt (tableWidth t) g.bytes
            (f.ftyp.Size + (tableStart t - f.moov.Offset) + tableWidth t * k)
          = (entryAt (tableWidth t) b (tableStart t + tableWidth t * k) + shiftAmount clean f)
              % 2 ^ (8 * tableWidth t)) ∧
    (f.mdat.Offset < f.moov.Offset → (∀ a ∈ f.atoms, a.Typ ≠ tagFree ∧ a.Typ ≠ tagZero) →
      shiftAmount clean f = f.moov.Size) ∧
    (∀ a1 a2 a3 a4, f.atoms = [a1, a2, a3, a4] → a1.Typ = tagFtyp →
      (a2.Typ = tagFree ∨ a2.Typ = tagZero) → a3.Typ = tagMdat → a4.Typ = tagMoov →
      Tiles f.atoms 0 b.length → clean = true →
      shiftAmount clean f = a2.Size + a4.Size ∧
      ∃ pm, patchChunkOffsetAtoms fuel2 f a4 (a2.Size + a4.Size) = .ok pm ∧
        g.bytes = (b.drop a1.Offset).take a1.Size ++ pm ++ (b.drop a3.Offset).take a3.Size) := by
  obtain ⟨hb, hr, ⟨hF, _⟩, _, ⟨hV, _⟩⟩ := New_ok hNew
  have hs : ∀ a ∈ f.atoms, a.Size < 2 ^ 64 := fun a ha => (readAtom_ok (hr a ha)).2.2.2.1
  refine ⟨shiftAmount_eq clean f, fun hT => shiftAmount_exact clean hNew hT, ?_, ?_, ?_, ?_⟩
  · obtain ⟨pm, hpm, _, _, hg⟩ := Convert_ok hConv hs (hs _ hF)
    rw [hb] at hg
    exact ⟨pm, hpm, hg⟩
  · intro tables hfind hApart t ht k hk
    exact Convert_entries hNew hConv hfind hApart ht hk
  · intro hlt hno
    have hnil : fillerBefore f = [] := by
      unfold fillerBefore
      rw [List.filter_eq_nil_iff]
      intro a ha
      simp only [decide_eq_true_eq, not_and]
      rintro (h | h)
      · exact absurd h (hno a ha).1
      · exact absurd h (hno a ha).2
    have n0 : sumSizes [] = 0 := rfl
    rw [shiftAmount_eq, hnil, n0, if_pos hlt]
    have := hs _ hV
    cases clean <;> simp only [Bool.false_eq_true, if_false, if_true, Nat.zero_add]
      <;> exact Nat.mod_eq_of_lt this
  · intro a1 a2 a3 a4 hat h1 h2 h3 h4 hT hc
    subst hc
    exact Convert_four_atoms hNew hConv hat h1 h2 h3 h4 hT

/-- C3 as amended, at the file `fillerInput` with `clean` set: the shift is
`8 + 60`, and the table entry of the output is the input entry plus 68. -/
theorem shift_computation_witness :
    New 4 fillerInput = .ok fillerLoaded ∧ Convert 5 true fillerLoaded = .ok fillerCleaned ∧
    shiftAmount true fillerLoaded = 8 + 60 ∧
    entryAt 4 fillerCleaned.bytes 64 = (entryAt 4 fillerInput 84 + 68) % 2 ^ 32 :=
  have h := shift_computation 4 5 true fillerInput fillerLoaded fillerCleaned
    (by decide) (by decide)
  ⟨by decide, by decide,
    (h.2.2.2.2.2 atomFtyp8 { Typ := tagFree, Offset := 8, Size := 8, HeaderSize := 8 }
      { Typ := tagMdat, Offset := 16, Size := 12, HeaderSize := 8 }
      { Typ := tagMoov, Offset := 28, Size := 60, HeaderSize := 8 }
      (by decide) (by decide) (by decide) (by decide) (by decide) (by decide) rfl).1,
    h.2.2.2.1 [{ Typ := tagStco, Offset := 68, Size := 20, HeaderSize := 8 }] (by decide)
      (by decide) { Typ := tagStco, Offset := 68, Size := 20, HeaderSize := 8 }
      (by decide) 0 (by decide)⟩

/-- C4, at the file `cmovInput`: the atom right after the header of moov is
tagged `cmov`, and yet `New` returns the file, not the error for compressed
moov atoms, however many loop iterations are allowed. -/
theorem cmov_child_is_accepted (fuel : Nat) :
    readAtom cmovInput cmovLoaded.moov.HeaderEnd
      = .ok { Typ := tagCmov, Offset := 24, Size := 8, HeaderSize := 8 } ∧
    New (fuel + 3) cmovInput = .ok cmovLoaded ∧
    New (fuel + 3) cmovInput ≠ .error .compressedMoov := by
  have h : New (fuel + 3) cmovInput = .ok cmovLoaded := by cases fuel <;> rfl
  refine ⟨by decide, h, ?_⟩
  rw [h]; exact fun e => Res.noConfusion e

/-- C8, at the file `truncInput` of 24 bytes: its last atom declares 1000
bytes and ends at 1016, and yet `New` returns the file; its atoms do not tile
the buffer, and `Convert` ends in a run-time panic on it. -/
theorem oversized_last_atom_is_loaded (fuel : Nat) :
    New (fuel + 3) truncInput = .ok truncLoaded ∧ truncInput.length = 24 ∧
    truncLoaded.atoms.getLast? = some truncLoaded.moov ∧ truncLoaded.moov.End = 1016 ∧
    ¬ Tiles truncLoaded.atoms 0 truncInput.length ∧
    Convert (fuel + 1) false truncLoaded = .panic ∧
    Convert (fuel + 1) true truncLoaded = .panic :=
  ⟨by cases fuel <;> rfl, by decide, by decide, by decide, by decide, rfl, rfl⟩

/-- C9, at three short buffers: with 3 bytes in all, with 6 bytes left after a
first atom, and with 12 bytes under a size field of 1, `New` ends in a run-time
panic: it returns neither a file nor an error. -/
theorem short_header_panics (fuel : Nat) :
    New (fuel + 1) [0, 0, 0] = .panic ∧
    New (fuel + 2) (header 8 tagFtyp ++ [0, 0, 0, 8, 109, 100]) = .panic ∧
    New (fuel + 1) (header 1 tagFtyp ++ [0, 0, 0, 0]) = .panic :=
  ⟨rfl, rfl, rfl⟩

/-- C10, at the file `stubInput`, whose atoms tile the buffer: `New` returns
the file, and `Convert` ends in a run-time panic for both values of `clean`
(the search for chunk offset atoms reads a header past the end of the
buffer). -/
theorem convert_panics_on_loaded_file (fuel : Nat) :
    New (fuel + 3) stubInput = .ok stubLoaded ∧
    Tiles stubLoaded.atoms 0 stubInput.length ∧
    Convert (fuel + 1) false stubLoaded = .panic ∧
    Convert (fuel + 1) true stubLoaded = .panic :=
  ⟨by cases fuel <;> rfl, by decide, rfl, rfl⟩

/-- C6, at the file `wrapInput`: `New` returns the file and `Convert` returns
without error for both values of `clean`, but the size of a child of moov
wraps the cursor of the search around `2 ^ 64`, the patcher adds the shift to
the tag of moov, and `New` fails on the resulting bytes: their second atom is
not a valid top-level atom. -/
theorem convert_can_destroy_the_moov_tag (fuel : Nat) :
    New (fuel + 3) wrapInput = .ok wrapLoaded ∧
    Convert (fuel + 2) false wrapLoaded = .ok wrapConverted ∧
    Convert (fuel + 2) true wrapLoaded = .ok wrapConverted ∧
    New (fuel + 2) wrapConverted.bytes = .error .invalidTopLevelAtom :=
  ⟨by cases fuel <;> rfl, by cases fuel <;> rfl, by cases fuel <;> rfl, rfl⟩

/-- C5, the claim as stated fails at the file `dupInput`, which `New` loads:
it holds two `ftyp` atoms, `Convert(false)` copies only the one the scan kept
last, and the output is 24 bytes long, the input 36. It also fails at the file
`overlapInput`, whose atoms do not tile the buffer: `Convert(true)` drops a
`free` atom that declares `2 ^ 64 - 8` bytes, and the output is 48 bytes long,
the input 40. -/
theorem duplicate_ftyp_shrinks_output :
    New 4 dupInput = .ok dupLoaded ∧ Convert 0 false dupLoaded = .ok dupConverted ∧
    ¬ (dupConverted.bytes.length = dupInput.length) ∧
    New 4 overlapInput = .ok overlapLoaded ∧
    Convert 0 true overlapLoaded = .ok overlapCleaned ∧
    sumSizes (overlapLoaded.atoms.filter
      (fun a => decide (a.Typ = tagFree ∨ a.Typ = tagZero))) = 2 ^ 64 - 8 ∧
    ¬ (overlapCleaned.bytes.length + (2 ^ 64 - 8) = overlapInput.length) := by decide

/-- C5 as amended. For every loaded file whose top-level atoms tile the buffer
and hold exactly one `ftyp` and one `moov` atom, whenever `Convert(clean)`
returns, the length of the new bytes is the length of the input when `clean`
is not set, and the length of the input minus the total size of the atoms
tagged `free` or all-zero when it is. -/
theorem output_size (fuel fuel2 : Nat) (clean : Bool) (b : List Byte) (f g : File)
    (hNew : New fuel b = .ok f) (hTiles : Tiles f.atoms 0 b.length)
    (hftyp : countTag tagFtyp f.atoms = 1) (hmoov : countTag tagMoov f.atoms = 1)
    (hConv : Convert fuel2 clean f = .ok g) :
    g.bytes.length + (if clean then
        sumSizes (f.atoms.filter (fun a => decide (a.Typ = tagFree ∨ a.Typ = tagZero)))
      else 0) = b.length := by
  obtain ⟨hb, hr, ⟨hF, hFt⟩, _, ⟨hV, hVt⟩⟩ := New_ok hNew
  have hs : ∀ a ∈ f.atoms, a.Size < 2 ^ 64 := fun a ha => (readAtom_ok (hr a ha)).2.2.2.1
  obtain ⟨pm, hpm, hfb, hall, hg⟩ := Convert_ok hConv hs (hs _ hF)
  have hpl := patchChunkOffsetAtoms_length hpm
  have hK := atomBytes_length f.bytes _ hall
  have hlen : g.bytes.length = f.ftyp.Size + f.moov.Size
      + sumSizes (f.atoms.filter (keeps clean)) := by
    rw [hg]
    simp only [List.length_append, List.length_take, List.length_drop, hK, hpl]
    omega
  have hT := Tiles_stop hTiles
  have e := sumSizes_keeps_false f.atoms
  rw [filter_tag_eq_singleton hftyp hF hFt, filter_tag_eq_singleton hmoov hV hVt] at e
  have n0 : sumSizes [] = 0 := rfl
  rw [sumSizes_cons, sumSizes_cons, n0] at e
  cases clean with
  | false =>
    simp only [Bool.false_eq_true, if_false]
    omega
  | true =>
    have e2 := sumSizes_keeps_true f.atoms
    simp only [if_true]
    omega

/-- C5 as amended, at the file `fillerInput` with `clean` set: 80 bytes are
left of 88. -/
theorem output_size_witness :
    New 4 fillerInput = .ok fillerLoaded ∧ Tiles fillerLoaded.atoms 0 fillerInput.length ∧
    countTag tagFtyp fillerLoaded.atoms = 1 ∧ countTag tagMoov fillerLoaded.atoms = 1 ∧
    Convert 5 true fillerLoaded = .ok fillerCleaned ∧
    fillerCleaned.bytes.length + (if true = true then
        sumSizes (fillerLoaded.atoms.filter (fun a => decide (a.Typ = tagFree ∨ a.Typ = tagZero)))
      else 0) = fillerInput.length :=
  ⟨by decide, by decide, by decide, by decide, by decide,
    output_size 4 5 true fillerInput fillerLoaded fillerCleaned (by decide) (by decide)
      (by decide) (by decide) (by decide)⟩

/-- C7, the claim as stated fails in two ways. At the file `reorderInput`
(ftyp, free, moov, mdat), which `New` loads, moov precedes mdat and
`FastStartEnabled` is true, `Convert(false)` returns, and its output (ftyp,
moov, free, mdat) differs from the input. At the file `fastBrokenInput` (ftyp,
a moov whose only child declares the size 4, mdat), which `New` loads as well,
moov precedes mdat and `FastStartEnabled` is true, and `Convert(false)` does
not succeed: it gives no result within any number of iterations of the search
in moov. -/
theorem fast_start_file_reordered_or_not_converted :
    (New 4 reorderInput = .ok reorderLoaded ∧
      reorderLoaded.moov.Offset < reorderLoaded.mdat.Offset ∧
      FastStartEnabled reorderLoaded = true ∧
      Convert 0 false reorderLoaded = .ok reorderConverted ∧
      ¬ (reorderConverted.bytes = reorderInput)) ∧
    (New 3 fastBrokenInput = .ok fastBrokenLoaded ∧
      fastBrokenLoaded.moov.Offset < fastBrokenLoaded.mdat.Offset ∧
      FastStartEnabled fastBrokenLoaded = true ∧
      Tiles fastBrokenLoaded.atoms 0 fastBrokenInput.length ∧
      fastBrokenLoaded.atoms
        = [fastBrokenLoaded.ftyp, fastBrokenLoaded.moov, fastBrokenLoaded.mdat] ∧
      ∀ fuel : Nat, Convert fuel false fastBrokenLoaded = .outOfFuel) := by
  have hr : readAtom fastBrokenInput 16 = .error .invalidFormat := by decide
  refine ⟨by decide, by decide, by decide, by decide, by decide, by decide, ?_⟩
  intro fuel
  have hf : findChunkOffsetAtoms fuel fastBrokenLoaded fastBrokenLoaded.moov = .outOfFuel :=
    findLoop_stuck hr (by decide) fuel []
  unfold Convert patchChunkOffsetAtoms
  rw [hf]

/-- C7 as amended. For every loaded file in which moov precedes mdat,
`FastStartEnabled` is true. When moreover the top-level atoms tile the buffer,
`ftyp` is the first of them and `moov` the second, and there is no other
`ftyp` or `moov` atom, then whenever `Convert(false)` returns, the file it
returns is the file it was given, bytes included; and when the atoms nested in
`moov` are well formed, `Convert(false)` does return it, given one iteration of
the search per nested atom. -/
theorem convert_keeps_fast_start_file (fuel : Nat) (b : List Byte) (f : File)
    (hNew : New fuel b = .ok f) (hprec : f.moov.Offset < f.mdat.Offset) :
    FastStartEnabled f = true ∧
    ∀ rest : List Atom, Tiles f.atoms 0 b.length → f.atoms = f.ftyp :: f.moov :: rest →
      countTag tagFtyp f.atoms = 1 → countTag tagMoov f.atoms = 1 →
      (∀ (fuel2 : Nat) (g : File), Convert fuel2 false f = .ok g → g = f ∧ g.bytes = b) ∧
      (∀ (forest : Forest) (fuel2 : Nat),
        WellFormed b forest (f.moov.Offset + f.moov.HeaderSize) (f.moov.Offset + f.moov.Size) →
        forest.size ≤ fuel2 → Convert fuel2 false f = .ok f) := by
  constructor
  · simp [FastStartEnabled, hprec]
  · intro rest hTiles hlay hftyp hmoov
    obtain ⟨hb, hr, ⟨hF, hFt⟩, _, ⟨hV, hVt⟩⟩ := New_ok hNew
    have hs : ∀ a ∈ f.atoms, a.Size < 2 ^ 64 := fun a ha => (readAtom_ok (hr a ha)).2.2.2.1
    have hl : f.bytes.length < 2 ^ 64 := by rw [hb]; exact New_length hNew
    have part : ∀ (fuel2 : Nat) (g : File), Convert fuel2 false f = .ok g →
        g = f ∧ g.bytes = b := by
      intro fuel2 g hConv
      obtain ⟨pm, hpm, hfb, hall, hg⟩ := Convert_ok hConv hs (hs _ hF)
      have hsh : shiftAmount false f = 0 := by
        unfold shiftAmount
        simp only [Bool.false_eq_true, if_false, gt_iff_lt]
        rw [if_neg (by omega)]
      rw [hsh] at hpm
      have hVb := (Tiles_mem hTiles hV).2
      have hpmv := patchChunkOffsetAtoms_zero hpm (by rw [hb]; exact hVb) hl
      have c1 : countTag tagFtyp rest = 0 := by
        rw [hlay, countTag_cons, countTag_cons] at hftyp
        simp only [hFt, if_true] at hftyp
        omega
      have c2 : countTag tagMoov rest = 0 := by
        rw [hlay, countTag_cons, countTag_cons] at hmoov
        simp only [hVt, if_true] at hmoov
        omega
      have kF : keeps false f.ftyp = false := by simp [keeps, hFt]
      have kV : keeps false f.moov = false := by simp [keeps, hVt]
      have hfil : f.atoms.filter (keeps false) = rest := by
        rw [hlay, List.filter_cons, kF, List.filter_cons, kV]
        simp only [Bool.false_eq_true, if_false]
        exact filter_keeps_false_eq_self c1 c2
      have hwhole := tiles_bytes f.bytes f.atoms 0 b.length hTiles (by rw [hb])
      have hgb : g.bytes = b := by
        rw [hg, hpmv, hfil]
        rw [hlay] at hwhole
        simp only [List.map_cons, List.flatten_cons, Nat.sub_zero, List.drop_zero] at hwhole
        rw [List.append_assoc, hwhole, ← hb]
        exact List.take_length _
      refine ⟨?_, hgb⟩
      rw [Convert_fields hConv, hgb, ← hb]
    refine ⟨part, ?_⟩
    intro forest fuel2 hwf hfuel
    have hin : ∀ a ∈ f.atoms, a.Offset + a.Size ≤ f.bytes.length := fun a ha => by
      rw [hb]; exact (Tiles_mem hTiles ha).2
    obtain ⟨g, hg⟩ := @Convert_total fuel2 false f forest hl hin (hin _ hF) (hin _ hV)
      (by rw [hb]; exact hwf) hfuel
    rw [hg, (part fuel2 g hg).1]

/-- C7 as amended, at the bytes of `plainConverted` (ftyp, moov, mdat), whose
moov holds the nested atoms `fastForest`: `Convert(false)` returns the file
unchanged. The first half also holds at `reorderLoaded`, where moov does not
follow ftyp directly. -/
theorem convert_keeps_fast_start_file_witness :
    (New 4 reorderInput = .ok reorderLoaded ∧
      reorderLoaded.moov.Offset < reorderLoaded.mdat.Offset ∧
      FastStartEnabled reorderLoaded = true) ∧
    New 3 plainConverted.bytes = .ok fastLoaded ∧
    fastLoaded.moov.Offset < fastLoaded.mdat.Offset ∧
    Tiles fastLoaded.atoms 0 plainConverted.bytes.length ∧
    fastLoaded.atoms = fastLoaded.ftyp :: fastLoaded.moov :: [fastLoaded.mdat] ∧
    countTag tagFtyp fastLoaded.atoms = 1 ∧ countTag tagMoov fastLoaded.atoms = 1 ∧
    WellFormed plainConverted.bytes fastForest 16 68 ∧ fastForest.size ≤ 5 ∧
    FastStartEnabled fastLoaded = true ∧
    Convert 5 false fastLoaded = .ok fastLoaded ∧ fastLoaded.bytes = plainConverted.bytes :=
  ⟨⟨by decide, by decide,
      (convert_keeps_fast_start_file 4 reorderInput reorderLoaded (by decide) (by decide)).1⟩,
    by decide, by decide, by decide, by decide, by decide, by decide, by decide, by decide,
    (convert_keeps_fast_start_file 3 plainConverted.bytes fastLoaded (by decide) (by decide)).1,
    ((convert_keeps_fast_start_file 3 plainConverted.bytes fastLoaded (by decide) (by decide)).2
      [fastLoaded.mdat] (by decide) (by decide) (by decide) (by decide)).2 fastForest 5
      (by decide) (by decide),
    rfl⟩

/-- C11. Unknown top-level atoms are rejected: whenever the top-level walk
from offset 0 reaches, after `k` accepted atoms, a cursor inside the buffer
at which `readAtom` decodes an atom whose tag is none of ftyp, mdat, moov,
free, junk, pict, pnot, skip, uuid, wide, `New` returns the error for an
invalid top-level atom, as soon as `k + 1` iterations are allowed. -/
theorem unknown_top_level_atom_rejected (fuel k : Nat) (b : List Byte) (offset : Nat)
    (a : Atom) (hwalk : walk b k 0 = some offset) (hlt : offset < b.length)
    (hread : readAtom b offset = .ok a) (htag : a.Typ ∉ topLevelTags) :
    New (k + (fuel + 1)) b = .error .invalidTopLevelAtom := by
  apply New_of_parse_error
  unfold parse
  obtain ⟨f1, h1, h2⟩ := parseLoop_walk k 0 offset (fuel + 1)
    { bytes := b, atoms := [], ftyp := Atom.zero, mdat := Atom.zero, moov := Atom.zero } hwalk
  simp only at h1
  rw [h2, parseLoop, h1, if_pos hlt, hread]
  simp only [topLevelTags, List.mem_cons, List.mem_singleton, List.not_mem_nil, or_false,
    not_or] at htag
  simp only
  rw [if_neg htag.1, if_neg htag.2.1, if_neg htag.2.2.1, if_neg]
  simp only [List.mem_cons, List.mem_singleton, List.not_mem_nil, or_false, not_or]
  exact htag.2.2.2

/-- C11, at the file `unknownInput`, whose third atom is tagged `zzzz`. -/
theorem unknown_top_level_atom_rejected_witness :
    walk unknownInput 2 0 = some 16 ∧ 16 < unknownInput.length ∧
    readAtom unknownInput 16 = .ok { Typ := tagZzzz, Offset := 16, Size := 8, HeaderSize := 8 } ∧
    tagZzzz ∉ topLevelTags ∧
    New (2 + (0 + 1)) unknownInput = .error .invalidTopLevelAtom :=
  ⟨by decide, by decide, by decide, by decide,
    unknown_top_level_atom_rejected 0 2 unknownInput 16
      { Typ := tagZzzz, Offset := 16, Size := 8, HeaderSize := 8 } (by decide) (by decide)
      (by decide) (by decide)⟩

/-- C12. Missing mandatory atoms are reported specifically and in order:
whenever the top-level scan returns, `New` returns the error for a missing
ftyp exactly when no listed atom is tagged ftyp; when there is one, it returns
the error for a missing mdat exactly when none is tagged mdat; and when there
are both, it returns the error for a missing moov exactly when none is tagged
moov. -/
theorem missing_atoms_reported (fuel : Nat) (b : List Byte) (f : File)
    (hparse : parse fuel { bytes := b, atoms := [], ftyp := Atom.zero, mdat := Atom.zero,
                           moov := Atom.zero } = .ok f) :
    (New fuel b = .error .ftypNotFound ↔ countTag tagFtyp f.atoms = 0) ∧
    (countTag tagFtyp f.atoms ≠ 0 →
      (New fuel b = .error .mdatNotFound ↔ countTag tagMdat f.atoms = 0)) ∧
    (countTag tagFtyp f.atoms ≠ 0 → countTag tagMdat f.atoms ≠ 0 →
      (New fuel b = .error .moovNotFound ↔ countTag tagMoov f.atoms = 0)) := by
  obtain ⟨z1, z2, z3⟩ := parse_zero_iff hparse
  obtain ⟨n1, n2, n3, n4⟩ := New_after_parse hparse
  by_cases h1 : f.ftyp = Atom.zero
  · have e := n1 h1
    refine ⟨⟨fun _ => z1.1 h1, fun _ => e⟩, fun c => absurd (z1.1 h1) c,
      fun c _ => absurd (z1.1 h1) c⟩
  · have c1 : countTag tagFtyp f.atoms ≠ 0 := fun c => h1 (z1.2 c)
    by_cases h2 : f.mdat = Atom.zero
    · have e := n2 h1 h2
      refine ⟨⟨fun x => ?_, fun c => absurd c c1⟩, fun _ => ⟨fun _ => z2.1 h2, fun _ => e⟩,
        fun _ c => absurd (z2.1 h2) c⟩
      rw [e] at x; cases x
    · have c2 : countTag tagMdat f.atoms ≠ 0 := fun c => h2 (z2.2 c)
      by_cases h3 : f.moov = Atom.zero
      · have e := n3 h1 h2 h3
        refine ⟨⟨fun x => ?_, fun c => absurd c c1⟩,
          fun _ => ⟨fun x => ?_, fun c => absurd c c2⟩,
          fun _ _ => ⟨fun _ => z3.1 h3, fun _ => e⟩⟩
        · rw [e] at x; cases x
        · rw [e] at x; cases x
      · have c3 : countTag tagMoov f.atoms ≠ 0 := fun c => h3 (z3.2 c)
        obtain ⟨e1, e2, e3⟩ := n4 h1 h2 h3
        exact ⟨⟨fun x => absurd x e1, fun c => absurd c c1⟩,
          fun _ => ⟨fun x => absurd x e2, fun c => absurd c c2⟩,
          fun _ _ => ⟨fun x => absurd x e3, fun c => absurd c c3⟩⟩

/-- C12, at the file `noMoovInput` (ftyp and mdat only): the error is the one
for a missing moov. -/
theorem missing_atoms_reported_witness :
    parse 2 { bytes := noMoovInput, atoms := [], ftyp := Atom.zero, mdat := Atom.zero,
              moov := Atom.zero } = .ok noMoovScanned ∧
    countTag tagFtyp noMoovScanned.atoms ≠ 0 ∧ countTag tagMdat noMoovScanned.atoms ≠ 0 ∧
    countTag tagMoov noMoovScanned.atoms = 0 ∧
    New 2 noMoovInput = .error .moovNotFound :=
  ⟨by decide, by decide, by decide, by decide,
    ((missing_atoms_reported 2 noMoovInput noMoovScanned (by decide)).2.2 (by decide)
      (by decide)).2 (by decide)⟩

/-- C13, at the file `zeroInput` (ftyp, a well-formed 8-byte atom whose tag is
four zero bytes, mdat, moov): `readAtom` decodes the filler atom, and `New`
returns the error for an invalid top-level atom. -/
theorem zero_tag_is_rejected (fuel : Nat) :
    readAtom zeroInput 8 = .ok { Typ := tagZero, Offset := 8, Size := 8, HeaderSize := 8 } ∧
    New (fuel + 2) zeroInput = .error .invalidTopLevelAtom :=
  ⟨by decide, rfl⟩

/-- C14, the claim as stated fails at the file `directInput`, which `New`
loads: the first child of moov is tagged `stco`, the search returns it, and
the patcher with the shift 56 turns its entry 16 into 72. -/
theorem direct_child_stco_is_found :
    New 3 directInput = .ok directLoaded ∧
    readAtom directInput directLoaded.moov.HeaderEnd = .ok directStco ∧
    directStco.Typ = tagStco ∧
    findChunkOffsetAtoms 2 directLoaded directLoaded.moov = .ok [directStco] ∧
    ¬ (directStco ∉ [directStco]) ∧
    patchChunkOffsetAtoms 2 directLoaded directLoaded.moov 56 = .ok directPatched ∧
    entryAt 4 directInput 40 = 16 ∧ entryAt 4 directPatched 24 = 72 ∧
    ¬ (entryAt 4 directPatched 24 = entryAt 4 directInput 40) := by decide

/-- C14 as amended. For every parent atom that lies inside the buffer and
whose nested atoms are well-formed, the search and the patcher return, and:
an atom tagged `stco` that is a direct child of the parent is in the list the
search returns, and each of its entries is the entry of the buffer plus the
shift modulo `2 ^ 32`; and for a direct child whose tag is none of `stco`,
`co64`, `trak`, `mdia`, `minf`, `stbl`, no atom of the list shares a byte with
it and the patcher leaves every byte of it, tables it may hold included,
unchanged. -/
theorem direct_child_table_is_patched (fuel : Nat) (f : File) (parent : Atom)
    (forest : Forest) (shiftBy : Nat)
    (hin : parent.Offset + parent.Size ≤ f.bytes.length) (hl : f.bytes.length < 2 ^ 64)
    (hwf : WellFormed f.bytes forest (parent.Offset + parent.HeaderSize)
      (parent.Offset + parent.Size))
    (hfuel : forest.size ≤ fuel) :
    ∃ found pm, findChunkOffsetAtoms fuel f parent = .ok found ∧
      patchChunkOffsetAtoms fuel f parent shiftBy = .ok pm ∧
      (∀ u ∈ forest.siblings, u.Typ = tagStco →
        u ∈ found ∧ ∀ k, k < tableCount f.bytes u →
          entryAt 4 pm (tableStart u - parent.Offset + 4 * k)
            = (entryAt 4 f.bytes (tableStart u + 4 * k) + shiftBy) % 2 ^ 32) ∧
      (∀ u ∈ forest.siblings, isTable u = false → isContainer u = false →
        (∀ t ∈ found, t.Offset + t.Size ≤ u.Offset ∨ u.Offset + u.Size ≤ t.Offset) ∧
        ∀ j, u.Offset ≤ parent.Offset + j → parent.Offset + j < u.Offset + u.Size →
          pm[j]? = f.bytes[parent.Offset + j]?) := by
  obtain ⟨hfind, pm, hpm, _, hframe, hent⟩ := @patch_wellformed fuel f parent forest shiftBy
    hin hl hwf hfuel
  have mem := (TablesApart_mem _ _ _ (tablesOf_apart _ _ _ hwf)).2
  refine ⟨tablesOf forest, pm, hfind, hpm, ?_, ?_⟩
  · intro u hu ht
    have it : isTable u = true := by rw [isTable, ht]; decide
    have hm := siblings_tables forest u hu it
    refine ⟨hm, fun k hk => ?_⟩
    have e := hent u hm k hk
    have w : tableWidth u = 4 := by rw [tableWidth, if_pos ht]
    rw [w] at e
    exact e
  · intro u hu h1 h2
    have hn := siblings_nodes forest u hu
    have hd := skipped_disjoint _ _ _ hwf u hn h1 h2
    refine ⟨hd, fun j hj1 hj2 => ?_⟩
    have ex := nodes_extent _ _ _ hwf u hn
    apply hframe j (by omega)
    intro t ht
    have mt := mem t ht
    rcases hd t ht with h | h
    · right; omega
    · left; unfold tableStart; omega

/-- C14 as amended, at the moov of `directInput` with the shift 56: the direct
child `stco` is found and patched, the entry of the table inside `udta` is
unchanged. -/
theorem direct_child_table_is_patched_witness :
    directMoov.Offset + directMoov.Size ≤ directLoaded.bytes.length ∧
    directLoaded.bytes.length < 2 ^ 64 ∧
    WellFormed directLoaded.bytes directForest (directMoov.Offset + directMoov.HeaderSize)
      (directMoov.Offset + directMoov.Size) ∧
    directForest.size ≤ 2 ∧
    ∃ found pm, findChunkOffsetAtoms 2 directLoaded directMoov = .ok found ∧
      patchChunkOffsetAtoms 2 directLoaded directMoov 56 = .ok pm ∧
      directStco ∈ found ∧
      entryAt 4 pm 24 = (entryAt 4 directInput 40 + 56) % 2 ^ 32 ∧
      pm[52]? = directInput[16 + 52]? :=
  ⟨by decide, by decide, by decide, by decide,
    match direct_child_table_is_patched 2 directLoaded directMoov directForest 56
      (by decide) (by decide) (by decide) (by decide) with
    | ⟨found, pm, h1, h2, h3, h4⟩ =>
      ⟨found, pm, h1, h2, (h3 directStco (by decide) rfl).1,
        (h3 directStco (by decide) rfl).2 0 (by decide),
        (h4 directUdta (by decide) (by decide) (by decide)).2 52 (by decide) (by decide)⟩⟩

/-- C15. Entry arithmetic by table width: for every parent atom that lies
inside the buffer and whose nested atoms are well-formed, and every shift,
the patcher returns (as soon as it may run as many iterations as there are
atoms), and in the bytes it returns every entry of every located `stco` table
is the entry of the buffer plus the shift modulo `2 ^ 32`, and every entry of
every located `co64` table is the entry of the buffer plus the shift modulo
`2 ^ 64`, both big-endian. -/
theorem entries_patched_by_width (fuel : Nat) (f : File) (parent : Atom) (forest : Forest)
    (shiftBy : Nat) (hin : parent.Offset + parent.Size ≤ f.bytes.length)
    (hl : f.bytes.length < 2 ^ 64)
    (hwf : WellFormed f.bytes forest (parent.Offset + parent.HeaderSize)
      (parent.Offset + parent.Size))
    (hfuel : forest.size ≤ fuel) :
    findChunkOffsetAtoms fuel f parent = .ok (tablesOf forest) ∧
    ∃ pm, patchChunkOffsetAtoms fuel f parent shiftBy = .ok pm ∧
      ∀ t ∈ tablesOf forest, ∀ k, k < tableCount f.bytes t →
        (t.Typ = tagStco →
          entryAt 4 pm (tableStart t - parent.Offset + 4 * k)
            = (entryAt 4 f.bytes (tableStart t + 4 * k) + shiftBy) % 2 ^ 32) ∧
        (t.Typ = tagCo64 →
          entryAt 8 pm (tableStart t - parent.Offset + 8 * k)
            = (entryAt 8 f.bytes (tableStart t + 8 * k) + shiftBy) % 2 ^ 64) := by
  obtain ⟨hfind, pm, hpm, _, _, hent⟩ := @patch_wellformed fuel f parent forest shiftBy hin hl
    hwf hfuel
  refine ⟨hfind, pm, hpm, ?_⟩
  intro t ht k hk
  have e := hent t ht k hk
  constructor
  · intro h1
    have w : tableWidth t = 4 := by rw [tableWidth, if_pos h1]
    rw [w] at e
    exact e
  · intro h2
    have w : tableWidth t = 8 := by
      rw [tableWidth, if_neg (by rw [h2]; decide), if_pos h2]
    rw [w] at e
    exact e

/-- C15, at the moov of `bothInput` with the shift 84: the entry of the `stco`
table and the entry of the `co64` table. -/
theorem entries_patched_by_width_witness :
    bothMoov.Offset + bothMoov.Size ≤ bothLoaded.bytes.length ∧
    bothLoaded.bytes.length < 2 ^ 64 ∧
    WellFormed bothLoaded.bytes bothForest (bothMoov.Offset + bothMoov.HeaderSize)
      (bothMoov.Offset + bothMoov.Size) ∧
    bothForest.size ≤ 6 ∧
    ∃ pm, patchChunkOffsetAtoms 6 bothLoaded bothMoov 84 = .ok pm ∧
      entryAt 4 pm 56 = (entryAt 4 bothInput 72 + 84) % 2 ^ 32 ∧
      entryAt 8 pm 76 = (entryAt 8 bothInput 92 + 84) % 2 ^ 64 :=
  ⟨by decide, by decide, by decide, by decide,
    match (entries_patched_by_width 6 bothLoaded bothMoov bothForest 84 (by decide)
      (by decide) (by decide) (by decide)).2 with
    | ⟨pm, h1, h2⟩ =>
      ⟨pm, h1, (h2 bothStco (by decide) 0 (by decide)).1 rfl,
        (h2 bothCo64 (by decide) 0 (by decide)).2 rfl⟩⟩

/-- C16. Atoms smaller than their header are rejected: whenever the top-level
walk reaches a cursor at which a whole header can be read (8 bytes, or 16 when
the size field is 1) and the resolved size is smaller than that header, `New`
returns the format error, as soon as enough iterations are allowed; and every
top-level atom of a loaded file has a header of 8 or 16 bytes and a size no
smaller than its header. -/
theorem small_atoms_rejected :
    (∀ (fuel k : Nat) (b : List Byte) (offset : Nat), b.length < 2 ^ 64 →
      walk b k 0 = some offset → offset + headerLength b offset ≤ b.length →
      resolvedSize b offset < headerLength b offset →
      New (k + (fuel + 1)) b = .error .invalidFormat) ∧
    (∀ (fuel : Nat) (b : List Byte) (f : File), New fuel b = .ok f →
      ∀ a ∈ f.atoms, (a.HeaderSize = 8 ∨ a.HeaderSize = 16) ∧ a.HeaderSize ≤ a.Size) := by
  constructor
  · intro fuel k b offset hl hwalk hh hs
    apply New_of_parse_error
    unfold parse
    obtain ⟨f1, h1, h2⟩ := parseLoop_walk k 0 offset (fuel + 1)
      { bytes := b, atoms := [], ftyp := Atom.zero, mdat := Atom.zero, moov := Atom.zero }
      hwalk
    simp only at h1
    have hlt : offset < b.length := by
      unfold headerLength at hh; split_ifs at hh <;> omega
    rw [h2, parseLoop, h1, if_pos hlt, readAtom_too_small hl hh hs]
  · intro fuel b f h a ha
    obtain ⟨_, hr, _⟩ := New_ok h
    obtain ⟨_, h1, h2, _⟩ := readAtom_ok (hr a ha)
    exact ⟨h1, h2⟩

/-- C16, at the file `smallInput`, whose third atom declares 5 bytes, and at
the loaded file `plainLoaded`. -/
theorem small_atoms_rejected_witness :
    (smallInput.length < 2 ^ 64 ∧ walk smallInput 2 0 = some 16 ∧
      16 + headerLength smallInput 16 ≤ smallInput.length ∧
      resolvedSize smallInput 16 < headerLength smallInput 16 ∧
      New (2 + (0 + 1)) smallInput = .error .invalidFormat) ∧
    (New 3 plainInput = .ok plainLoaded ∧
      ∀ a ∈ plainLoaded.atoms, (a.HeaderSize = 8 ∨ a.HeaderSize = 16) ∧ a.HeaderSize ≤ a.Size) :=
  ⟨⟨by decide, by decide, by decide, by decide,
      small_atoms_rejected.1 0 2 smallInput 16 (by decide) (by decide) (by decide) (by decide)⟩,
    ⟨by decide, small_atoms_rejected.2 3 plainInput plainLoaded (by decide)⟩⟩

/-- C17. Patching changes only table entries: for every parent atom that lies
inside the buffer and whose nested atoms are well-formed, and every shift,
the patcher returns exactly as many bytes as the size of the parent, and they
are the bytes of the buffer at every position outside the entries of the
located tables; in particular the header of the parent, the header, the four
flag bytes and the four bytes of the count of every located table, and the
header of every atom reached by the search are unchanged. -/
theorem patch_changes_only_entries (fuel : Nat) (f : File) (parent : Atom)
    (forest : Forest) (shiftBy : Nat)
    (hin : parent.Offset + parent.Size ≤ f.bytes.length) (hl : f.bytes.length < 2 ^ 64)
    (hwf : WellFormed f.bytes forest (parent.Offset + parent.HeaderSize)
      (parent.Offset + parent.Size))
    (hfuel : forest.size ≤ fuel) :
    ∃ pm, patchChunkOffsetAtoms fuel f parent shiftBy = .ok pm ∧ pm.length = parent.Size ∧
      (∀ j, j < parent.Size →
        (∀ t ∈ tablesOf forest, parent.Offset + j < tableStart t ∨
          tableStart t + tableWidth t * tableCount f.bytes t ≤ parent.Offset + j) →
        pm[j]? = f.bytes[parent.Offset + j]?) ∧
      (∀ j, j < parent.HeaderSize → pm[j]? = f.bytes[parent.Offset + j]?) ∧
      (∀ t ∈ tablesOf forest, ∀ j, t.Offset ≤ parent.Offset + j →
        parent.Offset + j < t.Offset + t.HeaderSize + 8 →
        pm[j]? = f.bytes[parent.Offset + j]?) ∧
      (∀ u ∈ forest.nodes, ∀ j, u.Offset ≤ parent.Offset + j →
        parent.Offset + j < u.Offset + u.HeaderSize →
        pm[j]? = f.bytes[parent.Offset + j]?) := by
  obtain ⟨_, pm, hpm, hlen, hframe, _⟩ := @patch_wellformed fuel f parent forest shiftBy hin
    hl hwf hfuel
  have hle := WellFormed_le _ _ _ hwf
  have hApart := tablesOf_apart _ _ _ hwf
  have mem := (TablesApart_mem _ _ _ hApart).2
  refine ⟨pm, hpm, hlen, hframe, ?_, ?_, ?_⟩
  · intro j hj
    apply hframe j (by omega)
    intro t ht
    have := (mem t ht).1
    left; unfold tableStart; omega
  · intro t ht j hj1 hj2
    have := mem t ht
    apply hframe j (by unfold tableStart at this; omega)
    exact before_start_outside _ _ _ hApart t ht _ hj1 hj2
  · intro u hu j hj1 hj2
    have := nodes_extent _ _ _ hwf u hu
    apply hframe j (by omega)
    exact header_outside _ _ _ hwf u hu _ hj1 hj2

/-- C17, at the moov of `bothInput` with the shift 84: 84 bytes come back, and
the first byte of the count of the `stco` table is unchanged. -/
theorem patch_changes_only_entries_witness :
    bothMoov.Offset + bothMoov.Size ≤ bothLoaded.bytes.length ∧
    bothLoaded.bytes.length < 2 ^ 64 ∧
    WellFormed bothLoaded.bytes bothForest (bothMoov.Offset + bothMoov.HeaderSize)
      (bothMoov.Offset + bothMoov.Size) ∧
    bothForest.size ≤ 6 ∧
    ∃ pm, patchChunkOffsetAtoms 6 bothLoaded bothMoov 84 = .ok pm ∧ pm.length = 84 ∧
      pm[52]? = bothInput[16 + 52]? :=
  ⟨by decide, by decide, by decide, by decide,
    match patch_changes_only_entries 6 bothLoaded bothMoov bothForest 84 (by decide)
      (by decide) (by decide) (by decide) with
    | ⟨pm, h1, h2, _, _, h5, _⟩ =>
      ⟨pm, h1, h2, h5 bothStco (by decide) 52 (by decide) (by decide)⟩⟩

/-- C18. Offset-table discovery is exact and ordered: for every parent atom
whose nested atoms are well-formed (described by `forest`), as soon as the
search may run as many iterations as there are atoms it returns the tables of
the specification: the atoms tagged `stco` or `co64` among the children of
the parent and of the descendants reached through `trak`, `mdia`, `minf` and
`stbl` only, by ascending offset; an atom with any other tag shares no byte
with a returned atom; and an stbl in trak, mdia, minf that holds an `stco` and
a `co64` yields both. -/
theorem offset_tables_found (fuel : Nat) (f : File) (parent : Atom) (forest : Forest)
    (h64 : parent.Offset + parent.Size < 2 ^ 64)
    (hwf : WellFormed f.bytes forest (parent.Offset + parent.HeaderSize)
      (parent.Offset + parent.Size))
    (hfuel : forest.size ≤ fuel) :
    findChunkOffsetAtoms fuel f parent = .ok (tablesOf forest) ∧
    tablesOf forest = forest.nodes.filter isTable ∧
    (tablesOf forest).Pairwise (fun x y => x.Offset < y.Offset) ∧
    (∀ u ∈ forest.nodes, isTable u = false → isContainer u = false →
      ∀ t ∈ tablesOf forest, t.Offset + t.Size ≤ u.Offset ∨ u.Offset + u.Size ≤ t.Offset) ∧
    (∀ a1 a2 a3 a4 s c : Atom,
      forest = .cons a1 (.cons a2 (.cons a3 (.cons a4 (.cons s .nil (.cons c .nil .nil))
        .nil) .nil) .nil) .nil →
      a1.Typ = tagTrak → a2.Typ = tagMdia → a3.Typ = tagMinf → a4.Typ = tagStbl →
      s.Typ = tagStco → c.Typ = tagCo64 →
      findChunkOffsetAtoms fuel f parent = .ok [s, c]) := by
  have hle := WellFormed_le _ _ _ hwf
  have eE : parent.End = parent.Offset + parent.Size := Nat.mod_eq_of_lt (by omega)
  have eH : parent.HeaderEnd = parent.Offset + parent.HeaderSize :=
    Nat.mod_eq_of_lt (by omega)
  have hfind : findChunkOffsetAtoms fuel f parent = .ok (tablesOf forest) := by
    unfold findChunkOffsetAtoms
    rw [eE, eH, findLoop_wellformed f.bytes forest _ _ fuel [] hwf (by omega) hfuel]
    simp
  refine ⟨hfind, tablesOf_eq_filter forest,
    TablesApart_sorted _ _ _ (tablesOf_apart _ _ _ hwf), skipped_disjoint _ _ _ hwf, ?_⟩
  intro a1 a2 a3 a4 s c hf t1 t2 t3 t4 t5 t6
  rw [hfind, hf]
  have c1 : isContainer a1 = true := by rw [isContainer, t1]; decide
  have c2 : isContainer a2 = true := by rw [isContainer, t2]; decide
  have c3 : isContainer a3 = true := by rw [isContainer, t3]; decide
  have c4 : isContainer a4 = true := by rw [isContainer, t4]; decide
  have n1 : isTable a1 = false := by rw [isTable, t1]; decide
  have n2 : isTable a2 = false := by rw [isTable, t2]; decide
  have n3 : isTable a3 = false := by rw [isTable, t3]; decide
  have n4 : isTable a4 = false := by rw [isTable, t4]; decide
  have n5 : isTable s = true := by rw [isTable, t5]; decide
  have n6 : isTable c = true := by rw [isTable, t6]; decide
  simp [tablesOf, c1, c2, c3, c4, n1, n2, n3, n4, n5, n6]

/-- C18, at the moov of `bothInput`: the search returns the `stco` and the
`co64` table of the stbl. -/
theorem offset_tables_found_witness :
    bothMoov.Offset + bothMoov.Size < 2 ^ 64 ∧
    WellFormed bothLoaded.bytes bothForest (bothMoov.Offset + bothMoov.HeaderSize)
      (bothMoov.Offset + bothMoov.Size) ∧
    bothForest.size ≤ 6 ∧
    findChunkOffsetAtoms 6 bothLoaded bothMoov = .ok [bothStco, bothCo64] :=
  ⟨by decide, by decide, by decide,
    (offset_tables_found 6 bothLoaded bothMoov bothForest (by decide) (by decide)
      (by decide)).2.2.2.2 _ _ _ _ bothStco bothCo64 rfl rfl rfl rfl rfl rfl rfl⟩

/-- C19, at the file `stuckInput`, which `New` loads: the only child of moov
declares the size 0, `readAtom` returns its error there, and the search for
chunk offset atoms, hence `Convert` for both values of `clean`, gives no
result within any number of loop iterations. -/
theorem search_never_returns (fuel : Nat) :
    New (fuel + 3) stuckInput = .ok stuckLoaded ∧
    readAtom stuckInput stuckLoaded.moov.HeaderEnd = .error .invalidFormat ∧
    findChunkOffsetAtoms fuel stuckLoaded stuckLoaded.moov = .outOfFuel ∧
    Convert fuel false stuckLoaded = .outOfFuel ∧
    Convert fuel true stuckLoaded = .outOfFuel := by
  have hr : readAtom stuckInput 24 = .error .invalidFormat := by decide
  have hf : findChunkOffsetAtoms fuel stuckLoaded stuckLoaded.moov = .outOfFuel :=
    findLoop_stuck hr (by decide) fuel []
  refine ⟨by cases fuel <;> rfl, hr, hf, ?_, ?_⟩
  · unfold Convert patchChunkOffsetAtoms
    rw [hf]
  · unfold Convert patchChunkOffsetAtoms
    rw [hf]

/-- C20, at the file `cycleInput`: the moov atom at offset 16 declares the
64-bit size `2 ^ 64 - 16`, the cursor `16 + size` wraps around to 0, and the
scan, hence `New`, gives no result within any number of loop iterations. -/
theorem scan_never_returns (fuel : Nat) :
    readAtom cycleInput 16
      = .ok { Typ := tagMoov, Offset := 16, Size := 2 ^ 64 - 16, HeaderSize := 16 } ∧
    add64 16 (2 ^ 64 - 16) = 0 ∧
    New fuel cycleInput = .outOfFuel := by
  refine ⟨by decide, by decide, ?_⟩
  unfold New parse
  rw [(parseLoop_cycle fuel _ rfl).1]

end qtfaststart
